import Mathlib

/-!
Verification of the automaton-construction core of genautomata
(pipeline hazard recognizer generator).  The definitions below are a
shallow embedding of the corresponding C functions of
src/gcc/genautomata.c; each definition carries the name of the C
function it embeds.  Machine bitsets (reserv_sets_t) are embedded as
cycle-indexed lists of unit-indexed boolean lists; the word-wise loops
of the C code become bounded quantifications over cycles and units.
-/

set_option maxHeartbeats 1000000

namespace Genautomata

/-! ## Data model: units and the description (struct unit_decl / struct description) -/

/-- Per-unit fields of struct unit_decl that the automaton core reads:
the owning automaton, the query flag, the in_set_p flag (unit occurs in
some exclusion/presence/absence set), min_occ_cycle_num, excl_list and
the four pattern lists (each pattern is the list of unit numbers of one
pattern_reserv). -/
structure UnitInfo where
  automatonId : Nat
  queryP : Bool
  inSetP : Bool
  minOcc : Nat
  exclList : List Nat
  presenceList : List (List Nat)
  finalPresenceList : List (List Nat)
  absenceList : List (List Nat)
  finalAbsenceList : List (List Nat)
deriving DecidableEq, Repr

/-- The description fields used by the reservation-set algebra:
units_num, max_cycles_num (= max_insn_reserv_cycles) and units_array. -/
structure Description where
  unitsNum : Nat
  maxCyclesNum : Nat
  units : Nat → UnitInfo

/-! ## Reservation sets (reserv_sets_t) -/

/-- A reservation set: bit (cycle, unit).  Stored as max_cycles_num rows
of units_num booleans. -/
abbrev Reservs := List (List Bool)

/-- Reading bit (cycle, unit) of a reservation set (TEST_BIT /
test_unit_reserv at the given cycle). -/
def rsTest (rs : Reservs) (cycle unitNum : Nat) : Bool :=
  (rs.getD cycle []).getD unitNum false

/-- Building a reservation set of the canonical dimensions from a bit
predicate. -/
def rsOfFun (d : Description) (f : Nat → Nat → Bool) : Reservs :=
  (List.range d.maxCyclesNum).map fun c => (List.range d.unitsNum).map fun u => f c u

/-- OR of reservation sets (reserv_sets_or). -/
def reservSetsOr (d : Description) (a b : Reservs) : Reservs :=
  rsOfFun d fun c u => rsTest a c u || rsTest b c u

/-- AND of reservation sets (reserv_sets_and). -/
def reservSetsAnd (d : Description) (a b : Reservs) : Reservs :=
  rsOfFun d fun c u => rsTest a c u && rsTest b c u

/-- Shift of a reservation set by one cpu cycle (reserv_sets_shift).
The C function copies cycles 1 .. max-1 of the operand into cycles
0 .. max-2 of the result; the result's last cycle keeps its previous
content, which at every call site (state_shift) is a freshly zeroed
set, hence false here. -/
def reservSetsShift (d : Description) (a : Reservs) : Reservs :=
  rsOfFun d fun c u => if c + 1 < d.maxCyclesNum then rsTest a (c + 1) u else false

/-- One cycle of a reservation set as a unit predicate. -/
def rsCycle (rs : Reservs) (cycle : Nat) : Nat → Bool :=
  fun u => rsTest rs cycle u

/-! ## Exclusion, presence and absence pattern checks -/

/-- Union of the exclusion sets of all units present in in_set
(get_excl_set, reading unit_excl_set_table built from excl_list). -/
def getExclSet (d : Description) (inSet : Nat → Bool) : Nat → Bool :=
  fun u => (List.range d.unitsNum).any fun v => inSet v && (d.units v).exclList.contains u

/-- Selection of a unit's presence pattern table
(unit_presence_set_table / unit_final_presence_set_table). -/
def unitPresencePats (d : Description) (finalP : Bool) (u : Nat) : List (List Nat) :=
  if finalP then (d.units u).finalPresenceList else (d.units u).presenceList

/-- Selection of a unit's absence pattern table
(unit_absence_set_table / unit_final_absence_set_table). -/
def unitAbsencePats (d : Description) (finalP : Bool) (u : Nat) : List (List Nat) :=
  if finalP then (d.units u).finalAbsenceList else (d.units u).absenceList

/-- Presence check for one cycle (check_presence_pattern_sets): for each
unit of origionalSet whose (final) presence list is nonempty, some
pattern of that list must be entirely contained in checkedSet.  Returns
true when everything is satisfied. -/
def checkPresencePatternSets (d : Description) (checkedSet origionalSet : Nat → Bool)
    (finalP : Bool) : Bool :=
  (List.range d.unitsNum).all fun u =>
    if origionalSet u then
      if (unitPresencePats d finalP u).isEmpty then true
      else (unitPresencePats d finalP u).any fun pat => pat.all fun v => checkedSet v
    else true

/-- Absence check for one cycle (check_absence_pattern_sets): for each
unit of origionalSet, no pattern of its (final) absence list may be
entirely contained in checkedSet.  Returns true when everything is
satisfied. -/
def checkAbsencePatternSets (d : Description) (checkedSet origionalSet : Nat → Bool)
    (finalP : Bool) : Bool :=
  (List.range d.unitsNum).all fun u =>
    if origionalSet u then
      (unitAbsencePats d finalP u).all fun pat => !(pat.all fun v => checkedSet v)
    else true

/-- The unified intersection predicate (reserv_sets_are_intersected):
true when some bit is set in both operands, or when some per-cycle
exclusion / presence / absence check fails.  The exclusion check tests
operand-1 bits against the exclusion sets of operand-2 units; the
non-final presence/absence checks test operand 1 against the pattern
lists of operand-2 units; the final checks test the union (temp_reserv)
against the pattern lists of operand-2 units. -/
def reservSetsAreIntersected (d : Description) (operand1 operand2 : Reservs) : Bool :=
  ((List.range d.maxCyclesNum).any fun c =>
    (List.range d.unitsNum).any fun u => rsTest operand1 c u && rsTest operand2 c u)
  ||
  ((List.range d.maxCyclesNum).any fun c =>
    let c1 := rsCycle operand1 c
    let c2 := rsCycle operand2 c
    let cu := fun u => c1 u || c2 u
    ((List.range d.unitsNum).any fun u => c1 u && getExclSet d c2 u)
    || !(checkPresencePatternSets d c1 c2 false)
    || !(checkPresencePatternSets d cu c2 true)
    || !(checkAbsencePatternSets d c1 c2 false)
    || !(checkAbsencePatternSets d cu c2 true))

/-- Rendering of claim C1's own words: the same predicate, but with the
pattern checks attached to units reserved in either operand (both
operand directions for the per-cycle exclusion and non-final checks,
and the final checks applied to the union on behalf of all units of the
union). -/
def claimC1Intersected (d : Description) (operand1 operand2 : Reservs) : Bool :=
  ((List.range d.maxCyclesNum).any fun c =>
    (List.range d.unitsNum).any fun u => rsTest operand1 c u && rsTest operand2 c u)
  ||
  ((List.range d.maxCyclesNum).any fun c =>
    let c1 := rsCycle operand1 c
    let c2 := rsCycle operand2 c
    let cu := fun u => c1 u || c2 u
    ((List.range d.unitsNum).any fun u => c1 u && getExclSet d c2 u)
    || ((List.range d.unitsNum).any fun u => c2 u && getExclSet d c1 u)
    || !(checkPresencePatternSets d c1 c2 false)
    || !(checkPresencePatternSets d c2 c1 false)
    || !(checkPresencePatternSets d cu cu true)
    || !(checkAbsencePatternSets d c1 c2 false)
    || !(checkAbsencePatternSets d c2 c1 false)
    || !(checkAbsencePatternSets d cu cu true))

/-! ## Concrete description for the C1 counterexample -/

/-- A unit with no constraint lists at all. -/
def plainUnit : UnitInfo :=
  { automatonId := 0, queryP := false, inSetP := false, minOcc := 0
    exclList := [], presenceList := [], finalPresenceList := []
    absenceList := [], finalAbsenceList := [] }

/-- Description for the C1 counterexample: two units on one cycle; unit
0 carries presence pattern [1] and final presence pattern [1]. -/
def dC1 : Description :=
  { unitsNum := 2
    maxCyclesNum := 1
    units := fun u =>
      if u = 0 then
        { plainUnit with presenceList := [[1]], finalPresenceList := [[1]], inSetP := true }
      else plainUnit }

/-- Operand a of the C1 counterexample: unit 0 reserved on cycle 0. -/
def aC1 : Reservs := rsOfFun dC1 fun c u => decide (c = 0) && decide (u = 0)

/-- Operand b of the C1 counterexample: empty reservation. -/
def bC1 : Reservs := rsOfFun dC1 fun _ _ => false

/-! ## reservs_matter (form_reservs_matter) and state union / shift -/

/-- The mask of unit reservations which can affect the states reachable
from a state (form_reservs_matter): bit (cycle, unit) is kept when the
unit belongs to the automaton and the cycle is at least the unit's
min_occ_cycle_num, or the unit is a query unit, or the unit occurs in
some exclusion/presence/absence set. -/
def formReservsMatter (d : Description) (automatonId : Nat) : Reservs :=
  rsOfFun d fun cycle u =>
    (d.units u).automatonId == automatonId
    && (decide ((d.units u).minOcc ≤ cycle) || (d.units u).queryP || (d.units u).inSetP)

/-- Rendering of claim C5's own words: a unit's bit is pruned at every
cycle at least min_occ_cycle_num unless the unit is a query unit or
occurs in an exclusion/presence/absence set. -/
def claimC5ReservsMatter (d : Description) (automatonId : Nat) : Reservs :=
  rsOfFun d fun cycle u =>
    (d.units u).automatonId == automatonId
    && (decide (cycle < (d.units u).minOcc) || (d.units u).queryP || (d.units u).inSetP)

/-- Union of two state reservations masked by reservs (states_union:
reserv_sets_or followed by reserv_sets_and with the mask). -/
def statesUnionReservs (d : Description) (s1 s2 mask : Reservs) : Reservs :=
  reservSetsAnd d (reservSetsOr d s1 s2) mask

/-- Cycle shift of a state reservation masked by reservs (state_shift). -/
def stateShiftReservs (d : Description) (s mask : Reservs) : Reservs :=
  reservSetsAnd d (reservSetsShift d s) mask

/-- Description for the C5 counterexample: a single unit with
min_occ_cycle_num 0, not queried and in no constraint set. -/
def dC5 : Description :=
  { unitsNum := 1, maxCyclesNum := 1, units := fun _ => plainUnit }

/-! ## add_presence_absence (checker, claim C7) -/

/-- A unit occurring in a presence/absence pattern: its id and its
automaton name (none when the unit names no automaton). -/
structure PatUnit where
  id : Nat
  automatonName : Option Nat
deriving DecidableEq, Repr

/-- The fields of a destination unit_decl read and written by
add_presence_absence. -/
structure PAUnit where
  id : Nat
  automatonName : Option Nat
  exclIds : List Nat
  presenceList : List (List Nat)
  finalPresenceList : List (List Nat)
  absenceList : List (List Nat)
  finalAbsenceList : List (List Nat)
deriving DecidableEq, Repr

/-- The list append of add_presence_absence: the last element prev_el
of the scanned list is found (for presence the scanned list is
dst->unit_decl->final_presence_list on BOTH branches of the
final_p conditional), then the copied pattern either becomes the head
of the branch-selected list (when prev_el is null) or is chained after
prev_el, i.e. appended to the scanned list. -/
def paAppendPattern (presenceP finalP : Bool) (dst : PAUnit) (patIds : List Nat) : PAUnit :=
  let scanned := if presenceP then
      (if finalP then dst.finalPresenceList else dst.finalPresenceList)
    else (if finalP then dst.finalAbsenceList else dst.absenceList)
  if scanned = [] then
    if presenceP then
      (if finalP then { dst with finalPresenceList := [patIds] }
       else { dst with presenceList := [patIds] })
    else if finalP then { dst with finalAbsenceList := [patIds] }
    else { dst with absenceList := [patIds] }
  else
    if presenceP then { dst with finalPresenceList := dst.finalPresenceList ++ [patIds] }
    else if finalP then { dst with finalAbsenceList := dst.finalAbsenceList ++ [patIds] }
    else { dst with absenceList := dst.absenceList ++ [patIds] }

/-- One iteration of the innermost loop of add_presence_absence (one
unit u of one pattern pat for one destination unit): the error checks,
then, when no hard error occurred, the append of a copy of the
pattern.  The second component of the state counts hard errors. -/
def paProcessPatternUnit (wFlag presenceP finalP : Bool) (pat : List PatUnit)
    (st : PAUnit × Nat) (u : PatUnit) : PAUnit × Nat :=
  let dst := st.1
  if dst.id = u.id ∧ pat.length = 1 ∧ ¬ presenceP then
    (dst, st.2 + 1)
  else if dst.automatonName ≠ none ∧ u.automatonName ≠ none
      ∧ dst.automatonName ≠ u.automatonName then
    (dst, st.2 + 1)
  else
    let exclErrs := if presenceP then
        (dst.exclIds.filter fun e => u.id = e ∧ pat.length = 1).length
      else 0
    let presErrs := if ¬ presenceP ∧ pat.length = 1 then
        (dst.presenceList.filter fun p => p.length = 1 ∧ p.getD 0 0 = u.id).length
      else 0
    let newErrs := if wFlag then 0 else exclErrs + presErrs
    if newErrs = 0 then
      (paAppendPattern presenceP finalP dst (pat.map PatUnit.id), st.2)
    else
      (dst, st.2 + newErrs)

/-- Processing of one pattern of the pattern list for one destination
unit: the inner loop over the units of the pattern. -/
def paProcessPattern (wFlag presenceP finalP : Bool) (st : PAUnit × Nat)
    (pat : List PatUnit) : PAUnit × Nat :=
  pat.foldl (paProcessPatternUnit wFlag presenceP finalP pat) st

/-- add_presence_absence restricted to one destination unit: the loop
over the pattern list (the destination units of dest_list are processed
independently of each other). -/
def addPresenceAbsenceForUnit (wFlag presenceP finalP : Bool) (dst : PAUnit)
    (patternList : List (List PatUnit)) : PAUnit × Nat :=
  patternList.foldl (paProcessPattern wFlag presenceP finalP) (dst, 0)

/-- A pattern-list unit with no automaton name. -/
def patU (n : Nat) : PatUnit := { id := n, automatonName := none }

/-- Destination unit for the C7 failing input: unit 0, no exclusions,
all pattern lists empty except final_presence_list which already holds
the pattern [3]. -/
def dstC7 : PAUnit :=
  { id := 0, automatonName := none, exclIds := []
    presenceList := [], finalPresenceList := [[3]]
    absenceList := [], finalAbsenceList := [] }

/-- Destination unit for the second C7 failing input: all four lists
empty. -/
def dstC7b : PAUnit :=
  { id := 0, automatonName := none, exclIds := []
    presenceList := [], finalPresenceList := []
    absenceList := [], finalAbsenceList := [] }

/-! ## first_cycle_unit_presence (claims C10, C4) -/

/-- The per-state fields read by first_cycle_unit_presence: the state's
own reservation set and the list of component state ids (sorted by
state unique number, empty for an atomic state). -/
structure StateRec where
  reservs : Reservs
  componentStates : List Nat
deriving DecidableEq, Repr

/-- first_cycle_unit_presence: whether the state reserves the unit on
the first cycle; for a composite state the reservation set of the FIRST
component state is consulted. -/
def firstCycleUnitPresence (pool : Nat → StateRec) (s : StateRec) (unitNum : Nat) : Bool :=
  match s.componentStates with
  | [] => rsTest s.reservs 0 unitNum
  | c :: _ => rsTest (pool c).reservs 0 unitNum

/-- Pool for the C10 witness: state 1 reserves nothing, state 2
reserves unit 0 on cycle 0. -/
def poolC10 : Nat → StateRec := fun n =>
  if n = 2 then { reservs := [[true]], componentStates := [] }
  else { reservs := [[false]], componentStates := [] }

/-- Composite state for the C10 witness, with sorted components 1 and 2. -/
def sC10 : StateRec := { reservs := [[true]], componentStates := [1, 2] }

/-! ## Reservation expressions (struct regexp) and the transformer (claims C2, C8, C9) -/

/-- Reservation expressions: the seven regexp node modes (rm_unit,
rm_reserv, rm_nothing, rm_sequence, rm_repeat, rm_allof, rm_oneof).
unitR carries the unit number, reservR the declaration index of the
referenced define_reservation. -/
inductive Regexp where
  | unitR (unitNum : Nat)
  | reservR (declId : Nat)
  | nothingR
  | seqR (regexps : List Regexp)
  | allofR (regexps : List Regexp)
  | oneofR (regexps : List Regexp)
  | repeatR (regexp : Regexp) (repeatNum : Nat)

/-- Mode test for rm_sequence. -/
def Regexp.isSeqNode : Regexp → Bool
  | .seqR _ => true
  | _ => false

/-- Mode test for rm_allof. -/
def Regexp.isAllofNode : Regexp → Bool
  | .allofR _ => true
  | _ => false

/-- Mode test for rm_oneof. -/
def Regexp.isOneofNode : Regexp → Bool
  | .oneofR _ => true
  | _ => false

/-- Mode test for rm_unit. -/
def Regexp.isUnitNode : Regexp → Bool
  | .unitR _ => true
  | _ => false

/-- Mode test for rm_nothing. -/
def Regexp.isNothingNode : Regexp → Bool
  | .nothingR => true
  | _ => false

/-- The operand list of a sequence/allof/oneof node (empty for other
modes). -/
def Regexp.elems : Regexp → List Regexp
  | .seqR rs => rs
  | .allofR rs => rs
  | .oneofR rs => rs
  | _ => []

mutual

/-- copy_insn_regexp: deep copy which substitutes every Reserv node by
a copy of the regexp of the referenced define_reservation (env maps a
declaration index to that regexp).  The C function recurses through
declaration references without a bound (the checker has rejected
cycles); the embedding spends one unit of fuel per recursive call. -/
def copyInsnRegexp (env : Nat → Option Regexp) : Nat → Regexp → Option Regexp
  | 0, _ => none
  | fuel + 1, r =>
    match r with
    | .unitR n => some (.unitR n)
    | .nothingR => some .nothingR
    | .reservR d => (env d).bind (copyInsnRegexp env fuel)
    | .repeatR r1 n => (copyInsnRegexp env fuel r1).map (.repeatR · n)
    | .seqR rs => (copyListRegexp env fuel rs).map .seqR
    | .allofR rs => (copyListRegexp env fuel rs).map .allofR
    | .oneofR rs => (copyListRegexp env fuel rs).map .oneofR

/-- copy_insn_regexp over an operand list. -/
def copyListRegexp (env : Nat → Option Regexp) : Nat → List Regexp → Option (List Regexp)
  | _, [] => some []
  | 0, _ :: _ => none
  | fuel + 1, r :: rs =>
    match copyInsnRegexp env fuel r, copyListRegexp env fuel rs with
    | some r2, some rs2 => some (r2 :: rs2)
    | _, _ => none

end

/-- Search for the first operand satisfying p, split the list around it
(the transformations always act on the first nested match). -/
def splitFirst (p : Regexp → Bool) : List Regexp → Option (List Regexp × Regexp × List Regexp)
  | [] => none
  | r :: rs =>
    if p r then some ([], r, rs)
    else (splitFirst p rs).map fun bxa => (r :: bxa.1, bxa.2.1, bxa.2.2)

/-- transform_1: A*N -> A,A,...,A (N copies); aborts when N <= 1.  The
boolean result is the regexp_transformed_p flag. -/
def transform1 : Regexp → Option (Regexp × Bool)
  | .repeatR r n => if n ≤ 1 then none else some (.seqR (List.replicate n r), true)
  | r => some (r, false)

/-- transform_2: flattening of the first nested sequence inside a
sequence (likewise allof in allof and oneof in oneof); aborts when the
nested node or the outer node has fewer than two operands. -/
def transform2 : Regexp → Option (Regexp × Bool)
  | .seqR rs =>
    match splitFirst Regexp.isSeqNode rs with
    | none => some (.seqR rs, false)
    | some (bef, x, aft) =>
      if x.elems.length ≤ 1 ∨ rs.length ≤ 1 then none
      else some (.seqR (bef ++ x.elems ++ aft), true)
  | .allofR rs =>
    match splitFirst Regexp.isAllofNode rs with
    | none => some (.allofR rs, false)
    | some (bef, x, aft) =>
      if x.elems.length ≤ 1 ∨ rs.length ≤ 1 then none
      else some (.allofR (bef ++ x.elems ++ aft), true)
  | .oneofR rs =>
    match splitFirst Regexp.isOneofNode rs with
    | none => some (.oneofR rs, false)
    | some (bef, x, aft) =>
      if x.elems.length ≤ 1 ∨ rs.length ≤ 1 then none
      else some (.oneofR (bef ++ x.elems ++ aft), true)
  | r => some (r, false)

/-- The max_seq_length computation of transform_3's allof rule: zero
when some operand is neither a sequence nor a unit nor nothing,
otherwise the maximum sequence operand length. -/
def maxSeqLength (rs : List Regexp) : Nat :=
  if rs.all fun r => r.isSeqNode || r.isUnitNode || r.isNothingNode then
    (rs.map fun r => if r.isSeqNode then r.elems.length else 0).foldl max 0
  else 0

/-- The operands of the i-th allof of transform_3's allof-of-sequences
rule: the i-th element of every sequence operand long enough, plus (at
position 0 only) every unit/nothing operand. -/
def allofOpsAt (rs : List Regexp) (i : Nat) : List Regexp :=
  rs.filterMap fun r =>
    if r.isSeqNode then
      (if i < r.elems.length then some (r.elems.getD i .nothingR) else none)
    else if i = 0 then some r else none

/-- The allof node of transform_3's allof-of-sequences rule: a single
operand stands alone (allof_length == 1), otherwise an Allof node is
built. -/
def allofSingle (ops : List Regexp) : Regexp :=
  match ops with
  | [op] => op
  | _ => .allofR ops

/-- transform_3: lifting of the first oneof operand out of a sequence
or an allof, and distribution of an allof of sequences into a sequence
of allofs. -/
def transform3 : Regexp → Option (Regexp × Bool)
  | .seqR rs =>
    match splitFirst Regexp.isOneofNode rs with
    | none => some (.seqR rs, false)
    | some (bef, x, aft) =>
      if x.elems.length ≤ 1 ∨ rs.length ≤ 1 then none
      else some (.oneofR (x.elems.map fun alt => .seqR (bef ++ alt :: aft)), true)
  | .allofR rs =>
    match splitFirst Regexp.isOneofNode rs with
    | some (bef, x, aft) =>
      if x.elems.length ≤ 1 ∨ rs.length ≤ 1 then none
      else some (.oneofR (x.elems.map fun alt => .allofR (bef ++ alt :: aft)), true)
    | none =>
      if maxSeqLength rs = 0 then some (.allofR rs, false)
      else if maxSeqLength rs = 1 ∨ rs.length ≤ 1 then none
      else
        some (.seqR ((List.range (maxSeqLength rs)).map fun i =>
          allofSingle (allofOpsAt rs i)), true)
  | r => some (r, false)

mutual

/-- regexp_transform_func: apply the transformation function at every
node, operands first; the flag accumulates regexp_transformed_p.  A
Reserv node aborts (the traversal runs only after substitution). -/
def regexpTransformFunc (func : Regexp → Option (Regexp × Bool)) : Regexp → Option (Regexp × Bool)
  | .seqR rs =>
    match regexpTransformFuncList func rs with
    | none => none
    | some (rs2, f1) =>
      match func (.seqR rs2) with
      | none => none
      | some (r2, f2) => some (r2, f1 || f2)
  | .allofR rs =>
    match regexpTransformFuncList func rs with
    | none => none
    | some (rs2, f1) =>
      match func (.allofR rs2) with
      | none => none
      | some (r2, f2) => some (r2, f1 || f2)
  | .oneofR rs =>
    match regexpTransformFuncList func rs with
    | none => none
    | some (rs2, f1) =>
      match func (.oneofR rs2) with
      | none => none
      | some (r2, f2) => some (r2, f1 || f2)
  | .repeatR r n =>
    match regexpTransformFunc func r with
    | none => none
    | some (r1, f1) =>
      match func (.repeatR r1 n) with
      | none => none
      | some (r2, f2) => some (r2, f1 || f2)
  | .unitR n => func (.unitR n)
  | .nothingR => func .nothingR
  | .reservR _ => none

/-- regexp_transform_func over an operand list. -/
def regexpTransformFuncList (func : Regexp → Option (Regexp × Bool)) :
    List Regexp → Option (List Regexp × Bool)
  | [] => some ([], false)
  | r :: rs =>
    match regexpTransformFunc func r with
    | none => none
    | some (r2, f1) =>
      match regexpTransformFuncList func rs with
      | none => none
      | some (rs2, f2) => some (r2 :: rs2, f1 || f2)

end

/-- The do-while loop of transform_regexp: one pass of transform_2
followed by one pass of transform_3, repeated until no transformation
fired; the fuel bounds the number of iterations. -/
def transformLoop : Nat → Regexp → Option Regexp
  | 0, _ => none
  | fuel + 1, r =>
    match regexpTransformFunc transform2 r with
    | none => none
    | some (r2, f2) =>
      match regexpTransformFunc transform3 r2 with
      | none => none
      | some (r3, f3) =>
        if f2 || f3 then transformLoop fuel r3 else some r3

/-- transform_regexp: one pass of transform_1, then the loop. -/
def transformRegexp (fuel : Nat) (r : Regexp) : Option Regexp :=
  match regexpTransformFunc transform1 r with
  | none => none
  | some (r1, _) => transformLoop fuel r1

/-- The transformed_regexp of an insn reservation:
transform_regexp (copy_insn_regexp (regexp)). -/
def transformedRegexp (env : Nat → Option Regexp) (fuel : Nat) (r : Regexp) : Option Regexp :=
  match copyInsnRegexp env fuel r with
  | none => none
  | some r0 => transformRegexp fuel r0

mutual

/-- No Reserv node anywhere in the expression. -/
def noReserv : Regexp → Bool
  | .reservR _ => false
  | .seqR rs => noReservList rs
  | .allofR rs => noReservList rs
  | .oneofR rs => noReservList rs
  | .repeatR r _ => noReserv r
  | _ => true

/-- No Reserv node anywhere in the operand list. -/
def noReservList : List Regexp → Bool
  | [] => true
  | r :: rs => noReserv r && noReservList rs

end

mutual

/-- No Repeat node anywhere in the expression. -/
def noRepeat : Regexp → Bool
  | .repeatR _ _ => false
  | .seqR rs => noRepeatList rs
  | .allofR rs => noRepeatList rs
  | .oneofR rs => noRepeatList rs
  | _ => true

/-- No Repeat node anywhere in the operand list. -/
def noRepeatList : List Regexp → Bool
  | [] => true
  | r :: rs => noRepeat r && noRepeatList rs

end

mutual

/-- No Oneof node anywhere in the expression. -/
def noOneof : Regexp → Bool
  | .oneofR _ => false
  | .seqR rs => noOneofList rs
  | .allofR rs => noOneofList rs
  | .repeatR r _ => noOneof r
  | _ => true

/-- No Oneof node anywhere in the operand list. -/
def noOneofList : List Regexp → Bool
  | [] => true
  | r :: rs => noOneof r && noOneofList rs

end

mutual

/-- No Oneof node strictly below a Sequence or an Allof node. -/
def oneofBelowFree : Regexp → Bool
  | .seqR rs => noOneofList rs
  | .allofR rs => noOneofList rs
  | .oneofR rs => oneofBelowFreeList rs
  | .repeatR r _ => oneofBelowFree r
  | _ => true

/-- No Oneof node strictly below a Sequence or an Allof node of the
operand list members. -/
def oneofBelowFreeList : List Regexp → Bool
  | [] => true
  | r :: rs => oneofBelowFree r && oneofBelowFreeList rs

end

/-- A concrete substitution environment: reservation declaration 0
stands for the sequence u1, u2. -/
def envC2 : Nat → Option Regexp :=
  fun d => if d = 0 then some (.seqR [.unitR 1, .unitR 2]) else none

/-- A concrete reservation expression exercising substitution and
oneof distribution: (reserv 0), (u3 | u4). -/
def exC2 : Regexp :=
  .seqR [.reservR 0, .oneofR [.unitR 3, .unitR 4]]

/-- The transformed form of exC2: (u1, u2, u3) | (u1, u2, u4). -/
def resC2 : Regexp :=
  .oneofR [.seqR [.unitR 1, .unitR 2, .unitR 3], .seqR [.unitR 1, .unitR 2, .unitR 4]]

/-! ## Reservation-cycle detection (loop_in_regexp, check_loops_in_regexps) -/

mutual

/-- The declaration indices directly referenced by Reserv nodes of an
expression. -/
def directRefs : Regexp → List Nat
  | .reservR d => [d]
  | .seqR rs => directRefsList rs
  | .allofR rs => directRefsList rs
  | .oneofR rs => directRefsList rs
  | .repeatR r _ => directRefs r
  | _ => []

/-- directRefs over an operand list. -/
def directRefsList : List Regexp → List Nat
  | [] => []
  | r :: rs => directRefs r ++ directRefsList rs

end

/-- The regexp of declaration i: reservation declarations are a list of
regexps, out-of-range references read as nothing. -/
def declFun (decls : List Regexp) : Nat → Regexp :=
  fun i => decls.getD i .nothingR

/-- Transitive reference between declarations through Reserv nodes:
declaration j references d when a Reserv node for d appears in j's
expression, extended transitively. -/
inductive Reaches (decls : Nat → Regexp) : Nat → Nat → Prop where
  | step : ∀ {j d}, d ∈ directRefs (decls j) → Reaches decls j d
  | tail : ∀ {i j k}, Reaches decls i j → k ∈ directRefs (decls j) → Reaches decls i k

/-- An expression reaches target t: t is directly referenced, or some
directly referenced declaration transitively references t. -/
def RegexpReaches (decls : Nat → Regexp) (r : Regexp) (t : Nat) : Prop :=
  t ∈ directRefs r ∨ ∃ d ∈ directRefs r, Reaches decls d t

mutual

/-- loop_in_regexp: marks (the loop_pass_num fields, indexed by
declaration) thread through; a Reserv node for start_decl reports the
loop, an already-marked declaration is skipped, an unmarked one is
marked and its body searched.  The fuel bounds the recursion depth
through declaration bodies. -/
def loopInRegexp (decls : Nat → Regexp) (curr start : Nat) :
    Nat → (Nat → Nat) → Regexp → Option (Bool × (Nat → Nat))
  | 0, _, _ => none
  | fuel + 1, marks, r =>
    match r with
    | .unitR _ => some (false, marks)
    | .nothingR => some (false, marks)
    | .reservR d =>
      if d = start then some (true, marks)
      else if marks d = curr then some (false, marks)
      else loopInRegexp decls curr start fuel
        (fun j => if j = d then curr else marks j) (decls d)
    | .seqR rs => loopInList decls curr start fuel marks rs
    | .allofR rs => loopInList decls curr start fuel marks rs
    | .oneofR rs => loopInList decls curr start fuel marks rs
    | .repeatR r1 _ => loopInRegexp decls curr start fuel marks r1

/-- loop_in_regexp over an operand list: stop at the first operand that
reports a loop. -/
def loopInList (decls : Nat → Regexp) (curr start : Nat) :
    Nat → (Nat → Nat) → List Regexp → Option (Bool × (Nat → Nat))
  | 0, _, _ => none
  | _ + 1, marks, [] => some (false, marks)
  | fuel + 1, marks, r :: rs =>
    match loopInRegexp decls curr start fuel marks r with
    | none => none
    | some (true, m1) => some (true, m1)
    | some (false, m1) => loopInList decls curr start fuel m1 rs

end

/-- The second loop of check_loops_in_regexps from index i, k indices
remaining: curr_loop_pass_num is the declaration index, the
declaration's own loop_pass_num is set before the search, and an error
(collected index) is recorded when loop_in_regexp reports a loop. -/
def checkLoopsFrom (decls : Nat → Regexp) (fuel : Nat) :
    Nat → Nat → (Nat → Nat) → Option (List Nat)
  | _, 0, _ => some []
  | i, k + 1, marks =>
    match loopInRegexp decls i i fuel (fun j => if j = i then i else marks j) (decls i) with
    | none => none
    | some (b, m1) =>
      match checkLoopsFrom decls fuel (i + 1) k m1 with
      | none => none
      | some errs => some (if b then i :: errs else errs)

/-- check_loops_in_regexps: all loop_pass_num fields are first reset to
0, then every declaration is checked in order; the result is the list
of declaration indices for which the cycle error fires. -/
def checkLoopsInRegexps (fuel : Nat) (decls : List Regexp) : Option (List Nat) :=
  checkLoopsFrom (declFun decls) fuel 0 decls.length (fun _ => 0)

/-- Two mutually referencing reservation declarations:
declaration 0 = (reserv 1), declaration 1 = (reserv 0). -/
def declsC8 : List Regexp := [.reservR 1, .reservR 0]

/-- All direct references of an expression avoid start and are marked
with the current pass number: the exploration of the expression is
finished. -/
def refsClosed (curr start : Nat) (m : Nat → Nat) (r : Regexp) : Prop :=
  ∀ d ∈ directRefs r, d ≠ start ∧ m d = curr

/-! ## Reservation cycle counting (process_regexp_cycles) and the
insn queue index -/

/-- Merge of two optional maximal unit-occurrence cycles. -/
def mergeOcc : Option Nat → Option Nat → Option Nat
  | none, b => b
  | some x, none => some x
  | some x, some y => some (max x y)

/-- process_regexp_cycles: from the start cycle bounds of an
expression, its finish cycle bounds (a sequence element starts one past
the finish of the previous element; alternatives of allof and oneof all
start at the same cycles and the finish is their componentwise max and
min, the max starting from 0 and the min from the first alternative; a
repeat chains n sequential copies).  The third component records the
maximal cycle carried by any Unit node of the expression, if one occurs
(the max_occ_cycle_num updates of the source).  Reserv nodes expand
through env; the fuel bounds that recursion. -/
def processRegexpCycles (env : Nat → Regexp) :
    Nat → Regexp → Nat → Nat → Option (Nat × Nat × Option Nat)
  | 0, _, _, _ => none
  | fuel + 1, r, maxS, minS =>
    match r with
    | .unitR _ => some (maxS, minS, some maxS)
    | .nothingR => some (maxS, minS, none)
    | .reservR d => processRegexpCycles env fuel (env d) maxS minS
    | .repeatR r1 n =>
      match n with
      | 0 => none
      | n1 + 1 =>
        match processRegexpCycles env fuel r1 maxS minS with
        | none => none
        | some s0 =>
          (List.range n1).foldl (fun acc _ =>
            match acc with
            | none => none
            | some (mf, nf, occ) =>
              match processRegexpCycles env fuel r1 (mf + 1) (nf + 1) with
              | none => none
              | some (mf2, nf2, occ2) => some (mf2, nf2, mergeOcc occ occ2)) (some s0)
    | .seqR rs =>
      match rs with
      | [] => none
      | r0 :: rest =>
        match processRegexpCycles env fuel r0 maxS minS with
        | none => none
        | some s0 =>
          rest.foldl (fun acc r2 =>
            match acc with
            | none => none
            | some (mf, nf, occ) =>
              match processRegexpCycles env fuel r2 (mf + 1) (nf + 1) with
              | none => none
              | some (mf2, nf2, occ2) => some (mf2, nf2, mergeOcc occ occ2)) (some s0)
    | .allofR rs =>
      match rs.foldl (fun acc r2 =>
        match acc with
        | none => none
        | some (maxC, minC, first, occ) =>
          match processRegexpCycles env fuel r2 maxS minS with
          | none => none
          | some (mf, nf, occ1) =>
            some (max maxC mf, (if first then nf else min minC nf), false,
              mergeOcc occ occ1)) (some (0, 0, true, (none : Option Nat))) with
      | none => none
      | some (maxC, minC, _, occ) => some (maxC, minC, occ)
    | .oneofR rs =>
      match rs.foldl (fun acc r2 =>
        match acc with
        | none => none
        | some (maxC, minC, first, occ) =>
          match processRegexpCycles env fuel r2 maxS minS with
          | none => none
          | some (mf, nf, occ1) =>
            some (max maxC mf, (if first then nf else min minC nf), false,
              mergeOcc occ occ1)) (some (0, 0, true, (none : Option Nat))) with
      | none => none
      | some (maxC, minC, _, occ) => some (maxC, minC, occ)

/-- evaluate_max_reserv_cycles over a list of insn reservation
regexps: max_insn_reserv_cycles is one past the maximum finish cycle,
starting from cycle 0, over all insn reservations. -/
def evalMaxAux (env : Nat → Regexp) (fuel : Nat) : List Regexp → Nat → Option Nat
  | [], acc => some (acc + 1)
  | r :: rs, acc =>
    match processRegexpCycles env fuel r 0 0 with
    | none => none
    | some (mf, _, _) => evalMaxAux env fuel rs (max acc mf)

/-- evaluate_max_reserv_cycles. -/
def evaluateMaxReservCycles (env : Nat → Regexp) (fuel : Nat) (insns : List Regexp) :
    Option Nat :=
  evalMaxAux env fuel insns 0

/-- The maximal unit-occurrence cycle merged over all insn
reservations. -/
def insnsUnitOcc (env : Nat → Regexp) (fuel : Nat) : List Regexp → Option (Option Nat)
  | [] => some none
  | r :: rs =>
    match processRegexpCycles env fuel r 0 0 with
    | none => none
    | some (_, _, occ) => (insnsUnitOcc env fuel rs).map (mergeOcc occ)

/-- The claim's reading of max_insn_reserv_cycles: one past the
maximum cycle at which any instruction reserves a unit (the value 1
when no unit is reserved at all). -/
def claimMaxInsnReservCycles (env : Nat → Regexp) (fuel : Nat) (insns : List Regexp) :
    Option Nat :=
  (insnsUnitOcc env fuel insns).map fun occ => (match occ with | none => 0 | some c => c) + 1

/-- The exponent search of output_max_insn_queue_index_def: the first
i from below with 2^i greater than m (the fuel dominates the loop). -/
def queueExpAux : Nat → Nat → Nat → Nat
  | 0, i, _ => i
  | fuel + 1, i, m => if m < 2 ^ i then i else queueExpAux fuel (i + 1) m

/-- The smallest i with 2^i > m. -/
def queueExp (m : Nat) : Nat := queueExpAux (m + 1) 0 m

/-- output_max_insn_queue_index_def: max over
description.max_insn_reserv_cycles, the insn default latencies and the
bypass latencies, then the emitted constant (1 << i) - 1 for the first
i with (1 << i) > max. -/
def maxInsnQueueIndex (maxReservCycles : Nat) (latencies : List Nat) : Nat :=
  2 ^ queueExp (latencies.foldl max maxReservCycles) - 1

/-- The insn reservation of the C9 counterexample: a unit on cycle 0
followed by a nothing element occupying cycle 1. -/
def rC9 : Regexp := .seqR [.unitR 0, .nothingR]

/-- An empty reservation environment (the counterexample has no named
reservations). -/
def envC9 : Nat → Regexp := fun _ => .nothingR

/-! ## Comb-vector table compression (add_vect, comb_vect_p) -/

/-- A state x ainsn table: classesNum is insn_equiv_classes_num,
noStateValue is achieved_states_num (the check filler), undef is
undefined_vect_el_value, comb/check/base/full are the four vectors. -/
structure AinsnTable where
  classesNum : Nat
  noStateValue : Nat
  undef : Nat
  comb : List Nat
  check : List Nat
  base : List Nat
  full : List Nat

/-- create_state_ainsn_table: empty comb and check, base of length
achieved_states_num, full matrix filled with the undefined value. -/
def createTable (classesNum statesNum undef : Nat) : AinsnTable :=
  ⟨classesNum, statesNum, undef, [], [],
    List.replicate statesNum 0, List.replicate (classesNum * statesNum) undef⟩

/-- The full-vector row write of add_vect: vect entries at consecutive
positions from pos. -/
def writeFullRow : List Nat → Nat → List Nat → List Nat
  | full, _, [] => full
  | full, pos, v :: rest => writeFullRow (full.set pos v) (pos + 1) rest

/-- The conflict test of add_vect's slot search at displacement cvi: a
defined vect entry falls on a defined comb entry (an out-of-range comb
position reads as undefined, like the index bound of the source
loop; entries below first_unempty_vect_index are undefined and can
never conflict). -/
def conflictAt (undef : Nat) (comb vect : List Nat) (cvi : Nat) : Bool :=
  (List.range vect.length).any fun vi =>
    (vect.getD vi undef != undef) && (comb.getD (vi + cvi) undef != undef)

/-- The slot search loop of add_vect from displacement cvi with k
displacements left before the comb length is reached. -/
def findSlotAux (undef : Nat) (comb vect : List Nat) : Nat → Nat → Nat
  | cvi, 0 => cvi
  | cvi, k + 1 =>
    if conflictAt undef comb vect cvi then findSlotAux undef comb vect (cvi + 1) k else cvi

/-- The displacement add_vect picks: the first conflict-free one (the
comb length itself when every smaller one conflicts). -/
def findSlot (undef : Nat) (comb vect : List Nat) : Nat :=
  findSlotAux undef comb vect 0 comb.length

/-- The fill loop of add_vect: every defined vect entry is written to
comb and its row number to check at the displaced position; a defined
comb entry there is the abort of the source. -/
def fillRow (undef vn : Nat) : List Nat → Nat → List Nat → List Nat →
    Option (List Nat × List Nat)
  | [], _, comb, check => some (comb, check)
  | v :: rest, pos, comb, check =>
    if v = undef then fillRow undef vn rest (pos + 1) comb check
    else if comb.getD pos undef ≠ undef then none
    else fillRow undef vn rest (pos + 1) (comb.set pos v) (check.set pos vn)

/-- add_vect: abort on an empty vector or an undefined last element;
write the full-matrix row, find the comb displacement, grow comb and
check to displacement + insn_equiv_classes_num (comb with undefined
values, check with achieved_states_num), fill them, record the
displacement in base. -/
def addVect (tab : AinsnTable) (vn : Nat) (vect : List Nat) : Option AinsnTable :=
  if vect.length = 0 then none
  else if vect.getD (vect.length - 1) tab.undef = tab.undef then none
  else
    let full2 := writeFullRow tab.full (tab.classesNum * vn) vect
    let cvi := findSlot tab.undef tab.comb vect
    let comb1 := tab.comb ++ List.replicate (cvi + tab.classesNum - tab.comb.length) tab.undef
    let check1 :=
      tab.check ++ List.replicate (cvi + tab.classesNum - tab.check.length) tab.noStateValue
    match fillRow tab.undef vn vect cvi comb1 check1 with
    | none => none
    | some (comb2, check2) =>
      some { tab with
        comb := comb2, check := check2, base := tab.base.set vn cvi, full := full2 }

/-- A sequence of add_vect calls (one per state, as the output_*_table
loops make them). -/
def addVects (tab : AinsnTable) : List (Nat × List Nat) → Option AinsnTable
  | [] => some tab
  | (vn, vect) :: rest =>
    match addVect tab vn vect with
    | none => none
    | some tab2 => addVects tab2 rest

/-- comb_vect_p: the comb representation is chosen when
2 * |full| > 5 * |comb|. -/
def combVectP (tab : AinsnTable) : Bool :=
  decide (2 * tab.full.length > 5 * tab.comb.length)

/-- The generated comb-vector lookup: temp = base[state] + class; the
check guard compares against the state and failure yields the
undefined (default) value. -/
def combLookup (tab : AinsnTable) (state cls : Nat) : Nat :=
  if tab.check.getD (tab.base.getD state 0 + cls) tab.noStateValue = state then
    tab.comb.getD (tab.base.getD state 0 + cls) tab.undef
  else tab.undef

/-- The uncompressed lookup: full[class + classes * state]. -/
def fullLookup (tab : AinsnTable) (state cls : Nat) : Nat :=
  tab.full.getD (cls + tab.classesNum * state) tab.undef

/-- The invariant of the comb-vector table after inserting rows: check
and comb have equal length, base and full their creation lengths,
every check entry is either the filler or an inserted row number whose
comb entry is defined, every inserted row is correctly encoded (check
entries of its base window characterize its defined classes, comb
holds its values there, full holds its row), and the full rows of
uninserted states are undefined. -/
def TableInv (tab : AinsnTable) (rows : List (Nat × List Nat)) : Prop :=
  tab.check.length = tab.comb.length
  ∧ tab.base.length = tab.noStateValue
  ∧ tab.full.length = tab.classesNum * tab.noStateValue
  ∧ (∀ q, tab.check.getD q tab.noStateValue ≠ tab.noStateValue →
      tab.check.getD q tab.noStateValue ∈ rows.map Prod.fst
      ∧ tab.comb.getD q tab.undef ≠ tab.undef)
  ∧ (∀ vn vect, (vn, vect) ∈ rows →
      vect.length ≤ tab.classesNum
      ∧ vn < tab.noStateValue
      ∧ (∀ cls, cls < tab.classesNum →
          (tab.check.getD (tab.base.getD vn 0 + cls) tab.noStateValue = vn ↔
            (cls < vect.length ∧ vect.getD cls tab.undef ≠ tab.undef)))
      ∧ (∀ cls, cls < vect.length → vect.getD cls tab.undef ≠ tab.undef →
          tab.comb.getD (tab.base.getD vn 0 + cls) tab.undef = vect.getD cls tab.undef)
      ∧ (∀ cls, cls < tab.classesNum →
          tab.full.getD (cls + tab.classesNum * vn) tab.undef =
            (if cls < vect.length then vect.getD cls tab.undef else tab.undef)))
  ∧ (∀ vn, vn ∉ rows.map Prod.fst → vn < tab.noStateValue →
      ∀ cls, cls < tab.classesNum →
        tab.full.getD (cls + tab.classesNum * vn) tab.undef = tab.undef)

/-! ## NDFA/DFA construction (make_automaton, NDFA_to_DFA) -/

/-- An arc: target state id, insn id, state_alts. -/
structure ArcRec where
  dst : Nat
  insn : Nat
  stateAlts : Nat
deriving DecidableEq

/-- An automaton state: its reservation set (empty list for composed
states, whose reservations are never allocated), its sorted component
state ids (empty for deterministic states), its out arcs (head =
newest, as the intrusive list of the source), and the two
placed-in-stack flags. -/
structure NState where
  reservs : Reservs
  components : List Nat
  arcs : List ArcRec
  placedN : Bool
  placedD : Bool

/-- The state pool; a state's id is its creation index, which is also
its unique_num order. -/
abbrev StatePool := List NState

/-- Read a pool state. -/
def stAt (pool : StatePool) (i : Nat) : NState :=
  pool.getD i ⟨[], [], [], false, false⟩

/-- insert_state for a deterministic state: states are equal iff their
reservation sets are equal. -/
def findBase (pool : StatePool) (r : Reservs) : Option Nat :=
  (List.range pool.length).find? fun i =>
    (stAt pool i).components.isEmpty && (stAt pool i).reservs == r

/-- insert_state: the interned id of the deterministic state with
reservation r, creating it when absent. -/
def insertBase (pool : StatePool) (r : Reservs) : StatePool × Nat :=
  match findBase pool r with
  | some i => (pool, i)
  | none => (pool ++ [⟨r, [], [], false, false⟩], pool.length)

/-- insert_state for a composed state: equal iff the sorted component
lists coincide. -/
def findComposed (pool : StatePool) (comps : List Nat) : Option Nat :=
  (List.range pool.length).find? fun i =>
    !(stAt pool i).components.isEmpty && (stAt pool i).components == comps

/-- add_arc: an arc with the same target and insn is returned
unchanged, otherwise the new arc is pushed at the head of the out
list. -/
def addArcP (pool : StatePool) (fromId toId insn salts : Nat) : StatePool :=
  let st := stAt pool fromId
  if st.arcs.any fun a => a.dst == toId && a.insn == insn then pool
  else pool.set fromId { st with arcs := ⟨toId, insn, salts⟩ :: st.arcs }

/-- Mark a state as placed in the NDFA-forming stack and push it,
unless it already was. -/
def pushN (pool : StatePool) (stack : List Nat) (i : Nat) : StatePool × List Nat :=
  if (stAt pool i).placedN then (pool, stack)
  else (pool.set i { stAt pool i with placedN := true }, i :: stack)

/-- Mark a state as placed in the DFA-forming stack and push it,
unless it already was. -/
def pushD (pool : StatePool) (stack : List Nat) (i : Nat) : StatePool × List Nat :=
  if (stAt pool i).placedD then (pool, stack)
  else (pool.set i { stAt pool i with placedD := true }, i :: stack)

/-- The alternative loop of make_automaton for the test insn: each
alternative whose reservation does not intersect the current state
yields a union state and an arc with state_alts 1; without the ndfa
option the loop stops after the first added arc. -/
def maProcessAlts (d : Description) (mask : Reservs) (ndfa : Bool) (sId : Nat) :
    List Reservs → StatePool → List Nat → StatePool × List Nat × Bool
  | [], pool, stack => (pool, stack, false)
  | alt :: rest, pool, stack =>
    if reservSetsAreIntersected d (stAt pool sId).reservs alt then
      maProcessAlts d mask ndfa sId rest pool stack
    else
      let u := statesUnionReservs d (stAt pool sId).reservs alt mask
      let pr := insertBase pool u
      let ps := pushN pr.1 stack pr.2
      let pool3 := addArcP ps.1 sId pr.2 0 1
      if ndfa then
        let res := maProcessAlts d mask ndfa sId rest pool3 ps.2
        (res.1, res.2.1, true)
      else (pool3, ps.2, true)

/-- The recount of make_automaton without the ndfa option: the added
arc's state_alts becomes the number of non-intersecting
alternatives. -/
def detAltsCount (d : Description) (pool : StatePool) (sId : Nat)
    (alts : List Reservs) : Nat :=
  (alts.filter fun alt =>
    !(reservSetsAreIntersected d (stAt pool sId).reservs alt)).length

/-- Overwrite the state_alts of the arcs of sId marked by insn. -/
def setInsnArcAlts (pool : StatePool) (sId insn salts : Nat) : StatePool :=
  let st := stAt pool sId
  pool.set sId { st with arcs := st.arcs.map fun a =>
    if a.insn == insn then { a with stateAlts := salts } else a }

/-- The worklist loop of make_automaton: pop a state, process the test
insn's alternatives (with the deterministic recount when ndfa is off),
then the advance-cycle transition (insn 1) to the shifted state. -/
def makeAutomatonLoop (d : Description) (mask : Reservs) (alts : List Reservs)
    (ndfa : Bool) : Nat → StatePool → List Nat → Option StatePool
  | 0, _, _ => none
  | _ + 1, pool, [] => some pool
  | fuel + 1, pool, sId :: stack =>
    let pr := maProcessAlts d mask ndfa sId alts pool stack
    let pool2 :=
      if !ndfa && pr.2.2 then setInsnArcAlts pr.1 sId 0 (detAltsCount d pr.1 sId alts)
      else pr.1
    let sh := stateShiftReservs d (stAt pool2 sId).reservs mask
    let pi := insertBase pool2 sh
    let ps := pushN pi.1 pr.2.1 pi.2
    let pool5 := addArcP ps.1 sId pi.2 1 1
    makeAutomatonLoop d mask alts ndfa fuel pool5 ps.2

/-- make_automaton: start from the interned empty state. -/
def makeAutomaton (d : Description) (mask : Reservs) (alts : List Reservs)
    (ndfa : Bool) (fuel : Nat) : Option StatePool :=
  let pr := insertBase [] (rsOfFun d fun _ _ => false)
  let pool1 := pr.1.set pr.2 { stAt pr.1 pr.2 with placedN := true }
  makeAutomatonLoop d mask alts ndfa fuel pool1 [pr.2]

/-- Insertion into a sorted id list without duplicates (the order of
uniq_sort_alt_states: ascending unique numbers). -/
def insertSorted (x : Nat) : List Nat → List Nat
  | [] => [x]
  | y :: t => if x < y then x :: y :: t else if x = y then y :: t else y :: insertSorted x t

/-- uniq_sort_alt_states on component ids. -/
def uniqSortIds (l : List Nat) : List Nat :=
  l.foldl (fun acc x => insertSorted x acc) []

/-- The out arcs of a state marked by insn, in insertion order (the
order form_arcs_marked_by_insn produces). -/
def markedArcs (pool : StatePool) (sId insn : Nat) : List ArcRec :=
  (stAt pool sId).arcs.reverse.filter fun a => a.insn == insn

/-- create_composed_state: no or one marked arc leaves the graph
unchanged (the target is pushed); several marked arcs build the sorted
union of target components, intern the composed state (copying the
component out-arcs with state_alts 1 when it is new), retarget the
first marked arc to it, remove the remaining marked arcs, and set the
retargeted arc's state_alts to the number of removed arcs. -/
def composedStep (pool : StatePool) (stack : List Nat) (sId insn : Nat) :
    StatePool × List Nat :=
  match markedArcs pool sId insn with
  | [] => (pool, stack)
  | [a] => pushD pool stack a.dst
  | a :: rest =>
    let comps := (a :: rest).foldl (fun acc ar =>
      (if (stAt pool ar.dst).components.isEmpty then [ar.dst]
        else (stAt pool ar.dst).components) ++ acc) []
    match uniqSortIds comps with
    | [c] => pushD pool stack c
    | canon =>
      let pr : StatePool × Nat :=
        match findComposed pool canon with
        | some cid => (pool, cid)
        | none =>
          let cid := pool.length
          let pool1 := pool ++ [⟨[], canon, [], false, false⟩]
          let pool2 := canon.foldl (fun pl compId =>
            (stAt pool1 compId).arcs.foldl (fun pl2 ar =>
              addArcP pl2 cid ar.dst ar.insn 1) pl) pool1
          (pool2, cid)
      let cid := pr.2
      let removed := rest.map fun ar => ar.dst
      let st := stAt pr.1 sId
      let newArcs :=
        (st.arcs.filter fun x => !(x.insn == insn && removed.contains x.dst)).map
          fun x =>
            if x.insn == insn && x.dst == a.dst then
              { x with dst := cid, stateAlts := rest.length }
            else x
      let pool3 := pr.1.set sId { st with arcs := newArcs }
      pushD pool3 stack cid

/-- The worklist loop of NDFA_to_DFA: pop a state and run
create_composed_state for every insn. -/
def ndfaToDfaLoop (insns : List Nat) : Nat → StatePool → List Nat → Option StatePool
  | 0, _, _ => none
  | _ + 1, pool, [] => some pool
  | fuel + 1, pool, sId :: stack =>
    let pr := insns.foldl (fun acc insn => composedStep acc.1 acc.2 sId insn)
      (pool, stack)
    ndfaToDfaLoop insns fuel pr.1 pr.2

/-- NDFA_to_DFA: subset construction from the start state 0. -/
def ndfaToDfa (pool : StatePool) (fuel : Nat) : Option StatePool :=
  let pool1 := pool.set 0 { stAt pool 0 with placedD := true }
  ndfaToDfaLoop [0, 1] fuel pool1 [0]

/-- The single-unit machine of the claim: one unit, two cycles, no
exclusion or presence or absence patterns. -/
def dC6 : Description :=
  { unitsNum := 1, maxCyclesNum := 2, units := fun _ => plainUnit }

/-- The two alternatives of the insn reservation u | u,u: the unit on
cycle 0 alone, and the unit on cycles 0 and 1. -/
def altsC6 : List Reservs :=
  [rsOfFun dC6 fun c u => c == 0 && u == 0,
   rsOfFun dC6 fun c u => (c == 0 || c == 1) && u == 0]

/-- The reservs_matter mask of the machine. -/
def maskC6 : Reservs := formReservsMatter dC6 0

/-- The NDFA of the machine (ndfa option set). -/
def ndfaPoolC6 : Option StatePool := makeAutomaton dC6 maskC6 altsC6 true 20

/-- The automaton after subset construction. -/
def dfaPoolC6 : Option StatePool := ndfaPoolC6.bind fun p => ndfaToDfa p 20

/-- The deterministic automaton (ndfa option unset). -/
def detPoolC6 : Option StatePool := makeAutomaton dC6 maskC6 altsC6 false 20

/-- The insn-marked arcs of a state of an optional pool. -/
def insnArcsOf (p : Option StatePool) (sId insn : Nat) : List ArcRec :=
  match p with
  | none => []
  | some pool => markedArcs pool sId insn

/-- The component ids of a state of an optional pool. -/
def componentsOf (p : Option StatePool) (sId : Nat) : List Nat :=
  match p with
  | none => []
  | some pool => (stAt pool sId).components

/-- The reservation set of a state of an optional pool. -/
def reservsOf (p : Option StatePool) (sId : Nat) : Reservs :=
  match p with
  | none => []
  | some pool => (stAt pool sId).reservs

/-! ## Minimization (evaluate_equiv_classes, merge_states) -/

/-- The automaton the minimizer works on: per-state out arcs (at most
one per insn after determinization), per-state sorted component ids
(empty for deterministic states), and the first-cycle query-unit
presence vector of every deterministic state. -/
structure MinAuto where
  arcs : Nat → List ArcRec
  comps : Nat → List Nat
  baseObs : Nat → List Bool

/-- first_cycle_unit_presence over the query units: a deterministic
state reads its own reservations, a composed state those of its first
(lowest unique number) component. -/
def stateObs (A : MinAuto) (s : Nat) : List Bool :=
  match A.comps s with
  | [] => A.baseObs s
  | c :: _ => A.baseObs c

/-- state_is_differed: a state differs from the head of its class when
some of its arcs has no head arc with the same insn, target class (in
the reading coloring) and state_alts, or the arc counts differ, or the
first-cycle query-unit presences differ. -/
def stateIsDiffered (A : MinAuto) (cRead : Nat → Nat) (h s : Nat) : Bool :=
  ((A.arcs s).any fun a =>
    match (A.arcs h).find? (fun b => b.insn == a.insn) with
    | none => true
    | some b => !(cRead a.dst == cRead b.dst && a.stateAlts == b.stateAlts))
  || (A.arcs s).length != (A.arcs h).length
  || stateObs A s != stateObs A h

/-- partition_equiv_class on one class chain: members differing from
the head are moved (in reverse removal order) into a new class with a
fresh number, which is processed again in the same way; the function
returns the pruned chain, the new classes in creation order, the
updated writing coloring and counter, and whether anything split. -/
def partitionClass (A : MinAuto) (cRead : Nat → Nat) :
    Nat → List Nat → (Nat → Nat) → Nat →
    Option (List Nat × List (List Nat) × (Nat → Nat) × Nat × Bool)
  | 0, _, _, _ => none
  | _ + 1, [], cW, counter => some ([], [], cW, counter, false)
  | fuel + 1, h :: rest, cW, counter =>
    if rest.isEmpty then some ([h], [], cW, counter, false)
    else
      let retained := rest.filter fun s => !(stateIsDiffered A cRead h s)
      let moved := (rest.filter fun s => stateIsDiffered A cRead h s).reverse
      if moved.isEmpty then some (h :: rest, [], cW, counter, false)
      else
        let counter1 := counter + 1
        let cW1 := fun s => if moved.contains s then counter1 else cW s
        match partitionClass A cRead fuel moved cW1 counter1 with
        | none => none
        | some (prunedMoved, more, cW2, counter2, _) =>
          some (h :: retained, prunedMoved :: more, cW2, counter2, true)

/-- One pass of the do-while loop of evaluate_equiv_classes: every
class of the current partition is partitioned in order; the new
classes are appended behind the pruned old ones (the order of
next_iteration_classes). -/
def passClasses (A : MinAuto) (cRead : Nat → Nat) (fuel : Nat) :
    List (List Nat) → (Nat → Nat) → Nat →
    Option (List (List Nat) × List (List Nat) × (Nat → Nat) × Nat × Bool)
  | [], cW, counter => some ([], [], cW, counter, false)
  | cl :: cls, cW, counter =>
    match partitionClass A cRead fuel cl cW counter with
    | none => none
    | some (pruned, newCls, cW1, counter1, split1) =>
      match passClasses A cRead fuel cls cW1 counter1 with
      | none => none
      | some (prunedRest, newRest, cW2, counter2, split2) =>
        some (pruned :: prunedRest, newCls ++ newRest, cW2, counter2, split1 || split2)

/-- The do-while loop: the reading coloring of a pass is the writing
coloring of the previous one (the equiv_class_num_1/2 transfer), and
the loop stops at the first pass with no split. -/
def refineLoop (A : MinAuto) : Nat → List (List Nat) → (Nat → Nat) → Nat →
    Option (List (List Nat) × (Nat → Nat))
  | 0, _, _, _ => none
  | fuel + 1, classes, c, counter =>
    match passClasses A c fuel classes c counter with
    | none => none
    | some (pruned, newCls, c2, counter2, split) =>
      if split then refineLoop A fuel (pruned ++ newCls) c2 counter2
      else some (pruned ++ newCls, c2)

/-- evaluate_equiv_classes: all states start in one class (the chain
of init_equiv_class lists them in reverse) with number 1. -/
def evaluateEquivClasses (A : MinAuto) (states : List Nat) (fuel : Nat) :
    Option (List (List Nat) × (Nat → Nat)) :=
  refineLoop A fuel [states.reverse] (fun _ => 1) 1

/-- The components contributed to a merged state: a deterministic
member stands for itself, a composed member for its components. -/
def contributions (A : MinAuto) (cl : List Nat) : List Nat :=
  cl.foldl (fun acc m => (if (A.comps m).isEmpty then [m] else A.comps m) ++ acc) []

/-- The representative of a state after merge_states: the head of its
equivalence class. -/
def reprOf (classes : List (List Nat)) (s : Nat) : Nat :=
  match classes.find? (fun cl => cl.contains s) with
  | some cl => cl.headD 0
  | none => s

/-- The component list of a merged state: a multi-member class gets
the uniq-sorted union of the members' contributions, a singleton class
keeps its state unchanged. -/
def mergedComps (A : MinAuto) (classes : List (List Nat)) (h : Nat) : List Nat :=
  match classes.find? (fun cl => cl.contains h) with
  | some cl => if cl.length ≤ 1 then A.comps h else uniqSortIds (contributions A cl)
  | none => A.comps h

/-- merge_states: one state per class (represented by the class head),
the head's arcs retargeted through the representatives with their
state_alts kept, and the merged component lists. -/
def mergedAuto (A : MinAuto) (classes : List (List Nat)) : MinAuto :=
  { arcs := fun h => (A.arcs h).map fun a => { a with dst := reprOf classes a.dst }
    comps := mergedComps A classes
    baseObs := A.baseObs }

/-- A run of the automaton on an insn sequence: at every step the arc
marked by the insn, if any. -/
def runAuto (A : MinAuto) : Nat → List Nat → Option Nat
  | s, [] => some s
  | s, insn :: w =>
    match (A.arcs s).find? (fun a => a.insn == insn) with
    | none => none
    | some a => runAuto A a.dst w

/-- The positional separation property of a coloring: two listed
states have equal colors exactly when they sit in the same class of
the partition. -/
def Separated (classes : List (List Nat)) (c : Nat → Nat) : Prop :=
  ∀ i j, (hi : i < classes.length) → (hj : j < classes.length) →
    ∀ s ∈ classes[i], ∀ t ∈ classes[j], (c s = c t ↔ i = j)

/-- A five-state minimization example: deterministic states 0 and 1
step on insn 0 to the equivalent sinks 2 and 3, and state 4 is a
composed state over 2 and 3. -/
def AC4 : MinAuto :=
  ⟨fun s => if s = 0 then [⟨2, 0, 1⟩] else if s = 1 then [⟨3, 0, 1⟩] else [],
   fun s => if s = 4 then [2, 3] else [],
   fun s => if s ≤ 1 then [true] else [false]⟩

/-- The state list of the example. -/
def statesC4 : List Nat := [0, 1, 2, 3, 4]

/-- The partition and coloring the refinement loop computes on the
example. -/
def outC4 : List (List Nat) × (Nat → Nat) :=
  (evaluateEquivClasses AC4 statesC4 20).getD ([], fun _ => 0)

/-! back to tables -/

/-- Three concrete rows for a 2-class, 3-state table with undefined
value 3: the transition vectors of states 0, 1 and 2. -/
def rowsC3 : List (Nat × List Nat) := [(0, [1]), (1, [3, 2]), (2, [2, 1])]

/-- The comb-vector table those three insertions build. -/
def tabC3 : AinsnTable := ⟨2, 3, 3, [1, 2, 2, 1], [0, 1, 2, 2], [0, 0, 2], [1, 3, 3, 2, 2, 1]⟩

end Genautomata

namespace Genautomata

/-! ## Theorems for claims C1 and C5 -/

theorem getElem?_range_map {α : Type} (n : Nat) (g : Nat → α) (i : Nat) :
    ((List.range n).map g)[i]? = if i < n then some (g i) else none := by
  rcases Nat.lt_or_ge i n with hi | hi
  · rw [List.getElem?_map, List.getElem?_range hi, if_pos hi]
    rfl
  · rw [List.getElem?_eq_none (by simpa using hi), if_neg (Nat.not_lt.2 hi)]

theorem rsTest_rsOfFun (d : Description) (f : Nat → Nat → Bool) (c u : Nat) :
    rsTest (rsOfFun d f) c u =
      (decide (c < d.maxCyclesNum) && decide (u < d.unitsNum) && f c u) := by
  unfold rsTest rsOfFun
  simp only [List.getD_eq_getElem?_getD, getElem?_range_map]
  rcases Nat.lt_or_ge c d.maxCyclesNum with hc | hc
  · rcases Nat.lt_or_ge u d.unitsNum with hu | hu
    · simp [hc, hu, getElem?_range_map]
    · rw [if_pos hc]
      rw [Option.getD_some, List.getElem?_eq_none (by simpa using hu)]
      simp [hc, Nat.not_lt.2 hu]
  · simp [Nat.not_lt.2 hc]

theorem getExclSet_true_iff (d : Description) (inSet : Nat → Bool) (u : Nat) :
    getExclSet d inSet u = true ↔
      ∃ v < d.unitsNum, inSet v = true ∧ u ∈ (d.units v).exclList := by
  simp [getExclSet]

theorem checkPresencePatternSets_false_iff (d : Description)
    (checkedSet origionalSet : Nat → Bool) (finalP : Bool) :
    checkPresencePatternSets d checkedSet origionalSet finalP = false ↔
      ∃ u < d.unitsNum, origionalSet u = true ∧
        unitPresencePats d finalP u ≠ [] ∧
        ∀ pat ∈ unitPresencePats d finalP u, ∃ v ∈ pat, checkedSet v = false := by
  rw [checkPresencePatternSets, List.all_eq_false]
  simp only [List.mem_range, Bool.not_eq_true]
  constructor
  · rintro ⟨u, hu, hfail⟩
    by_cases ho : origionalSet u = true
    · rw [if_pos ho] at hfail
      by_cases hemp : unitPresencePats d finalP u = []
      · rw [hemp] at hfail
        simp at hfail
      · rw [if_neg (by simpa [List.isEmpty_iff] using hemp), List.any_eq_false] at hfail
        refine ⟨u, hu, ho, hemp, fun pat hpat => ?_⟩
        have hthis := hfail pat hpat
        rw [Bool.not_eq_true, List.all_eq_false] at hthis
        obtain ⟨v, hv, hnv⟩ := hthis
        exact ⟨v, hv, by simpa using hnv⟩
    · rw [if_neg ho] at hfail
      simp at hfail
  · rintro ⟨u, hu, ho, hne, hall⟩
    refine ⟨u, hu, ?_⟩
    rw [if_pos ho, if_neg (by simpa [List.isEmpty_iff] using hne), List.any_eq_false]
    intro pat hpat
    rw [Bool.not_eq_true, List.all_eq_false]
    obtain ⟨v, hv, hnv⟩ := hall pat hpat
    exact ⟨v, hv, by simpa using hnv⟩

theorem checkAbsencePatternSets_false_iff (d : Description)
    (checkedSet origionalSet : Nat → Bool) (finalP : Bool) :
    checkAbsencePatternSets d checkedSet origionalSet finalP = false ↔
      ∃ u < d.unitsNum, origionalSet u = true ∧
        ∃ pat ∈ unitAbsencePats d finalP u, ∀ v ∈ pat, checkedSet v = true := by
  rw [checkAbsencePatternSets, List.all_eq_false]
  simp only [List.mem_range, Bool.not_eq_true]
  constructor
  · rintro ⟨u, hu, hfail⟩
    by_cases ho : origionalSet u = true
    · rw [if_pos ho, List.all_eq_false] at hfail
      obtain ⟨pat, hpat, hbad⟩ := hfail
      have hbad2 : (pat.all fun v => checkedSet v) = true := by simpa using hbad
      refine ⟨u, hu, ho, pat, hpat, fun v hv => ?_⟩
      exact List.all_eq_true.mp hbad2 v hv
    · rw [if_neg ho] at hfail
      simp at hfail
  · rintro ⟨u, hu, ho, pat, hpat, hall⟩
    refine ⟨u, hu, ?_⟩
    rw [if_pos ho, List.all_eq_false]
    refine ⟨pat, hpat, ?_⟩
    have hal : (pat.all fun v => checkedSet v) = true := List.all_eq_true.mpr hall
    simp [hal]

/-- Claim C1 (counterexample): at the concrete description dC1, with
operand a reserving unit 0 (whose presence pattern set demands unit 1)
and operand b empty, the union a or b violates the presence pattern of
a unit reserved in the first operand, so the claim's predicate answers
true; reserv_sets_are_intersected only consults the pattern lists of
units reserved in the second operand and answers false. -/
theorem C1_counterexample :
    reservSetsAreIntersected dC1 aC1 bC1 = false
    ∧ claimC1Intersected dC1 aC1 bC1 = true := by
  constructor <;> rfl

/-- Claim C1 (amended): reserv_sets_are_intersected a b is true iff
some cycle-unit bit is set in both operands, or on some cycle the union
of a and b would violate an exclusion, presence or absence pattern
attached to some unit reserved in the SECOND operand b, where the
exclusion and the non-final presence/absence patterns are checked
against the same cycle of the first operand a alone, and the final
presence/absence patterns are checked against the same cycle of the
union of a and b. -/
theorem C1_intersected_characterization (d : Description) (a b : Reservs) :
    reservSetsAreIntersected d a b = true ↔
      (∃ c < d.maxCyclesNum, ∃ u < d.unitsNum, rsTest a c u = true ∧ rsTest b c u = true)
      ∨ (∃ c < d.maxCyclesNum,
          (∃ u < d.unitsNum, rsTest a c u = true ∧
            ∃ v < d.unitsNum, rsTest b c v = true ∧ u ∈ (d.units v).exclList)
          ∨ (∃ u < d.unitsNum, rsTest b c u = true ∧ unitPresencePats d false u ≠ [] ∧
              ∀ pat ∈ unitPresencePats d false u, ∃ v ∈ pat, rsTest a c v = false)
          ∨ (∃ u < d.unitsNum, rsTest b c u = true ∧ unitPresencePats d true u ≠ [] ∧
              ∀ pat ∈ unitPresencePats d true u,
                ∃ v ∈ pat, (rsTest a c v || rsTest b c v) = false)
          ∨ (∃ u < d.unitsNum, rsTest b c u = true ∧
              ∃ pat ∈ unitAbsencePats d false u, ∀ v ∈ pat, rsTest a c v = true)
          ∨ (∃ u < d.unitsNum, rsTest b c u = true ∧
              ∃ pat ∈ unitAbsencePats d true u,
                ∀ v ∈ pat, (rsTest a c v || rsTest b c v) = true)) := by
  unfold reservSetsAreIntersected rsCycle
  simp only [Bool.or_eq_true, List.any_eq_true, List.mem_range, Bool.and_eq_true,
    Bool.not_eq_true', checkPresencePatternSets_false_iff,
    checkAbsencePatternSets_false_iff, getExclSet_true_iff, ne_eq, or_assoc]

/-- Claim C5 (counterexample): at the concrete one-unit description dC5
with min_occ_cycle_num 0, the claim's mask prunes bit (0, 0) because
the cycle is at least min_occ_cycle_num and the unit is neither queried
nor in a constraint set, while form_reservs_matter keeps exactly the
cycles at least min_occ_cycle_num, so it keeps bit (0, 0). -/
theorem C5_counterexample :
    rsTest (formReservsMatter dC5 0) 0 0 = true
    ∧ rsTest (claimC5ReservsMatter dC5 0) 0 0 = false := by
  constructor <;> rfl

/-- Claim C5 (amended): in the candidate successor reservation
states_union(s, alt, reservs_matter), bit (cycle, unit) is set iff the
bit is set in s or in alt, the indices are in range, the unit belongs
to the automaton, and either the cycle is at least the unit's
min_occ_cycle_num, or the unit is a query unit, or the unit occurs in
some exclusion/presence/absence set; so a unit's bit is pruned exactly
at the cycles below min_occ_cycle_num (not at the cycles at or above
it), unless the unit is a query unit or occurs in such a set. -/
theorem C5_states_union_mask_characterization (d : Description) (automatonId : Nat)
    (s alt : Reservs) (cycle u : Nat) :
    rsTest (statesUnionReservs d s alt (formReservsMatter d automatonId)) cycle u = true ↔
      ((rsTest s cycle u ∨ rsTest alt cycle u)
        ∧ cycle < d.maxCyclesNum ∧ u < d.unitsNum
        ∧ (d.units u).automatonId = automatonId
        ∧ ((d.units u).minOcc ≤ cycle ∨ (d.units u).queryP ∨ (d.units u).inSetP)) := by
  unfold statesUnionReservs reservSetsAnd reservSetsOr formReservsMatter
  simp only [rsTest_rsOfFun, Bool.and_eq_true, Bool.or_eq_true, decide_eq_true_eq,
    beq_iff_eq]
  tauto

/-- Claim C7: evaluation of add_presence_absence at the failing inputs.
Processing a non-final presence declaration with pattern (1) for a unit
whose final_presence_list already holds the pattern (3) leaves
presence_list unchanged and appends the pattern to final_presence_list
instead (the claim demands presence_list = ((1)) and an unchanged
final_presence_list).  Processing a non-final presence declaration with
two patterns (1) and (2) on a unit with empty lists overwrites the
presence_list head each time, so only the last pattern ((2)) survives
(the claim demands ((1), (2))).  Processing a final presence
declaration with the two-unit pattern (1 2) appends the pattern once
per pattern unit, i.e. twice (the claim demands once). -/
theorem C7_add_presence_absence_eval :
    (addPresenceAbsenceForUnit false true false dstC7 [[patU 1]]).1.presenceList = []
    ∧ (addPresenceAbsenceForUnit false true false dstC7 [[patU 1]]).1.finalPresenceList
        = [[3], [1]]
    ∧ (addPresenceAbsenceForUnit false true false dstC7b [[patU 1], [patU 2]]).1.presenceList
        = [[2]]
    ∧ (addPresenceAbsenceForUnit false true true dstC7b
        [[patU 1, patU 2]]).1.finalPresenceList = [[1, 2], [1, 2]] := by
  refine ⟨rfl, rfl, rfl, rfl⟩

/-- Claim C10: first_cycle_unit_presence reads the state's own bitset
for an atomic state, and for a state with a non-empty component list it
reads the cycle-0 reservation of only the first component state, which
is the lowest-id component when the list is sorted. -/
theorem C10_first_cycle_unit_presence (pool : Nat → StateRec) (s : StateRec) (u : Nat) :
    (s.componentStates = [] → firstCycleUnitPresence pool s u = rsTest s.reservs 0 u)
    ∧ ∀ c rest, s.componentStates = c :: rest →
        firstCycleUnitPresence pool s u = rsTest (pool c).reservs 0 u
        ∧ (s.componentStates.Sorted (· ≤ ·) → ∀ x ∈ s.componentStates, c ≤ x) := by
  constructor
  · intro h
    simp [firstCycleUnitPresence, h]
  · intro c rest h
    constructor
    · simp [firstCycleUnitPresence, h]
    · intro hs x hx
      rw [h] at hs hx
      rcases List.mem_cons.mp hx with rfl | hx'
      · exact le_refl x
      · exact (List.sorted_cons.mp hs).1 x hx'

theorem isSeqNode_iff (r : Regexp) : r.isSeqNode = true ↔ ∃ xs, r = .seqR xs := by
  cases r <;> simp [Regexp.isSeqNode]

theorem isAllofNode_iff (r : Regexp) : r.isAllofNode = true ↔ ∃ xs, r = .allofR xs := by
  cases r <;> simp [Regexp.isAllofNode]

theorem isOneofNode_iff (r : Regexp) : r.isOneofNode = true ↔ ∃ xs, r = .oneofR xs := by
  cases r <;> simp [Regexp.isOneofNode]

theorem noReservList_iff (rs : List Regexp) :
    noReservList rs = true ↔ ∀ r ∈ rs, noReserv r = true := by
  induction rs with
  | nil => simp [noReservList]
  | cons r rs ih => simp [noReservList, ih]

theorem noRepeatList_iff (rs : List Regexp) :
    noRepeatList rs = true ↔ ∀ r ∈ rs, noRepeat r = true := by
  induction rs with
  | nil => simp [noRepeatList]
  | cons r rs ih => simp [noRepeatList, ih]

theorem noOneofList_iff (rs : List Regexp) :
    noOneofList rs = true ↔ ∀ r ∈ rs, noOneof r = true := by
  induction rs with
  | nil => simp [noOneofList]
  | cons r rs ih => simp [noOneofList, ih]

theorem oneofBelowFreeList_iff (rs : List Regexp) :
    oneofBelowFreeList rs = true ↔ ∀ r ∈ rs, oneofBelowFree r = true := by
  induction rs with
  | nil => simp [oneofBelowFreeList]
  | cons r rs ih => simp [oneofBelowFreeList, ih]

theorem splitFirst_eq_none_iff (p : Regexp → Bool) (rs : List Regexp) :
    splitFirst p rs = none ↔ ∀ r ∈ rs, p r = false := by
  induction rs with
  | nil => simp [splitFirst]
  | cons r rs ih =>
    by_cases hp : p r
    · simp [splitFirst, hp]
    · rw [splitFirst, if_neg hp]
      cases hs : splitFirst p rs with
      | none =>
        simp only [Option.map_none', true_iff, List.mem_cons]
        rintro x (rfl | hx2)
        · exact Bool.eq_false_iff.mpr hp
        · exact (ih.mp hs) x hx2
      | some q =>
        simp only [Option.map_some']
        constructor
        · intro h
          cases h
        · intro hall
          have hcontra := ih.mpr fun x hx => hall x (List.mem_cons_of_mem r hx)
          rw [hs] at hcontra
          cases hcontra

theorem splitFirst_eq_some (p : Regexp → Bool) :
    ∀ (rs bef : List Regexp) (x : Regexp) (aft : List Regexp),
      splitFirst p rs = some (bef, x, aft) → rs = bef ++ x :: aft ∧ p x = true := by
  intro rs
  induction rs with
  | nil => intro bef x aft h; cases h
  | cons r rs ih =>
    intro bef x aft h
    by_cases hp : p r
    · rw [splitFirst, if_pos hp] at h
      cases h
      exact ⟨rfl, hp⟩
    · rw [splitFirst, if_neg hp] at h
      cases hs : splitFirst p rs with
      | none => rw [hs] at h; cases h
      | some q =>
        rw [hs, Option.map_some'] at h
        obtain ⟨b2, x2, a2⟩ := q
        cases h
        obtain ⟨h1, h2⟩ := ih b2 x2 a2 hs
        exact ⟨by rw [h1]; rfl, h2⟩

theorem transform1_flag_false {x y : Regexp} (h : transform1 x = some (y, false)) : y = x := by
  cases x <;> simp only [transform1] at h <;>
    first
      | (cases h <;> rfl)
      | (split at h <;> cases h)

theorem transform2_flag_false : ∀ {x y : Regexp}, transform2 x = some (y, false) → y = x := by
  intro x y h
  cases x <;> simp only [transform2] at h <;>
    first
      | (cases h <;> rfl)
      | (split at h <;>
          first
            | (cases h <;> rfl)
            | (split at h <;> cases h))

theorem transform3_flag_false : ∀ {x y : Regexp}, transform3 x = some (y, false) → y = x := by
  intro x y h
  cases x <;> simp only [transform3] at h <;>
    first
      | (cases h <;> rfl)
      | (split at h <;>
          first
            | (cases h <;> rfl)
            | (split at h <;>
                first
                  | (cases h <;> rfl)
                  | (split at h <;> cases h)))

theorem transform2_seq_flag_false {rs : List Regexp} {y : Regexp}
    (h : transform2 (.seqR rs) = some (y, false)) :
    splitFirst Regexp.isSeqNode rs = none := by
  simp only [transform2] at h
  split at h
  · rename_i heq
    exact heq
  · split at h <;> cases h

theorem transform2_allof_flag_false {rs : List Regexp} {y : Regexp}
    (h : transform2 (.allofR rs) = some (y, false)) :
    splitFirst Regexp.isAllofNode rs = none := by
  simp only [transform2] at h
  split at h
  · rename_i heq
    exact heq
  · split at h <;> cases h

theorem transform2_oneof_flag_false {rs : List Regexp} {y : Regexp}
    (h : transform2 (.oneofR rs) = some (y, false)) :
    splitFirst Regexp.isOneofNode rs = none := by
  simp only [transform2] at h
  split at h
  · rename_i heq
    exact heq
  · split at h <;> cases h

theorem transform3_seq_flag_false {rs : List Regexp} {y : Regexp}
    (h : transform3 (.seqR rs) = some (y, false)) :
    splitFirst Regexp.isOneofNode rs = none := by
  simp only [transform3] at h
  split at h
  · rename_i heq
    exact heq
  · split at h <;> cases h

theorem transform3_allof_flag_false {rs : List Regexp} {y : Regexp}
    (h : transform3 (.allofR rs) = some (y, false)) :
    splitFirst Regexp.isOneofNode rs = none := by
  simp only [transform3] at h
  split at h
  · split at h <;> cases h
  · rename_i heq
    exact heq

theorem rtf_seq_inv {func : Regexp → Option (Regexp × Bool)} {rs : List Regexp}
    {out : Regexp × Bool} (h : regexpTransformFunc func (.seqR rs) = some out) :
    ∃ rs2 f1 r2 f2, regexpTransformFuncList func rs = some (rs2, f1)
      ∧ func (.seqR rs2) = some (r2, f2) ∧ out = (r2, f1 || f2) := by
  simp only [regexpTransformFunc] at h
  split at h
  · cases h
  · split at h
    · cases h
    · cases h
      rename_i rs2 f1 heq1 _ r2 f2 heq2
      exact ⟨rs2, f1, r2, f2, heq1, heq2, rfl⟩

theorem rtf_allof_inv {func : Regexp → Option (Regexp × Bool)} {rs : List Regexp}
    {out : Regexp × Bool} (h : regexpTransformFunc func (.allofR rs) = some out) :
    ∃ rs2 f1 r2 f2, regexpTransformFuncList func rs = some (rs2, f1)
      ∧ func (.allofR rs2) = some (r2, f2) ∧ out = (r2, f1 || f2) := by
  simp only [regexpTransformFunc] at h
  split at h
  · cases h
  · split at h
    · cases h
    · cases h
      rename_i rs2 f1 heq1 _ r2 f2 heq2
      exact ⟨rs2, f1, r2, f2, heq1, heq2, rfl⟩

theorem rtf_oneof_inv {func : Regexp → Option (Regexp × Bool)} {rs : List Regexp}
    {out : Regexp × Bool} (h : regexpTransformFunc func (.oneofR rs) = some out) :
    ∃ rs2 f1 r2 f2, regexpTransformFuncList func rs = some (rs2, f1)
      ∧ func (.oneofR rs2) = some (r2, f2) ∧ out = (r2, f1 || f2) := by
  simp only [regexpTransformFunc] at h
  split at h
  · cases h
  · split at h
    · cases h
    · cases h
      rename_i rs2 f1 heq1 _ r2 f2 heq2
      exact ⟨rs2, f1, r2, f2, heq1, heq2, rfl⟩

theorem rtf_repeat_inv {func : Regexp → Option (Regexp × Bool)} {r : Regexp} {n : Nat}
    {out : Regexp × Bool} (h : regexpTransformFunc func (.repeatR r n) = some out) :
    ∃ r1 f1 r2 f2, regexpTransformFunc func r = some (r1, f1)
      ∧ func (.repeatR r1 n) = some (r2, f2) ∧ out = (r2, f1 || f2) := by
  simp only [regexpTransformFunc] at h
  split at h
  · cases h
  · split at h
    · cases h
    · cases h
      rename_i r1 f1 heq1 _ r2 f2 heq2
      exact ⟨r1, f1, r2, f2, heq1, heq2, rfl⟩

theorem rtfList_cons_inv {func : Regexp → Option (Regexp × Bool)} {r : Regexp}
    {rs : List Regexp} {out : List Regexp × Bool}
    (h : regexpTransformFuncList func (r :: rs) = some out) :
    ∃ r2 f1 rs2 f2, regexpTransformFunc func r = some (r2, f1)
      ∧ regexpTransformFuncList func rs = some (rs2, f2) ∧ out = (r2 :: rs2, f1 || f2) := by
  simp only [regexpTransformFuncList] at h
  split at h
  · cases h
  · split at h
    · cases h
    · cases h
      rename_i r2 f1 heq1 _ rs2 f2 heq2
      exact ⟨r2, f1, rs2, f2, heq1, heq2, rfl⟩

theorem or_false_parts {f1 f2 : Bool} (h : (f1 || f2) = false) : f1 = false ∧ f2 = false := by
  cases f1 <;> cases f2 <;> simp_all

mutual

theorem rtf_flag_false_eq (func : Regexp → Option (Regexp × Bool))
    (hfunc : ∀ {x y : Regexp}, func x = some (y, false) → y = x) :
    ∀ (r r2 : Regexp), regexpTransformFunc func r = some (r2, false) → r2 = r
  | .unitR _, _, h => hfunc h
  | .nothingR, _, h => hfunc h
  | .reservR _, _, h => by simp [regexpTransformFunc] at h
  | .seqR rs, r2, h => by
    obtain ⟨rs2, f1, r3, f2, hl, hf, hout⟩ := rtf_seq_inv h
    rw [Prod.mk.injEq] at hout
    obtain ⟨h1, h2⟩ := hout
    obtain ⟨hf1, hf2⟩ := or_false_parts h2.symm
    subst hf1 hf2 h1
    have hrs : rs2 = rs := rtfList_flag_false_eq func hfunc rs rs2 hl
    subst hrs
    exact hfunc hf
  | .allofR rs, r2, h => by
    obtain ⟨rs2, f1, r3, f2, hl, hf, hout⟩ := rtf_allof_inv h
    rw [Prod.mk.injEq] at hout
    obtain ⟨h1, h2⟩ := hout
    obtain ⟨hf1, hf2⟩ := or_false_parts h2.symm
    subst hf1 hf2 h1
    have hrs : rs2 = rs := rtfList_flag_false_eq func hfunc rs rs2 hl
    subst hrs
    exact hfunc hf
  | .oneofR rs, r2, h => by
    obtain ⟨rs2, f1, r3, f2, hl, hf, hout⟩ := rtf_oneof_inv h
    rw [Prod.mk.injEq] at hout
    obtain ⟨h1, h2⟩ := hout
    obtain ⟨hf1, hf2⟩ := or_false_parts h2.symm
    subst hf1 hf2 h1
    have hrs : rs2 = rs := rtfList_flag_false_eq func hfunc rs rs2 hl
    subst hrs
    exact hfunc hf
  | .repeatR r n, r2, h => by
    obtain ⟨r1, f1, r3, f2, hr, hf, hout⟩ := rtf_repeat_inv h
    rw [Prod.mk.injEq] at hout
    obtain ⟨h1, h2⟩ := hout
    obtain ⟨hf1, hf2⟩ := or_false_parts h2.symm
    subst hf1 hf2 h1
    have hr1 : r1 = r := rtf_flag_false_eq func hfunc r r1 hr
    subst hr1
    exact hfunc hf

theorem rtfList_flag_false_eq (func : Regexp → Option (Regexp × Bool))
    (hfunc : ∀ {x y : Regexp}, func x = some (y, false) → y = x) :
    ∀ (rs rs2 : List Regexp), regexpTransformFuncList func rs = some (rs2, false) → rs2 = rs
  | [], rs2, h => by
    simp only [regexpTransformFuncList] at h
    cases h
    rfl
  | r :: rs, rs2, h => by
    obtain ⟨r2, f1, rs3, f2, hr, hl, hout⟩ := rtfList_cons_inv h
    rw [Prod.mk.injEq] at hout
    obtain ⟨h1, h2⟩ := hout
    obtain ⟨hf1, hf2⟩ := or_false_parts h2.symm
    subst hf1 hf2 h1
    have e1 : r2 = r := rtf_flag_false_eq func hfunc r r2 hr
    have e2 : rs3 = rs := rtfList_flag_false_eq func hfunc rs rs3 hl
    rw [e1, e2]

end

theorem rtfList_flag_false_forall (func : Regexp → Option (Regexp × Bool))
    (hfunc : ∀ {x y : Regexp}, func x = some (y, false) → y = x) :
    ∀ (rs rs2 : List Regexp), regexpTransformFuncList func rs = some (rs2, false) →
      ∀ r ∈ rs, regexpTransformFunc func r = some (r, false) := by
  intro rs
  induction rs with
  | nil => intro rs2 h r hr; cases hr
  | cons r rs ih =>
    intro rs2 h x hx
    obtain ⟨r2, f1, rs3, f2, hr, hl, hout⟩ := rtfList_cons_inv h
    rw [Prod.mk.injEq] at hout
    obtain ⟨h1, h2⟩ := hout
    obtain ⟨hf1, hf2⟩ := or_false_parts h2.symm
    subst hf1 hf2
    rcases List.mem_cons.mp hx with rfl | hx2
    · have e1 : r2 = x := rtf_flag_false_eq func hfunc x r2 hr
      rw [e1] at hr
      exact hr
    · exact ih rs3 hl x hx2

mutual

theorem rtf_some_noReserv (func : Regexp → Option (Regexp × Bool)) :
    ∀ (r : Regexp) (out : Regexp × Bool),
      regexpTransformFunc func r = some out → noReserv r = true
  | .unitR _, _, _ => rfl
  | .nothingR, _, _ => rfl
  | .reservR _, _, h => by simp [regexpTransformFunc] at h
  | .seqR rs, out, h => by
    obtain ⟨rs2, f1, r3, f2, hl, _, _⟩ := rtf_seq_inv h
    exact rtfList_some_noReserv func rs (rs2, f1) hl
  | .allofR rs, out, h => by
    obtain ⟨rs2, f1, r3, f2, hl, _, _⟩ := rtf_allof_inv h
    exact rtfList_some_noReserv func rs (rs2, f1) hl
  | .oneofR rs, out, h => by
    obtain ⟨rs2, f1, r3, f2, hl, _, _⟩ := rtf_oneof_inv h
    exact rtfList_some_noReserv func rs (rs2, f1) hl
  | .repeatR r n, out, h => by
    obtain ⟨r1, f1, r3, f2, hr, _, _⟩ := rtf_repeat_inv h
    exact rtf_some_noReserv func r (r1, f1) hr

theorem rtfList_some_noReserv (func : Regexp → Option (Regexp × Bool)) :
    ∀ (rs : List Regexp) (out : List Regexp × Bool),
      regexpTransformFuncList func rs = some out → noReservList rs = true
  | [], _, _ => rfl
  | r :: rs, out, h => by
    obtain ⟨r2, f1, rs3, f2, hr, hl, _⟩ := rtfList_cons_inv h
    have e1 := rtf_some_noReserv func r (r2, f1) hr
    have e2 := rtfList_some_noReserv func rs (rs3, f2) hl
    simp [noReservList, e1, e2]

end

mutual

theorem rtf_t1_noRepeat :
    ∀ (r : Regexp) (out : Regexp × Bool),
      regexpTransformFunc transform1 r = some out → noRepeat out.1 = true
  | .unitR _, out, h => by
    simp only [regexpTransformFunc, transform1] at h
    cases h
    rfl
  | .nothingR, out, h => by
    simp only [regexpTransformFunc, transform1] at h
    cases h
    rfl
  | .reservR _, _, h => by simp [regexpTransformFunc] at h
  | .seqR rs, out, h => by
    obtain ⟨rs2, f1, r3, f2, hl, hf, hout⟩ := rtf_seq_inv h
    have hlist := rtfList_t1_noRepeat rs (rs2, f1) hl
    simp only [transform1] at hf
    cases hf
    rw [hout]
    exact hlist
  | .allofR rs, out, h => by
    obtain ⟨rs2, f1, r3, f2, hl, hf, hout⟩ := rtf_allof_inv h
    have hlist := rtfList_t1_noRepeat rs (rs2, f1) hl
    simp only [transform1] at hf
    cases hf
    rw [hout]
    exact hlist
  | .oneofR rs, out, h => by
    obtain ⟨rs2, f1, r3, f2, hl, hf, hout⟩ := rtf_oneof_inv h
    have hlist := rtfList_t1_noRepeat rs (rs2, f1) hl
    simp only [transform1] at hf
    cases hf
    rw [hout]
    exact hlist
  | .repeatR r n, out, h => by
    obtain ⟨r1, f1, r3, f2, hr, hf, hout⟩ := rtf_repeat_inv h
    have hchild := rtf_t1_noRepeat r (r1, f1) hr
    simp only [transform1] at hf
    split at hf
    · cases hf
    · cases hf
      rw [hout]
      show noRepeatList (List.replicate n r1) = true
      rw [noRepeatList_iff]
      intro x hx
      rw [List.eq_of_mem_replicate hx]
      exact hchild

theorem rtfList_t1_noRepeat :
    ∀ (rs : List Regexp) (out : List Regexp × Bool),
      regexpTransformFuncList transform1 rs = some out → noRepeatList out.1 = true
  | [], out, h => by
    simp only [regexpTransformFuncList] at h
    cases h
    rfl
  | r :: rs, out, h => by
    obtain ⟨r2, f1, rs3, f2, hr, hl, hout⟩ := rtfList_cons_inv h
    have e1 := rtf_t1_noRepeat r (r2, f1) hr
    have e2 := rtfList_t1_noRepeat rs (rs3, f2) hl
    rw [hout]
    simp [noRepeatList, e1, e2]

end

theorem noRepeat_elems {r : Regexp} (h : noRepeat r = true) :
    ∀ op ∈ r.elems, noRepeat op = true := by
  cases r <;> simp_all [Regexp.elems, noRepeat, noRepeatList_iff]

theorem noRepeat_seq_iff (rs : List Regexp) :
    noRepeat (.seqR rs) = true ↔ ∀ r ∈ rs, noRepeat r = true := by
  show noRepeatList rs = true ↔ _
  exact noRepeatList_iff rs

theorem noRepeat_allof_iff (rs : List Regexp) :
    noRepeat (.allofR rs) = true ↔ ∀ r ∈ rs, noRepeat r = true := by
  show noRepeatList rs = true ↔ _
  exact noRepeatList_iff rs

theorem noRepeat_oneof_iff (rs : List Regexp) :
    noRepeat (.oneofR rs) = true ↔ ∀ r ∈ rs, noRepeat r = true := by
  show noRepeatList rs = true ↔ _
  exact noRepeatList_iff rs

theorem getD_mem_list {α : Type} (l : List α) (i : Nat) (d : α) (h : i < l.length) :
    l.getD i d ∈ l := by
  rw [List.getD_eq_getElem l d h]
  exact List.getElem_mem h

theorem allofOpsAt_mem {rs : List Regexp} {i : Nat} {op : Regexp}
    (h : op ∈ allofOpsAt rs i) : ∃ r ∈ rs, op = r ∨ op ∈ r.elems := by
  unfold allofOpsAt at h
  rcases List.mem_filterMap.mp h with ⟨r, hr, hop⟩
  refine ⟨r, hr, ?_⟩
  split at hop
  · split at hop
    · cases hop
      exact Or.inr (getD_mem_list _ _ _ (by assumption))
    · cases hop
  · split at hop
    · cases hop
      exact Or.inl rfl
    · cases hop

theorem noRepeat_allofSingle (ops : List Regexp) (h : ∀ op ∈ ops, noRepeat op = true) :
    noRepeat (allofSingle ops) = true := by
  cases ops with
  | nil => rfl
  | cons a t =>
    cases t with
    | nil => exact h a (by simp)
    | cons b t2 =>
      rw [show allofSingle (a :: b :: t2) = .allofR (a :: b :: t2) from rfl,
        noRepeat_allof_iff]
      exact h

theorem transform2_preserves_noRepeat :
    ∀ (x y : Regexp) (f : Bool), transform2 x = some (y, f) →
      noRepeat x = true → noRepeat y = true := by
  intro x y f h hx
  cases x <;> simp only [transform2] at h <;>
    first
      | (cases h; exact hx)
      | (split at h
         · cases h; exact hx
         · split at h
           · cases h
           · cases h
             rename_i bef x0 aft heq _
             obtain ⟨hrs, hp0⟩ := splitFirst_eq_some _ _ _ _ _ heq
             subst hrs
             first
               | (rw [noRepeat_seq_iff] at hx ⊢; skip)
               | (rw [noRepeat_allof_iff] at hx ⊢; skip)
               | (rw [noRepeat_oneof_iff] at hx ⊢; skip)
             intro z hz
             rcases List.mem_append.mp hz with hz1 | hz2
             · rcases List.mem_append.mp hz1 with hzb | hze
               · exact hx z (by simp [hzb])
               · exact noRepeat_elems (hx x0 (by simp)) z hze
             · exact hx z (by simp [hz2]))

theorem transform3_preserves_noRepeat :
    ∀ (x y : Regexp) (f : Bool), transform3 x = some (y, f) →
      noRepeat x = true → noRepeat y = true := by
  intro x y f h hx
  cases x <;> simp only [transform3] at h
  case seqR rs =>
    split at h
    · cases h
      exact hx
    · split at h
      · cases h
      · cases h
        rename_i bef x0 aft heq _
        obtain ⟨hrs, hp0⟩ := splitFirst_eq_some _ _ _ _ _ heq
        subst hrs
        rw [noRepeat_seq_iff] at hx
        rw [noRepeat_oneof_iff]
        intro z hz
        rcases List.mem_map.mp hz with ⟨alt, halt, rfl⟩
        rw [noRepeat_seq_iff]
        intro w hw
        rcases List.mem_append.mp hw with hw1 | hw2
        · exact hx w (by simp [hw1])
        · rcases List.mem_cons.mp hw2 with rfl | hw3
          · exact noRepeat_elems (hx x0 (by simp)) w halt
          · exact hx w (by simp [hw3])
  case allofR rs =>
    split at h
    · split at h
      · cases h
      · cases h
        rename_i bef x0 aft heq _
        obtain ⟨hrs, hp0⟩ := splitFirst_eq_some _ _ _ _ _ heq
        subst hrs
        rw [noRepeat_allof_iff] at hx
        rw [noRepeat_oneof_iff]
        intro z hz
        rcases List.mem_map.mp hz with ⟨alt, halt, rfl⟩
        rw [noRepeat_allof_iff]
        intro w hw
        rcases List.mem_append.mp hw with hw1 | hw2
        · exact hx w (by simp [hw1])
        · rcases List.mem_cons.mp hw2 with rfl | hw3
          · exact noRepeat_elems (hx x0 (by simp)) w halt
          · exact hx w (by simp [hw3])
    · split at h
      · cases h
        exact hx
      · split at h
        · cases h
        · cases h
          rw [noRepeat_seq_iff]
          intro z hz
          rcases List.mem_map.mp hz with ⟨i, _, rfl⟩
          apply noRepeat_allofSingle
          intro op hop
          obtain ⟨r, hr, hcase⟩ := allofOpsAt_mem hop
          rw [noRepeat_allof_iff] at hx
          rcases hcase with rfl | hel
          · exact hx op hr
          · exact noRepeat_elems (hx r hr) op hel
  all_goals (cases h; exact hx)

mutual

theorem rtf_preserves_noRepeat (func : Regexp → Option (Regexp × Bool))
    (hfunc : ∀ (x y : Regexp) (f : Bool), func x = some (y, f) →
      noRepeat x = true → noRepeat y = true) :
    ∀ (r : Regexp) (out : Regexp × Bool), regexpTransformFunc func r = some out →
      noRepeat r = true → noRepeat out.1 = true
  | .unitR n, out, h, hx => by
    simp only [regexpTransformFunc] at h
    cases hout : func (.unitR n) with
    | none => rw [hout] at h; cases h
    | some q =>
      rw [hout] at h
      cases h
      exact hfunc _ _ _ hout hx
  | .nothingR, out, h, hx => by
    simp only [regexpTransformFunc] at h
    cases hout : func .nothingR with
    | none => rw [hout] at h; cases h
    | some q =>
      rw [hout] at h
      cases h
      exact hfunc _ _ _ hout hx
  | .reservR _, _, h, _ => by simp [regexpTransformFunc] at h
  | .seqR rs, out, h, hx => by
    obtain ⟨rs2, f1, r3, f2, hl, hf, hout⟩ := rtf_seq_inv h
    have hlist := rtfList_preserves_noRepeat func hfunc rs (rs2, f1) hl
      (by rw [noRepeat_seq_iff] at hx; exact (noRepeatList_iff rs).mpr hx)
    rw [hout]
    exact hfunc _ _ _ hf hlist
  | .allofR rs, out, h, hx => by
    obtain ⟨rs2, f1, r3, f2, hl, hf, hout⟩ := rtf_allof_inv h
    have hlist := rtfList_preserves_noRepeat func hfunc rs (rs2, f1) hl
      (by rw [noRepeat_allof_iff] at hx; exact (noRepeatList_iff rs).mpr hx)
    rw [hout]
    exact hfunc _ _ _ hf hlist
  | .oneofR rs, out, h, hx => by
    obtain ⟨rs2, f1, r3, f2, hl, hf, hout⟩ := rtf_oneof_inv h
    have hlist := rtfList_preserves_noRepeat func hfunc rs (rs2, f1) hl
      (by rw [noRepeat_oneof_iff] at hx; exact (noRepeatList_iff rs).mpr hx)
    rw [hout]
    exact hfunc _ _ _ hf hlist
  | .repeatR r n, out, h, hx => by
    cases hx

theorem rtfList_preserves_noRepeat (func : Regexp → Option (Regexp × Bool))
    (hfunc : ∀ (x y : Regexp) (f : Bool), func x = some (y, f) →
      noRepeat x = true → noRepeat y = true) :
    ∀ (rs : List Regexp) (out : List Regexp × Bool),
      regexpTransformFuncList func rs = some out →
      noRepeatList rs = true → noRepeatList out.1 = true
  | [], out, h, _ => by
    simp only [regexpTransformFuncList] at h
    cases h
    rfl
  | r :: rs, out, h, hx => by
    obtain ⟨r2, f1, rs3, f2, hr, hl, hout⟩ := rtfList_cons_inv h
    simp only [noRepeatList, Bool.and_eq_true] at hx
    have e1 := rtf_preserves_noRepeat func hfunc r (r2, f1) hr hx.1
    have e2 := rtfList_preserves_noRepeat func hfunc rs (rs3, f2) hl hx.2
    rw [hout]
    simp [noRepeatList, e1, e2]

end

theorem rtf_preserves_noRepeat_out (func : Regexp → Option (Regexp × Bool))
    (hfunc : ∀ (x y : Regexp) (f : Bool), func x = some (y, f) →
      noRepeat x = true → noRepeat y = true)
    {r r2 : Regexp} {f : Bool} (h : regexpTransformFunc func r = some (r2, f))
    (hx : noRepeat r = true) : noRepeat r2 = true :=
  rtf_preserves_noRepeat func hfunc r (r2, f) h hx

theorem noRepeat_repeat_false (r : Regexp) (n : Nat) : noRepeat (.repeatR r n) = false := rfl

/-- Claim C10 (witness): at the concrete composite state with sorted
components 1 and 2, the presence test returns the cycle-0 bit of
component 1 only; it answers false for unit 0 although component 2 does
reserve unit 0 on cycle 0, so the union of components is not what is
read. -/
theorem C10_witness :
    firstCycleUnitPresence poolC10 sC10 0 = rsTest (poolC10 1).reservs 0 0
    ∧ firstCycleUnitPresence poolC10 sC10 0 = false
    ∧ rsTest (poolC10 2).reservs 0 0 = true := by
  refine ⟨((C10_first_cycle_unit_presence poolC10 sC10 0).2 1 [2] rfl).1, by decide, by decide⟩

/-! ## Fixed points of the transformer passes -/

theorem rtf_fix_seq {func : Regexp → Option (Regexp × Bool)}
    (hfunc : ∀ {x y : Regexp}, func x = some (y, false) → y = x)
    {rs : List Regexp} (h : regexpTransformFunc func (.seqR rs) = some (.seqR rs, false)) :
    regexpTransformFuncList func rs = some (rs, false)
    ∧ func (.seqR rs) = some (.seqR rs, false) := by
  obtain ⟨rs2, f1, r2, f2, hl, hf, hout⟩ := rtf_seq_inv h
  rw [Prod.mk.injEq] at hout
  obtain ⟨h1, h2⟩ := hout
  obtain ⟨hf1, hf2⟩ := or_false_parts h2.symm
  subst hf1 hf2
  have hrs : rs2 = rs := rtfList_flag_false_eq func hfunc rs rs2 hl
  subst hrs
  subst h1
  exact ⟨hl, hf⟩

theorem rtf_fix_allof {func : Regexp → Option (Regexp × Bool)}
    (hfunc : ∀ {x y : Regexp}, func x = some (y, false) → y = x)
    {rs : List Regexp} (h : regexpTransformFunc func (.allofR rs) = some (.allofR rs, false)) :
    regexpTransformFuncList func rs = some (rs, false)
    ∧ func (.allofR rs) = some (.allofR rs, false) := by
  obtain ⟨rs2, f1, r2, f2, hl, hf, hout⟩ := rtf_allof_inv h
  rw [Prod.mk.injEq] at hout
  obtain ⟨h1, h2⟩ := hout
  obtain ⟨hf1, hf2⟩ := or_false_parts h2.symm
  subst hf1 hf2
  have hrs : rs2 = rs := rtfList_flag_false_eq func hfunc rs rs2 hl
  subst hrs
  subst h1
  exact ⟨hl, hf⟩

theorem rtf_fix_oneof {func : Regexp → Option (Regexp × Bool)}
    (hfunc : ∀ {x y : Regexp}, func x = some (y, false) → y = x)
    {rs : List Regexp} (h : regexpTransformFunc func (.oneofR rs) = some (.oneofR rs, false)) :
    regexpTransformFuncList func rs = some (rs, false)
    ∧ func (.oneofR rs) = some (.oneofR rs, false) := by
  obtain ⟨rs2, f1, r2, f2, hl, hf, hout⟩ := rtf_oneof_inv h
  rw [Prod.mk.injEq] at hout
  obtain ⟨h1, h2⟩ := hout
  obtain ⟨hf1, hf2⟩ := or_false_parts h2.symm
  subst hf1 hf2
  have hrs : rs2 = rs := rtfList_flag_false_eq func hfunc rs rs2 hl
  subst hrs
  subst h1
  exact ⟨hl, hf⟩

theorem rtfList_fix_cons {func : Regexp → Option (Regexp × Bool)}
    (hfunc : ∀ {x y : Regexp}, func x = some (y, false) → y = x)
    {r : Regexp} {rs : List Regexp}
    (h : regexpTransformFuncList func (r :: rs) = some (r :: rs, false)) :
    regexpTransformFunc func r = some (r, false)
    ∧ regexpTransformFuncList func rs = some (rs, false) := by
  obtain ⟨r2, f1, rs3, f2, hr, hl, hout⟩ := rtfList_cons_inv h
  rw [Prod.mk.injEq] at hout
  obtain ⟨h1, h2⟩ := hout
  obtain ⟨hf1, hf2⟩ := or_false_parts h2.symm
  subst hf1 hf2
  have e1 : r2 = r := rtf_flag_false_eq func hfunc r r2 hr
  have e2 : rs3 = rs := rtfList_flag_false_eq func hfunc rs rs3 hl
  subst e1 e2
  exact ⟨hr, hl⟩

theorem noOneof_oneofBelowFree : ∀ (r : Regexp), noOneof r = true → oneofBelowFree r = true
  | .unitR _, _ => rfl
  | .nothingR, _ => rfl
  | .reservR _, _ => rfl
  | .seqR _, h => h
  | .allofR _, h => h
  | .oneofR _, h => nomatch h
  | .repeatR r _, h => noOneof_oneofBelowFree r h

mutual

theorem fixpoint_oneof_shape :
    ∀ (r : Regexp), noRepeat r = true →
      regexpTransformFunc transform2 r = some (r, false) →
      regexpTransformFunc transform3 r = some (r, false) →
      (r.isOneofNode = false → noOneof r = true) ∧ oneofBelowFree r = true
  | .unitR _, _, _, _ => ⟨fun _ => rfl, rfl⟩
  | .nothingR, _, _, _ => ⟨fun _ => rfl, rfl⟩
  | .reservR _, _, h2, _ => by simp [regexpTransformFunc] at h2
  | .repeatR _ _, hnr, _, _ => nomatch hnr
  | .seqR rs, hnr, h2, h3 => by
    obtain ⟨hl2, hn2⟩ := rtf_fix_seq transform2_flag_false h2
    obtain ⟨hl3, hn3⟩ := rtf_fix_seq transform3_flag_false h3
    have hnone := transform3_seq_flag_false hn3
    have hmem := (splitFirst_eq_none_iff Regexp.isOneofNode rs).mp hnone
    have hnrl : noRepeatList rs = true := by
      rw [noRepeat_seq_iff] at hnr
      exact (noRepeatList_iff rs).mpr hnr
    have hlist := fixpointList_oneof_shape rs hnrl hl2 hl3
    have hall : noOneofList rs = true := by
      rw [noOneofList_iff]
      intro x hx
      exact (hlist x hx).1 (hmem x hx)
    exact ⟨fun _ => hall, hall⟩
  | .allofR rs, hnr, h2, h3 => by
    obtain ⟨hl2, hn2⟩ := rtf_fix_allof transform2_flag_false h2
    obtain ⟨hl3, hn3⟩ := rtf_fix_allof transform3_flag_false h3
    have hnone := transform3_allof_flag_false hn3
    have hmem := (splitFirst_eq_none_iff Regexp.isOneofNode rs).mp hnone
    have hnrl : noRepeatList rs = true := by
      rw [noRepeat_allof_iff] at hnr
      exact (noRepeatList_iff rs).mpr hnr
    have hlist := fixpointList_oneof_shape rs hnrl hl2 hl3
    have hall : noOneofList rs = true := by
      rw [noOneofList_iff]
      intro x hx
      exact (hlist x hx).1 (hmem x hx)
    exact ⟨fun _ => hall, hall⟩
  | .oneofR rs, hnr, h2, h3 => by
    obtain ⟨hl2, hn2⟩ := rtf_fix_oneof transform2_flag_false h2
    obtain ⟨hl3, _⟩ := rtf_fix_oneof transform3_flag_false h3
    have hnone := transform2_oneof_flag_false hn2
    have hmem := (splitFirst_eq_none_iff Regexp.isOneofNode rs).mp hnone
    have hnrl : noRepeatList rs = true := by
      rw [noRepeat_oneof_iff] at hnr
      exact (noRepeatList_iff rs).mpr hnr
    have hlist := fixpointList_oneof_shape rs hnrl hl2 hl3
    refine ⟨fun hfalse => (nomatch hfalse), ?_⟩
    show oneofBelowFreeList rs = true
    rw [oneofBelowFreeList_iff]
    intro x hx
    exact noOneof_oneofBelowFree x ((hlist x hx).1 (hmem x hx))

theorem fixpointList_oneof_shape :
    ∀ (rs : List Regexp), noRepeatList rs = true →
      regexpTransformFuncList transform2 rs = some (rs, false) →
      regexpTransformFuncList transform3 rs = some (rs, false) →
      ∀ r ∈ rs, (r.isOneofNode = false → noOneof r = true) ∧ oneofBelowFree r = true
  | [], _, _, _ => by intro r hr; cases hr
  | r :: rs, hnr, h2, h3 => by
    obtain ⟨hh2, ht2⟩ := rtfList_fix_cons transform2_flag_false h2
    obtain ⟨hh3, ht3⟩ := rtfList_fix_cons transform3_flag_false h3
    simp only [noRepeatList, Bool.and_eq_true] at hnr
    intro x hx
    rcases List.mem_cons.mp hx with rfl | hx2
    · exact fixpoint_oneof_shape x hnr.1 hh2 hh3
    · exact fixpointList_oneof_shape rs hnr.2 ht2 ht3 x hx2

end

theorem transformLoop_fixpoint :
    ∀ (fuel : Nat) (r r3 : Regexp), transformLoop fuel r = some r3 →
      regexpTransformFunc transform2 r3 = some (r3, false)
      ∧ regexpTransformFunc transform3 r3 = some (r3, false)
  | 0, _, _, h => by cases h
  | fuel + 1, r, r3, h => by
    simp only [transformLoop] at h
    split at h
    · cases h
    · rename_i r2 f2 heq2
      split at h
      · cases h
      · rename_i r3x f3 heq3
        split at h
        · exact transformLoop_fixpoint fuel r3x r3 h
        · rename_i hcond
          have hor : (f2 || f3) = false := by
            cases f2 <;> cases f3 <;> simp_all
          obtain ⟨hf2, hf3⟩ := or_false_parts hor
          subst hf2 hf3
          have e2 : r2 = r := rtf_flag_false_eq transform2 transform2_flag_false r r2 heq2
          rw [e2] at heq2 heq3
          have e3 : r3x = r := rtf_flag_false_eq transform3 transform3_flag_false r r3x heq3
          rw [e3] at heq3 h
          cases h
          exact ⟨heq2, heq3⟩

theorem transformLoop_noRepeat :
    ∀ (fuel : Nat) (r r3 : Regexp), transformLoop fuel r = some r3 →
      noRepeat r = true → noRepeat r3 = true
  | 0, _, _, h, _ => by cases h
  | fuel + 1, r, r3, h, hx => by
    simp only [transformLoop] at h
    split at h
    · cases h
    · rename_i r2 f2 heq2
      split at h
      · cases h
      · rename_i r3x f3 heq3
        have h2 := rtf_preserves_noRepeat transform2 transform2_preserves_noRepeat
          r (r2, f2) heq2 hx
        have h3 := rtf_preserves_noRepeat transform3 transform3_preserves_noRepeat
          r2 (r3x, f3) heq3 h2
        split at h
        · exact transformLoop_noRepeat fuel r3x r3 h h3
        · cases h
          exact h3

/-- Claim C2: whenever the full transformation pipeline of an insn
reservation (copy_insn_regexp substitution of the named reservations,
one transform_1 pass eliminating Repeat, then the transform_2 /
transform_3 loop run until neither pass fires) produces a result, that
transformed regexp contains no Reserv node, no Repeat node, and no
Oneof node below a Sequence or an Allof node: the canonical
oneof-of-sequence-of-allof shape with degenerate reductions allowed. -/
theorem C2_canonical_form (env : Nat → Option Regexp) (fuel : Nat) (r r3 : Regexp)
    (h : transformedRegexp env fuel r = some r3) :
    noReserv r3 = true ∧ noRepeat r3 = true ∧ oneofBelowFree r3 = true := by
  unfold transformedRegexp at h
  split at h
  · cases h
  · rename_i r0 heq0
    unfold transformRegexp at h
    split at h
    · cases h
    · rename_i r1 f1 heq1
      obtain ⟨hfix2, hfix3⟩ := transformLoop_fixpoint fuel r1 r3 h
      have hnr1 : noRepeat r1 = true := rtf_t1_noRepeat r0 (r1, f1) heq1
      have hnr3 : noRepeat r3 = true := transformLoop_noRepeat fuel r1 r3 h hnr1
      have hres : noReserv r3 = true := rtf_some_noReserv transform2 r3 (r3, false) hfix2
      have hshape := fixpoint_oneof_shape r3 hnr3 hfix2 hfix3
      exact ⟨hres, hnr3, hshape.2⟩

/-- Claim C2 (witness): running the concrete pipeline on the
reservation (reserv 0), (u3 | u4) under the environment binding
declaration 0 to u1, u2 yields (u1, u2, u3) | (u1, u2, u4), and the
three canonical-form predicates hold of it. -/
theorem C2_canonical_form_witness :
    transformedRegexp envC2 20 exC2 = some resC2
    ∧ (noReserv resC2 = true ∧ noRepeat resC2 = true ∧ oneofBelowFree resC2 = true) :=
  ⟨rfl, C2_canonical_form envC2 20 exC2 resC2 rfl⟩

/-! ## Cycle detection: soundness and completeness of loop_in_regexp -/

theorem directRefsList_iff (rs : List Regexp) (d : Nat) :
    d ∈ directRefsList rs ↔ ∃ r ∈ rs, d ∈ directRefs r := by
  induction rs with
  | nil =>
    constructor
    · intro h; cases h
    · rintro ⟨r, hr, _⟩; cases hr
  | cons r rs ih =>
    constructor
    · intro h
      have h' : d ∈ directRefs r ++ directRefsList rs := h
      rcases List.mem_append.mp h' with h1 | h2
      · exact ⟨r, by simp, h1⟩
      · obtain ⟨x, hx, hdx⟩ := ih.mp h2
        exact ⟨x, by simp [hx], hdx⟩
    · rintro ⟨x, hx, hdx⟩
      show d ∈ directRefs r ++ directRefsList rs
      rcases List.mem_cons.mp hx with rfl | hx2
      · exact List.mem_append.mpr (Or.inl hdx)
      · exact List.mem_append.mpr (Or.inr (ih.mpr ⟨x, hx2, hdx⟩))

theorem reaches_trans {decls : Nat → Regexp} {i j k : Nat}
    (h1 : Reaches decls i j) (h2 : Reaches decls j k) : Reaches decls i k := by
  induction h2 with
  | step hd => exact Reaches.tail h1 hd
  | tail _ hd ih => exact Reaches.tail ih hd

theorem regexpReaches_decl {decls : Nat → Regexp} {d t : Nat}
    (h : RegexpReaches decls (decls d) t) : Reaches decls d t := by
  rcases h with h | ⟨e, he, hr⟩
  · exact Reaches.step h
  · exact reaches_trans (Reaches.step he) hr

theorem regexpReaches_of_mem {decls : Nat → Regexp} {rs : List Regexp} {x : Regexp} {t : Nat}
    (hx : x ∈ rs) (h : RegexpReaches decls x t) :
    t ∈ directRefsList rs ∨ ∃ d ∈ directRefsList rs, Reaches decls d t := by
  rcases h with ht | ⟨e, he, hr⟩
  · exact Or.inl ((directRefsList_iff rs t).mpr ⟨x, hx, ht⟩)
  · exact Or.inr ⟨e, (directRefsList_iff rs e).mpr ⟨x, hx, he⟩, hr⟩

mutual

theorem loopInRegexp_sound (decls : Nat → Regexp) (curr start : Nat) :
    ∀ (fuel : Nat) (marks : Nat → Nat) (r : Regexp) (m : Nat → Nat),
      loopInRegexp decls curr start fuel marks r = some (true, m) →
      RegexpReaches decls r start
  | 0, _, _, _, h => by cases h
  | fuel + 1, marks, r, m, h => by
    cases r with
    | unitR n => simp [loopInRegexp] at h
    | nothingR => simp [loopInRegexp] at h
    | reservR d =>
      simp only [loopInRegexp] at h
      split at h
      · rename_i hds
        exact Or.inl (by simp [directRefs, hds])
      · split at h
        · cases h
        · have ih := loopInRegexp_sound decls curr start fuel
            (fun j => if j = d then curr else marks j) (decls d) m h
          exact Or.inr ⟨d, by simp [directRefs], regexpReaches_decl ih⟩
    | seqR rs =>
      simp only [loopInRegexp] at h
      obtain ⟨x, hx, hrx⟩ := loopInList_sound decls curr start fuel marks rs m h
      exact regexpReaches_of_mem hx hrx
    | allofR rs =>
      simp only [loopInRegexp] at h
      obtain ⟨x, hx, hrx⟩ := loopInList_sound decls curr start fuel marks rs m h
      exact regexpReaches_of_mem hx hrx
    | oneofR rs =>
      simp only [loopInRegexp] at h
      obtain ⟨x, hx, hrx⟩ := loopInList_sound decls curr start fuel marks rs m h
      exact regexpReaches_of_mem hx hrx
    | repeatR r1 n =>
      simp only [loopInRegexp] at h
      exact loopInRegexp_sound decls curr start fuel marks r1 m h

theorem loopInList_sound (decls : Nat → Regexp) (curr start : Nat) :
    ∀ (fuel : Nat) (marks : Nat → Nat) (rs : List Regexp) (m : Nat → Nat),
      loopInList decls curr start fuel marks rs = some (true, m) →
      ∃ r ∈ rs, RegexpReaches decls r start
  | 0, _, _, _, h => by cases h
  | _ + 1, _, [], _, h => by cases h
  | fuel + 1, marks, r :: rs, m, h => by
    simp only [loopInList] at h
    split at h
    · cases h
    · rename_i m1 heq
      exact ⟨r, by simp, loopInRegexp_sound decls curr start fuel marks r m1 heq⟩
    · rename_i m1 heq
      obtain ⟨x, hx, hrx⟩ := loopInList_sound decls curr start fuel m1 rs m h
      exact ⟨x, by simp [hx], hrx⟩

end

mutual

theorem loopInRegexp_complete (decls : Nat → Regexp) (curr start : Nat) :
    ∀ (fuel : Nat) (marks : Nat → Nat) (r : Regexp) (m : Nat → Nat),
      loopInRegexp decls curr start fuel marks r = some (false, m) →
      (∀ j, marks j = curr → m j = curr)
      ∧ refsClosed curr start m r
      ∧ (∀ j, m j = curr → marks j = curr ∨ refsClosed curr start m (decls j))
  | 0, _, _, _, h => by cases h
  | fuel + 1, marks, r, m, h => by
    cases r with
    | unitR n =>
      simp only [loopInRegexp] at h
      cases h
      refine ⟨fun j hj => hj, ?_, fun j hj => Or.inl hj⟩
      intro d hd
      cases hd
    | nothingR =>
      simp only [loopInRegexp] at h
      cases h
      refine ⟨fun j hj => hj, ?_, fun j hj => Or.inl hj⟩
      intro d hd
      cases hd
    | reservR d =>
      simp only [loopInRegexp] at h
      split at h
      · cases h
      · split at h
        · rename_i hne hmk
          cases h
          refine ⟨fun j hj => hj, ?_, fun j hj => Or.inl hj⟩
          intro e he
          have hed : e = d := by simpa [directRefs] using he
          subst hed
          exact ⟨hne, hmk⟩
        · rename_i hne hnm
          obtain ⟨ha, hb, hc⟩ := loopInRegexp_complete decls curr start fuel
            (fun j => if j = d then curr else marks j) (decls d) m h
          refine ⟨?_, ?_, ?_⟩
          · intro j hj
            refine ha j ?_
            by_cases hjd : j = d <;> simp [hjd, hj]
          · intro e he
            have hed : e = d := by simpa [directRefs] using he
            subst hed
            exact ⟨hne, ha e (by simp)⟩
          · intro j hj
            rcases hc j hj with hm1 | hcl
            · by_cases hjd : j = d
              · subst hjd
                exact Or.inr hb
              · left
                simpa [hjd] using hm1
            · exact Or.inr hcl
    | seqR rs =>
      simp only [loopInRegexp] at h
      obtain ⟨ha, hb, hc⟩ := loopInList_complete decls curr start fuel marks rs m h
      exact ⟨ha, hb, hc⟩
    | allofR rs =>
      simp only [loopInRegexp] at h
      obtain ⟨ha, hb, hc⟩ := loopInList_complete decls curr start fuel marks rs m h
      exact ⟨ha, hb, hc⟩
    | oneofR rs =>
      simp only [loopInRegexp] at h
      obtain ⟨ha, hb, hc⟩ := loopInList_complete decls curr start fuel marks rs m h
      exact ⟨ha, hb, hc⟩
    | repeatR r1 n =>
      simp only [loopInRegexp] at h
      obtain ⟨ha, hb, hc⟩ := loopInRegexp_complete decls curr start fuel marks r1 m h
      exact ⟨ha, hb, hc⟩

theorem loopInList_complete (decls : Nat → Regexp) (curr start : Nat) :
    ∀ (fuel : Nat) (marks : Nat → Nat) (rs : List Regexp) (m : Nat → Nat),
      loopInList decls curr start fuel marks rs = some (false, m) →
      (∀ j, marks j = curr → m j = curr)
      ∧ (∀ d ∈ directRefsList rs, d ≠ start ∧ m d = curr)
      ∧ (∀ j, m j = curr → marks j = curr ∨ refsClosed curr start m (decls j))
  | 0, _, _, _, h => by cases h
  | _ + 1, marks, [], m, h => by
    cases h
    refine ⟨fun j hj => hj, ?_, fun j hj => Or.inl hj⟩
    intro d hd
    cases hd
  | fuel + 1, marks, r :: rs, m, h => by
    simp only [loopInList] at h
    split at h
    · cases h
    · cases h
    · rename_i m1 heq
      obtain ⟨a1, b1, c1⟩ := loopInRegexp_complete decls curr start fuel marks r m1 heq
      obtain ⟨a2, b2, c2⟩ := loopInList_complete decls curr start fuel m1 rs m h
      refine ⟨fun j hj => a2 j (a1 j hj), ?_, ?_⟩
      · intro d hd
        have hd' : d ∈ directRefs r ++ directRefsList rs := hd
        rcases List.mem_append.mp hd' with hd1 | hd2
        · obtain ⟨hne, hm1⟩ := b1 d hd1
          exact ⟨hne, a2 d hm1⟩
        · exact b2 d hd2
      · intro j hj
        rcases c2 j hj with hm1 | hcl
        · rcases c1 j hm1 with hmk | hcl1
          · exact Or.inl hmk
          · refine Or.inr ?_
            intro d hd
            obtain ⟨hne, hmd⟩ := hcl1 d hd
            exact ⟨hne, a2 d hmd⟩
        · exact Or.inr hcl

end

mutual

theorem loopInRegexp_range (decls : Nat → Regexp) (curr start : Nat) :
    ∀ (fuel : Nat) (marks : Nat → Nat) (r : Regexp) (b : Bool) (m : Nat → Nat),
      loopInRegexp decls curr start fuel marks r = some (b, m) →
      ∀ j, m j = marks j ∨ m j = curr
  | 0, _, _, _, _, h => by cases h
  | fuel + 1, marks, r, b, m, h => by
    cases r with
    | unitR n =>
      simp only [loopInRegexp] at h
      cases h
      exact fun j => Or.inl rfl
    | nothingR =>
      simp only [loopInRegexp] at h
      cases h
      exact fun j => Or.inl rfl
    | reservR d =>
      simp only [loopInRegexp] at h
      split at h
      · cases h
        exact fun j => Or.inl rfl
      · split at h
        · cases h
          exact fun j => Or.inl rfl
        · intro j
          rcases loopInRegexp_range decls curr start fuel
            (fun j => if j = d then curr else marks j) (decls d) b m h j with h1 | h2
          · by_cases hjd : j = d
            · right
              rw [h1, if_pos hjd]
            · left
              rw [h1, if_neg hjd]
          · exact Or.inr h2
    | seqR rs =>
      simp only [loopInRegexp] at h
      exact loopInList_range decls curr start fuel marks rs b m h
    | allofR rs =>
      simp only [loopInRegexp] at h
      exact loopInList_range decls curr start fuel marks rs b m h
    | oneofR rs =>
      simp only [loopInRegexp] at h
      exact loopInList_range decls curr start fuel marks rs b m h
    | repeatR r1 n =>
      simp only [loopInRegexp] at h
      exact loopInRegexp_range decls curr start fuel marks r1 b m h

theorem loopInList_range (decls : Nat → Regexp) (curr start : Nat) :
    ∀ (fuel : Nat) (marks : Nat → Nat) (rs : List Regexp) (b : Bool) (m : Nat → Nat),
      loopInList decls curr start fuel marks rs = some (b, m) →
      ∀ j, m j = marks j ∨ m j = curr
  | 0, _, _, _, _, h => by cases h
  | _ + 1, marks, [], b, m, h => by
    cases h
    exact fun j => Or.inl rfl
  | fuel + 1, marks, r :: rs, b, m, h => by
    simp only [loopInList] at h
    split at h
    · cases h
    · rename_i m1 heq
      cases h
      exact loopInRegexp_range decls curr start fuel marks r true m heq
    · rename_i m1 heq
      intro j
      rcases loopInList_range decls curr start fuel m1 rs b m h j with h1 | h2
      · rw [h1]
        exact loopInRegexp_range decls curr start fuel marks r false m1 heq j
      · exact Or.inr h2

end

theorem loop_blocked (decls : Nat → Regexp) (i : Nat) (fuel : Nat)
    (marks1 m : Nat → Nat)
    (hpre : ∀ j, marks1 j = i → j = i)
    (hfalse : loopInRegexp decls i i fuel marks1 (decls i) = some (false, m)) :
    ∀ k, Reaches decls i k → k ≠ i ∧ m k = i := by
  obtain ⟨ha, hb, hc⟩ := loopInRegexp_complete decls i i fuel marks1 (decls i) m hfalse
  intro k hk
  induction hk with
  | step hd => exact hb _ hd
  | tail _ hd ih =>
    obtain ⟨hji, hmj⟩ := ih
    rcases hc _ hmj with hmk | hcl
    · exact absurd (hpre _ hmk) hji
    · exact hcl _ hd

theorem checkLoopsFrom_sound (decls : Nat → Regexp) (fuel : Nat) :
    ∀ (k i0 : Nat) (marks : Nat → Nat) (errs : List Nat),
      checkLoopsFrom decls fuel i0 k marks = some errs →
      ∀ x ∈ errs, Reaches decls x x
  | 0, i0, marks, errs, h => by
    cases h
    intro x hx
    cases hx
  | k + 1, i0, marks, errs, h => by
    simp only [checkLoopsFrom] at h
    split at h
    · cases h
    · rename_i b m1 heq
      split at h
      · cases h
      · rename_i errs1 heq2
        cases h
        intro x hx
        cases b with
        | false =>
          simp only [Bool.false_eq_true, if_false] at hx
          exact checkLoopsFrom_sound decls fuel k (i0 + 1) m1 errs1 heq2 x hx
        | true =>
          simp only [if_true] at hx
          rcases List.mem_cons.mp hx with rfl | hx2
          · exact regexpReaches_decl (loopInRegexp_sound decls x x fuel
              (fun j => if j = x then x else marks j) (decls x) m1 heq)
          · exact checkLoopsFrom_sound decls fuel k (i0 + 1) m1 errs1 heq2 x hx2

theorem checkLoopsFrom_complete (decls : Nat → Regexp) (fuel : Nat) :
    ∀ (k i0 : Nat) (marks : Nat → Nat) (errs : List Nat),
      checkLoopsFrom decls fuel i0 k marks = some errs →
      (∀ j, marks j < i0 ∨ marks j = 0) →
      ∀ i, i0 ≤ i → i < i0 + k → 1 ≤ i → Reaches decls i i → i ∈ errs
  | 0, i0, _, _, _, _, i, hge, hlt, _, _ => by omega
  | k + 1, i0, marks, errs, h, hinv, i, hge, hlt, h1, hcyc => by
    simp only [checkLoopsFrom] at h
    split at h
    · cases h
    · rename_i b m1 heq
      split at h
      · cases h
      · rename_i errs1 heq2
        cases h
        by_cases hii : i = i0
        · subst hii
          cases b with
          | false =>
            have hpre : ∀ j, (fun j => if j = i then i else marks j) j = i → j = i := by
              intro j hj
              by_cases hji : j = i
              · exact hji
              · exfalso
                simp only [if_neg hji] at hj
                rcases hinv j with hlt2 | h0 <;> omega
            have hblk := loop_blocked decls i fuel _ m1 hpre heq
            exact absurd rfl (hblk i hcyc).1
          | true => simp
        · have hmono : ∀ j, m1 j < i0 + 1 ∨ m1 j = 0 := by
            intro j
            rcases loopInRegexp_range decls i0 i0 fuel
              (fun j => if j = i0 then i0 else marks j) (decls i0) b m1 heq j with he | he
            · by_cases hji : j = i0
              · left
                rw [he, if_pos hji]
                omega
              · rw [he, if_neg hji]
                rcases hinv j with h2 | h2
                · left; omega
                · right; exact h2
            · left
              rw [he]
              omega
          have hrec := checkLoopsFrom_complete decls fuel k (i0 + 1) m1 errs1 heq2 hmono i
            (by omega) (by omega) h1 hcyc
          cases b <;> simp [hrec]

/-- Claim C8 (counterexample): with declaration 0 = (reserv 1) and
declaration 1 = (reserv 0), both definitions are cyclic, yet
check_loops_in_regexps reports only declaration 1: during the first
pass curr_loop_pass_num equals the initial loop_pass_num value 0, so
declaration 1 counts as already processed and the cycle through it is
never followed. -/
theorem C8_counterexample :
    checkLoopsInRegexps 10 declsC8 = some [1]
    ∧ Reaches (declFun declsC8) 0 0
    ∧ (0 : Nat) ∉ ([1] : List Nat) :=
  ⟨rfl,
    Reaches.tail
      (Reaches.step (show (1 : Nat) ∈ directRefs (declFun declsC8 0) by decide))
      (show (0 : Nat) ∈ directRefs (declFun declsC8 1) by decide),
    by decide⟩

/-- Claim C8 (amended): every declaration index reported by
check_loops_in_regexps transitively references itself through Reserv
nodes (so no error is reported for an acyclic set), and conversely
every cyclic declaration at index at least 1 is reported; the
declaration at index 0 has no such guarantee, because all loop_pass_num
fields are initialized to 0, which collides with curr_loop_pass_num of
the first pass. -/
theorem C8_cycle_detection (decls : List Regexp) (fuel : Nat) (errs : List Nat)
    (h : checkLoopsInRegexps fuel decls = some errs) :
    (∀ i ∈ errs, Reaches (declFun decls) i i)
    ∧ ∀ i, 1 ≤ i → i < decls.length → Reaches (declFun decls) i i → i ∈ errs := by
  unfold checkLoopsInRegexps at h
  constructor
  · exact fun i hi =>
      checkLoopsFrom_sound (declFun decls) fuel decls.length 0 (fun _ => 0) errs h i hi
  · intro i h1 hlen hcyc
    exact checkLoopsFrom_complete (declFun decls) fuel decls.length 0 (fun _ => 0) errs h
      (fun j => Or.inr rfl) i (Nat.zero_le i) (by omega) h1 hcyc

/-- Claim C8 (witness): the amended theorem applied to the concrete
mutually cyclic pair, whose error list is exactly the index 1. -/
theorem C8_cycle_detection_witness :
    checkLoopsInRegexps 10 declsC8 = some [1]
    ∧ ((∀ i ∈ ([1] : List Nat), Reaches (declFun declsC8) i i)
      ∧ ∀ i, 1 ≤ i → i < declsC8.length → Reaches (declFun declsC8) i i → i ∈ ([1] : List Nat)) :=
  ⟨rfl, C8_cycle_detection declsC8 10 [1] rfl⟩

/-! ## The insn queue index bound -/

theorem queueExpAux_spec :
    ∀ (fuel i m : Nat), (∀ j, j < i → 2 ^ j ≤ m) → m < 2 ^ (i + fuel) →
      m < 2 ^ queueExpAux fuel i m ∧ ∀ j, j < queueExpAux fuel i m → 2 ^ j ≤ m
  | 0, i, m, hlo, hhi => by
    simp only [queueExpAux]
    exact ⟨by simpa using hhi, hlo⟩
  | fuel + 1, i, m, hlo, hhi => by
    simp only [queueExpAux]
    split
    · rename_i hc
      exact ⟨hc, hlo⟩
    · rename_i hc
      refine queueExpAux_spec fuel (i + 1) m ?_ ?_
      · intro j hj
        rcases Nat.lt_succ_iff_lt_or_eq.mp hj with h1 | h1
        · exact hlo j h1
        · subst h1
          omega
      · have he : i + 1 + fuel = i + (fuel + 1) := by omega
        rw [he]
        exact hhi

theorem queueExp_spec (m : Nat) :
    m < 2 ^ queueExp m ∧ ∀ j, j < queueExp m → 2 ^ j ≤ m := by
  refine queueExpAux_spec (m + 1) 0 m (fun j hj => absurd hj (Nat.not_lt_zero j)) ?_
  have h1 : m < 2 ^ m := Nat.lt_two_pow m
  have h2 : 2 ^ m ≤ 2 ^ (0 + (m + 1)) := Nat.pow_le_pow_right (by omega) (by omega)
  omega

/-- Claim C9 (counterexample): for the single insn reservation
(u0, nothing), the trailing nothing occupies cycle 1, so
evaluate_max_reserv_cycles yields 2, while one past the maximum cycle
at which the insn reserves a unit is 0 + 1 = 1: max_insn_reserv_cycles
counts sequence positions, not unit reservations. -/
theorem C9_counterexample :
    evaluateMaxReservCycles envC9 10 [rC9] = some 2
    ∧ claimMaxInsnReservCycles envC9 10 [rC9] = some 1 :=
  ⟨rfl, rfl⟩

/-- Claim C9 (amended): with max_insn_reserv_cycles the value actually
computed by evaluate_max_reserv_cycles (one past the maximum finish
cycle over all insn reservations, where every sequence element,
including nothing, occupies the cycle after its predecessor), the
emitted max_insn_queue_index is the smallest value of the form 2^k - 1
that is at least the maximum of max_insn_reserv_cycles and all
latencies. -/
theorem C9_queue_index (env : Nat → Regexp) (fuel : Nat) (insns : List Regexp)
    (latencies : List Nat) (c : Nat)
    (h : evaluateMaxReservCycles env fuel insns = some c) :
    ∃ k, maxInsnQueueIndex c latencies = 2 ^ k - 1
      ∧ List.foldl max c latencies ≤ maxInsnQueueIndex c latencies
      ∧ ∀ j, List.foldl max c latencies ≤ 2 ^ j - 1 →
          maxInsnQueueIndex c latencies ≤ 2 ^ j - 1 := by
  obtain ⟨h1, h2⟩ := queueExp_spec (List.foldl max c latencies)
  refine ⟨queueExp (List.foldl max c latencies), rfl, ?_, ?_⟩
  · unfold maxInsnQueueIndex
    omega
  · intro j hj
    unfold maxInsnQueueIndex
    have hpj : 0 < 2 ^ j := pow_pos (by omega) j
    have hmj : List.foldl max c latencies < 2 ^ j := by omega
    have hkj : queueExp (List.foldl max c latencies) ≤ j := by
      by_contra hcon
      push_neg at hcon
      have hle := h2 j hcon
      omega
    have hpow := Nat.pow_le_pow_right (show 1 ≤ 2 by omega) hkj
    omega

/-- Claim C9 (witness): the amended theorem at the concrete insn
(u0, nothing) and one latency 3: the maximum is 3 and the emitted
index is 2^2 - 1 = 3. -/
theorem C9_queue_index_witness :
    evaluateMaxReservCycles envC9 10 [rC9] = some 2
    ∧ ∃ k, maxInsnQueueIndex 2 [3] = 2 ^ k - 1
      ∧ List.foldl max 2 [3] ≤ maxInsnQueueIndex 2 [3]
      ∧ ∀ j, List.foldl max 2 [3] ≤ 2 ^ j - 1 →
          maxInsnQueueIndex 2 [3] ≤ 2 ^ j - 1 :=
  ⟨rfl, C9_queue_index envC9 10 [rC9] [3] 2 rfl⟩

/-! ## Comb-vector lemmas -/

theorem getD_set_self (l : List Nat) (p v d : Nat) (h : p < l.length) :
    (l.set p v).getD p d = v := by
  rw [List.getD_eq_getElem _ _ (by simpa using h)]
  simp [List.getElem_set]

theorem getD_set_ne (l : List Nat) (p q v d : Nat) (h : p ≠ q) :
    (l.set p v).getD q d = l.getD q d := by
  simp [List.getD, List.getElem?_set_ne h]

theorem getD_append_replicate (l : List Nat) (k d q : Nat) :
    (l ++ List.replicate k d).getD q d = l.getD q d := by
  rcases Nat.lt_or_ge q l.length with h | h
  · rw [List.getD_eq_getElem _ _ (by simp; omega), List.getD_eq_getElem _ _ h,
      List.getElem_append_left h]
  · rcases Nat.lt_or_ge q (l.length + k) with h2 | h2
    · rw [List.getD_eq_getElem _ _ (by simp; omega), List.getD_eq_default _ _ h]
      simp [List.getElem_append_right, h]
    · rw [List.getD_eq_default _ _ (by simp; omega), List.getD_eq_default _ _ h]

theorem getD_replicate (k d q : Nat) : (List.replicate k d).getD q d = d := by
  rcases Nat.lt_or_ge q k with h | h
  · rw [List.getD_eq_getElem _ _ (by simpa using h)]
    simp
  · rw [List.getD_eq_default _ _ (by simpa using h)]

theorem conflictAt_eq_false_iff (undef : Nat) (comb vect : List Nat) (cvi : Nat) :
    conflictAt undef comb vect cvi = false ↔
      ∀ vi, vi < vect.length → vect.getD vi undef ≠ undef →
        comb.getD (vi + cvi) undef = undef := by
  rw [conflictAt, List.any_eq_false]
  constructor
  · intro h vi hvi hdef
    have h2 := h vi (List.mem_range.mpr hvi)
    rw [Bool.and_eq_true, bne_iff_ne, bne_iff_ne] at h2
    by_contra hne
    exact h2 ⟨hdef, hne⟩
  · intro h vi hvi
    rw [Bool.and_eq_true, bne_iff_ne, bne_iff_ne]
    rintro ⟨hdef, hne⟩
    exact hne (h vi (List.mem_range.mp hvi) hdef)

theorem conflictAt_length (undef : Nat) (comb vect : List Nat) :
    conflictAt undef comb vect comb.length = false := by
  rw [conflictAt_eq_false_iff]
  intro vi _ _
  exact List.getD_eq_default _ _ (by omega)

theorem findSlotAux_no_conflict (undef : Nat) (comb vect : List Nat) :
    ∀ (k cvi : Nat), conflictAt undef comb vect (cvi + k) = false →
      conflictAt undef comb vect (findSlotAux undef comb vect cvi k) = false
  | 0, cvi, h => by simpa [findSlotAux] using h
  | k + 1, cvi, h => by
    rw [findSlotAux]
    split
    · exact findSlotAux_no_conflict undef comb vect k (cvi + 1) (by
        have he : cvi + 1 + k = cvi + (k + 1) := by omega
        rw [he]
        exact h)
    · rename_i hc
      simpa using hc

theorem findSlot_no_conflict (undef : Nat) (comb vect : List Nat) :
    conflictAt undef comb vect (findSlot undef comb vect) = false := by
  refine findSlotAux_no_conflict undef comb vect comb.length 0 ?_
  have he : 0 + comb.length = comb.length := by omega
  rw [he]
  exact conflictAt_length undef comb vect

theorem fillRow_spec (undef vn : Nat) :
    ∀ (vect : List Nat) (pos : Nat) (comb check comb2 check2 : List Nat),
      fillRow undef vn vect pos comb check = some (comb2, check2) →
      check.length = comb.length →
      pos + vect.length ≤ comb.length →
      comb2.length = comb.length ∧ check2.length = check.length
      ∧ (∀ vi d, vi < vect.length → vect.getD vi undef ≠ undef →
          comb2.getD (pos + vi) d = vect.getD vi undef ∧ check2.getD (pos + vi) d = vn)
      ∧ (∀ q d, (∀ vi, vi < vect.length → vect.getD vi undef ≠ undef → q ≠ pos + vi) →
          comb2.getD q d = comb.getD q d ∧ check2.getD q d = check.getD q d)
      ∧ (∀ vi, vi < vect.length → vect.getD vi undef ≠ undef →
          comb.getD (pos + vi) undef = undef)
  | [], pos, comb, check, comb2, check2, h, hlen, hbound => by
    simp only [fillRow] at h
    cases h
    refine ⟨rfl, rfl, ?_, ?_, ?_⟩
    · intro vi d hvi
      cases hvi
    · intro q d _
      exact ⟨rfl, rfl⟩
    · intro vi hvi
      cases hvi
  | v :: rest, pos, comb, check, comb2, check2, h, hlen, hbound => by
    simp only [fillRow] at h
    split at h
    · rename_i hv
      obtain ⟨l1, l2, hw, hu, hpre⟩ :=
        fillRow_spec undef vn rest (pos + 1) comb check comb2 check2 h hlen
          (by simp at hbound; omega)
      refine ⟨l1, l2, ?_, ?_, ?_⟩
      · intro vi d hvi hdef
        cases vi with
        | zero =>
          exfalso
          apply hdef
          simpa using hv
        | succ vi2 =>
          have he : pos + (vi2 + 1) = pos + 1 + vi2 := by omega
          rw [he]
          exact hw vi2 d (by simp at hvi; omega) (by simpa using hdef)
      · intro q d hq
        refine hu q d ?_
        intro vi hvi hdef
        have he : pos + 1 + vi = pos + (vi + 1) := by omega
        rw [he]
        exact hq (vi + 1) (by simp; omega) (by simpa using hdef)
      · intro vi hvi hdef
        cases vi with
        | zero =>
          exfalso
          apply hdef
          simpa using hv
        | succ vi2 =>
          have he : pos + (vi2 + 1) = pos + 1 + vi2 := by omega
          rw [he]
          exact hpre vi2 (by simp at hvi; omega) (by simpa using hdef)
    · split at h
      · cases h
      · rename_i hv hcomb
        have hposlt : pos < comb.length := by simp at hbound; omega
        obtain ⟨l1, l2, hw, hu, hpre⟩ :=
          fillRow_spec undef vn rest (pos + 1) (comb.set pos v) (check.set pos vn)
            comb2 check2 h (by simpa using hlen) (by simp at hbound ⊢; omega)
        rw [List.length_set] at l1 l2
        refine ⟨l1, l2, ?_, ?_, ?_⟩
        · intro vi d hvi hdef
          cases vi with
          | zero =>
            have hne : ∀ vi2, vi2 < rest.length → rest.getD vi2 undef ≠ undef →
                pos + 0 ≠ pos + 1 + vi2 := by
              intro vi2 _ _
              omega
            obtain ⟨hc, hk⟩ := hu (pos + 0) d hne
            rw [hc, hk]
            constructor
            · rw [show pos + 0 = pos from by omega, getD_set_self comb pos v d hposlt]
              simp
            · rw [show pos + 0 = pos from by omega,
                getD_set_self check pos vn d (by omega)]
          | succ vi2 =>
            have he : pos + (vi2 + 1) = pos + 1 + vi2 := by omega
            rw [he]
            exact hw vi2 d (by simp at hvi; omega) (by simpa using hdef)
        · intro q d hq
          have hqpos : q ≠ pos := by
            intro hqe
            exact hq 0 (by simp) (by simpa using hv) (by omega)
          obtain ⟨hc, hk⟩ := hu q d (by
            intro vi hvi hdef
            have he : pos + 1 + vi = pos + (vi + 1) := by omega
            rw [he]
            exact hq (vi + 1) (by simp; omega) (by simpa using hdef))
          rw [hc, hk, getD_set_ne comb pos q v d (by omega),
            getD_set_ne check pos q vn d (by omega)]
          exact ⟨rfl, rfl⟩
        · intro vi hvi hdef
          cases vi with
          | zero =>
            simpa using hcomb
          | succ vi2 =>
            have he : pos + (vi2 + 1) = pos + 1 + vi2 := by omega
            rw [he]
            have := hpre vi2 (by simp at hvi; omega) (by simpa using hdef)
            rw [getD_set_ne comb pos (pos + 1 + vi2) v undef (by omega)] at this
            exact this

theorem writeFullRow_spec :
    ∀ (vect full : List Nat) (pos : Nat),
      (writeFullRow full pos vect).length = full.length
      ∧ (∀ i d, i < vect.length → pos + vect.length ≤ full.length →
          (writeFullRow full pos vect).getD (pos + i) d = vect.getD i d)
      ∧ (∀ q d, (q < pos ∨ pos + vect.length ≤ q) →
          (writeFullRow full pos vect).getD q d = full.getD q d)
  | [], full, pos => by
    refine ⟨rfl, ?_, ?_⟩
    · intro i d hi
      cases hi
    · intro q d _
      rfl
  | v :: rest, full, pos => by
    obtain ⟨l1, hw, hu⟩ := writeFullRow_spec rest (full.set pos v) (pos + 1)
    rw [List.length_set] at l1
    simp only [writeFullRow]
    refine ⟨l1, ?_, ?_⟩
    · intro i d hi hbound
      cases i with
      | zero =>
        rw [show pos + 0 = pos from by omega]
        rw [hu pos d (Or.inl (by omega))]
        rw [getD_set_self full pos v d (by simp at hbound; omega)]
        rfl
      | succ i2 =>
        have he : pos + (i2 + 1) = pos + 1 + i2 := by omega
        rw [he]
        have := hw i2 d (by simp at hi; omega) (by simp at hbound; simp; omega)
        rw [this]
        rfl
    · intro q d hq
      simp only [List.length_cons] at hq
      rw [hu q d (by omega)]
      rw [getD_set_ne full pos q v d (by omega)]

theorem addVect_preserves_inv (tab tab2 : AinsnTable) (vn : Nat) (vect : List Nat)
    (rows : List (Nat × List Nat))
    (hinv : TableInv tab rows)
    (hadd : addVect tab vn vect = some tab2)
    (hfresh : vn ∉ rows.map Prod.fst)
    (hvn : vn < tab.noStateValue)
    (hlen : vect.length ≤ tab.classesNum) :
    TableInv tab2 ((vn, vect) :: rows)
    ∧ tab2.classesNum = tab.classesNum ∧ tab2.noStateValue = tab.noStateValue
    ∧ tab2.undef = tab.undef := by
  obtain ⟨hl1, hl2, hl3, hchk, hrows, hfull0⟩ := hinv
  simp only [addVect] at hadd
  split at hadd
  · cases hadd
  · split at hadd
    · cases hadd
    · rename_i hne0 hlast
      split at hadd
      · cases hadd
      · rename_i comb2 check2 hfill
        cases hadd
        set cvi := findSlot tab.undef tab.comb vect with hcvi
        set comb1 :=
          tab.comb ++ List.replicate (cvi + tab.classesNum - tab.comb.length) tab.undef
          with hcomb1
        set check1 :=
          tab.check ++ List.replicate (cvi + tab.classesNum - tab.check.length) tab.noStateValue
          with hcheck1
        have hcombeq : ∀ q, comb1.getD q tab.undef = tab.comb.getD q tab.undef := by
          intro q
          rw [hcomb1]
          exact getD_append_replicate _ _ _ _
        have hcheckeq : ∀ q, check1.getD q tab.noStateValue = tab.check.getD q tab.noStateValue := by
          intro q
          rw [hcheck1]
          exact getD_append_replicate _ _ _ _
        have hlen1 : comb1.length = tab.comb.length + (cvi + tab.classesNum - tab.comb.length) := by
          rw [hcomb1]
          simp
        have hlen1c : check1.length = tab.check.length + (cvi + tab.classesNum - tab.check.length) := by
          rw [hcheck1]
          simp
        have hlench : check1.length = comb1.length := by omega
        have hbound : cvi + vect.length ≤ comb1.length := by omega
        obtain ⟨flen1, flen2, hwrite, huntouched, hpre⟩ :=
          fillRow_spec tab.undef vn vect cvi comb1 check1 comb2 check2 hfill hlench hbound
        obtain ⟨wl, ww, wu⟩ := writeFullRow_spec vect tab.full (tab.classesNum * vn)
        have hmulsucc : ∀ a : Nat, tab.classesNum * (a + 1) = tab.classesNum * a + tab.classesNum := by
          intro a
          rw [Nat.mul_succ]
        have hfbound : tab.classesNum * vn + vect.length ≤ tab.full.length := by
          have h1 : tab.classesNum * (vn + 1) ≤ tab.classesNum * tab.noStateValue :=
            Nat.mul_le_mul_left _ (by omega)
          have h2 := hmulsucc vn
          omega
        have hbase : (tab.base.set vn cvi).getD vn 0 = cvi :=
          getD_set_self tab.base vn cvi 0 (by omega)
        refine ⟨⟨?_, ?_, ?_, ?_, ?_, ?_⟩, rfl, rfl, rfl⟩
        · show check2.length = comb2.length
          omega
        · show (tab.base.set vn cvi).length = tab.noStateValue
          rw [List.length_set]
          exact hl2
        · show (writeFullRow tab.full (tab.classesNum * vn) vect).length
            = tab.classesNum * tab.noStateValue
          rw [wl]
          exact hl3
        · show ∀ q, check2.getD q tab.noStateValue ≠ tab.noStateValue →
            check2.getD q tab.noStateValue ∈ ((vn, vect) :: rows).map Prod.fst
            ∧ comb2.getD q tab.undef ≠ tab.undef
          intro q hq
          by_cases hw : ∃ vi, vi < vect.length ∧ vect.getD vi tab.undef ≠ tab.undef ∧ q = cvi + vi
          · obtain ⟨vi, hvi, hdef, rfl⟩ := hw
            constructor
            · rw [(hwrite vi tab.noStateValue hvi hdef).2]
              simp
            · rw [(hwrite vi tab.undef hvi hdef).1]
              exact hdef
          · have hunw : ∀ vi, vi < vect.length → vect.getD vi tab.undef ≠ tab.undef →
                q ≠ cvi + vi := fun vi hvi hdef hqe => hw ⟨vi, hvi, hdef, hqe⟩
            have hq2 : check2.getD q tab.noStateValue = tab.check.getD q tab.noStateValue := by
              rw [(huntouched q tab.noStateValue hunw).2, hcheckeq q]
            have hq3 : comb2.getD q tab.undef = tab.comb.getD q tab.undef := by
              rw [(huntouched q tab.undef hunw).1, hcombeq q]
            rw [hq2] at hq ⊢
            rw [hq3]
            obtain ⟨hmem, hcomb⟩ := hchk q hq
            refine ⟨?_, hcomb⟩
            rw [List.map_cons]
            exact List.mem_cons_of_mem _ hmem
        · show ∀ vn2 vect2, (vn2, vect2) ∈ (vn, vect) :: rows →
            vect2.length ≤ tab.classesNum
            ∧ vn2 < tab.noStateValue
            ∧ (∀ cls, cls < tab.classesNum →
                (check2.getD ((tab.base.set vn cvi).getD vn2 0 + cls) tab.noStateValue = vn2 ↔
                  (cls < vect2.length ∧ vect2.getD cls tab.undef ≠ tab.undef)))
            ∧ (∀ cls, cls < vect2.length → vect2.getD cls tab.undef ≠ tab.undef →
                comb2.getD ((tab.base.set vn cvi).getD vn2 0 + cls) tab.undef
                  = vect2.getD cls tab.undef)
            ∧ (∀ cls, cls < tab.classesNum →
                (writeFullRow tab.full (tab.classesNum * vn) vect).getD
                    (cls + tab.classesNum * vn2) tab.undef =
                  (if cls < vect2.length then vect2.getD cls tab.undef else tab.undef))
          intro vn2 vect2 hmem
          rcases List.mem_cons.mp hmem with heq | htail
          · rw [Prod.mk.injEq] at heq
            obtain ⟨h1, h2⟩ := heq
            have h1s := h1.symm
            have h2s := h2.symm
            subst h1s
            subst h2s
            refine ⟨hlen, hvn, ?_, ?_, ?_⟩
            · intro cls hcls
              rw [hbase]
              constructor
              · intro hg
                by_contra hcon
                have hunw : ∀ vi, vi < vect.length → vect.getD vi tab.undef ≠ tab.undef →
                    cvi + cls ≠ cvi + vi := by
                  intro vi hvi hdef hqe
                  have hcv : cls = vi := by omega
                  subst hcv
                  exact hcon ⟨hvi, hdef⟩
                rw [(huntouched (cvi + cls) tab.noStateValue hunw).2, hcheckeq] at hg
                have hne : tab.check.getD (cvi + cls) tab.noStateValue ≠ tab.noStateValue := by
                  rw [hg]
                  omega
                obtain ⟨hmem2, _⟩ := hchk _ hne
                rw [hg] at hmem2
                exact hfresh hmem2
              · rintro ⟨hlt, hdef⟩
                exact (hwrite cls tab.noStateValue hlt hdef).2
            · intro cls hlt hdef
              rw [hbase]
              exact (hwrite cls tab.undef hlt hdef).1
            · intro cls hcls
              rw [show cls + tab.classesNum * vn = tab.classesNum * vn + cls from by omega]
              by_cases hcl : cls < vect.length
              · rw [ww cls tab.undef hcl hfbound, if_pos hcl]
              · rw [wu _ tab.undef (Or.inr (by omega)), if_neg hcl]
                rw [show tab.classesNum * vn + cls = cls + tab.classesNum * vn from by omega]
                exact hfull0 vn hfresh hvn cls hcls
          · obtain ⟨olen, ovn, oa, ob, oc⟩ := hrows vn2 vect2 htail
            have hvne : vn ≠ vn2 := by
              intro he
              subst he
              exact hfresh (List.mem_map_of_mem Prod.fst htail)
            have hbase2 : (tab.base.set vn cvi).getD vn2 0 = tab.base.getD vn2 0 :=
              getD_set_ne tab.base vn vn2 cvi 0 hvne
            have hwoff : ∀ cls, cls < vect2.length → vect2.getD cls tab.undef ≠ tab.undef →
                ¬∃ vi, vi < vect.length ∧ vect.getD vi tab.undef ≠ tab.undef ∧
                  tab.base.getD vn2 0 + cls = cvi + vi := by
              rintro cls hlt hdef ⟨vi, hvi, hdefv, hqe⟩
              have hcombold := ob cls hlt hdef
              have hpre2 := hpre vi hvi hdefv
              rw [hcombeq] at hpre2
              rw [← hqe] at hpre2
              exact hdef (hcombold.symm.trans hpre2)
            refine ⟨olen, ovn, ?_, ?_, ?_⟩
            · intro cls hcls
              rw [hbase2]
              by_cases hwq : ∃ vi, vi < vect.length ∧ vect.getD vi tab.undef ≠ tab.undef ∧
                  tab.base.getD vn2 0 + cls = cvi + vi
              · obtain ⟨vi, hvi, hdef, hqe⟩ := hwq
                have hcv : check2.getD (tab.base.getD vn2 0 + cls) tab.noStateValue = vn := by
                  rw [hqe]
                  exact (hwrite vi tab.noStateValue hvi hdef).2
                rw [hcv]
                constructor
                · intro hg
                  exact absurd hg hvne
                · rintro ⟨hlt, hdef2⟩
                  exact absurd ⟨vi, hvi, hdef, hqe⟩ (hwoff cls hlt hdef2)
              · have hunw : ∀ vi, vi < vect.length → vect.getD vi tab.undef ≠ tab.undef →
                    tab.base.getD vn2 0 + cls ≠ cvi + vi :=
                  fun vi hvi hdef hqe => hwq ⟨vi, hvi, hdef, hqe⟩
                rw [(huntouched _ tab.noStateValue hunw).2, hcheckeq]
                exact oa cls hcls
            · intro cls hlt hdef
              rw [hbase2]
              have hunw : ∀ vi, vi < vect.length → vect.getD vi tab.undef ≠ tab.undef →
                  tab.base.getD vn2 0 + cls ≠ cvi + vi :=
                fun vi hvi hdefv hqe => hwoff cls hlt hdef ⟨vi, hvi, hdefv, hqe⟩
              rw [(huntouched _ tab.undef hunw).1, hcombeq]
              exact ob cls hlt hdef
            · intro cls hcls
              have hdisj : cls + tab.classesNum * vn2 < tab.classesNum * vn ∨
                  tab.classesNum * vn + vect.length ≤ cls + tab.classesNum * vn2 := by
                rcases Nat.lt_or_ge vn2 vn with h | h
                · left
                  have h1 : tab.classesNum * (vn2 + 1) ≤ tab.classesNum * vn :=
                    Nat.mul_le_mul_left _ (by omega)
                  have h2 := hmulsucc vn2
                  omega
                · have hgt : vn < vn2 := by omega
                  right
                  have h1 : tab.classesNum * (vn + 1) ≤ tab.classesNum * vn2 :=
                    Nat.mul_le_mul_left _ (by omega)
                  have h2 := hmulsucc vn
                  omega
              rw [wu _ tab.undef hdisj]
              exact oc cls hcls
        · show ∀ vn2, vn2 ∉ ((vn, vect) :: rows).map Prod.fst → vn2 < tab.noStateValue →
            ∀ cls, cls < tab.classesNum →
              (writeFullRow tab.full (tab.classesNum * vn) vect).getD
                  (cls + tab.classesNum * vn2) tab.undef = tab.undef
          intro vn2 hnm hvn2 cls hcls
          simp only [List.map_cons, List.mem_cons] at hnm
          push_neg at hnm
          obtain ⟨hne2, hnm2⟩ := hnm
          have hdisj : cls + tab.classesNum * vn2 < tab.classesNum * vn ∨
              tab.classesNum * vn + vect.length ≤ cls + tab.classesNum * vn2 := by
            rcases Nat.lt_or_ge vn2 vn with h | h
            · left
              have h1 : tab.classesNum * (vn2 + 1) ≤ tab.classesNum * vn :=
                Nat.mul_le_mul_left _ (by omega)
              have h2 := hmulsucc vn2
              omega
            · have hgt : vn < vn2 := by omega
              right
              have h1 : tab.classesNum * (vn + 1) ≤ tab.classesNum * vn2 :=
                Nat.mul_le_mul_left _ (by omega)
              have h2 := hmulsucc vn
              omega
          rw [wu _ tab.undef hdisj]
          exact hfull0 vn2 hnm2 hvn2 cls hcls

theorem tableInv_mem (tab : AinsnTable) (rows1 rows2 : List (Nat × List Nat))
    (h : ∀ p : Nat × List Nat, p ∈ rows1 ↔ p ∈ rows2) :
    TableInv tab rows1 → TableInv tab rows2 := by
  rintro ⟨h1, h2, h3, h4, h5, h6⟩
  have hmap : ∀ x, x ∈ rows1.map Prod.fst ↔ x ∈ rows2.map Prod.fst := by
    intro x
    simp only [List.mem_map]
    constructor
    · rintro ⟨p, hp, rfl⟩
      exact ⟨p, (h p).mp hp, rfl⟩
    · rintro ⟨p, hp, rfl⟩
      exact ⟨p, (h p).mpr hp, rfl⟩
  refine ⟨h1, h2, h3, ?_, ?_, ?_⟩
  · intro q hq
    obtain ⟨hm, hc⟩ := h4 q hq
    exact ⟨(hmap _).mp hm, hc⟩
  · intro vn vect hm
    exact h5 vn vect ((h _).mpr hm)
  · intro vn hm hv
    exact h6 vn (fun hx => hm ((hmap _).mp hx)) hv

theorem addVects_inv :
    ∀ (rows : List (Nat × List Nat)) (tab tab2 : AinsnTable) (done : List (Nat × List Nat)),
      TableInv tab done →
      addVects tab rows = some tab2 →
      (∀ p ∈ rows, p.1 ∉ done.map Prod.fst ∧ p.1 < tab.noStateValue ∧
        p.2.length ≤ tab.classesNum) →
      List.Nodup (rows.map Prod.fst) →
      TableInv tab2 (done ++ rows)
      ∧ tab2.classesNum = tab.classesNum ∧ tab2.noStateValue = tab.noStateValue
      ∧ tab2.undef = tab.undef
  | [], tab, tab2, done, hinv, hadd, _, _ => by
    simp only [addVects] at hadd
    cases hadd
    refine ⟨?_, rfl, rfl, rfl⟩
    rw [List.append_nil]
    exact hinv
  | (vn, vect) :: rest, tab, tab2, done, hinv, hadd, hok, hnd => by
    simp only [addVects] at hadd
    split at hadd
    · cases hadd
    · rename_i tab1 heq
      obtain ⟨hfresh, hvn, hlen⟩ := hok (vn, vect) (by simp)
      obtain ⟨hinv1, hc1, hn1, hu1⟩ :=
        addVect_preserves_inv tab tab1 vn vect done hinv heq hfresh hvn hlen
      have hnd2 : List.Nodup (vn :: rest.map Prod.fst) := hnd
      have hndc := List.nodup_cons.mp hnd2
      have hok2 : ∀ p ∈ rest, p.1 ∉ ((vn, vect) :: done).map Prod.fst ∧
          p.1 < tab1.noStateValue ∧ p.2.length ≤ tab1.classesNum := by
        intro p hp
        obtain ⟨hf, hv, hl⟩ := hok p (by simp [hp])
        refine ⟨?_, by rw [hn1]; exact hv, by rw [hc1]; exact hl⟩
        simp only [List.map_cons, List.mem_cons]
        push_neg
        refine ⟨?_, hf⟩
        intro he
        exact hndc.1 (he ▸ List.mem_map_of_mem Prod.fst hp)
      obtain ⟨hinv2, hc2, hn2, hu2⟩ :=
        addVects_inv rest tab1 tab2 ((vn, vect) :: done) hinv1 hadd hok2 hndc.2
      refine ⟨?_, hc2.trans hc1, hn2.trans hn1, hu2.trans hu1⟩
      refine tableInv_mem tab2 (((vn, vect) :: done) ++ rest) (done ++ (vn, vect) :: rest)
        ?_ hinv2
      intro p
      simp only [List.mem_append, List.mem_cons]
      tauto

theorem createTable_inv (classesNum statesNum undef : Nat) :
    TableInv (createTable classesNum statesNum undef) [] := by
  refine ⟨rfl, ?_, ?_, ?_, ?_, ?_⟩
  · show (List.replicate statesNum 0).length = statesNum
    simp
  · show (List.replicate (classesNum * statesNum) undef).length = classesNum * statesNum
    simp
  · intro q hq
    exact absurd rfl hq
  · intro vn vect hm
    cases hm
  · intro vn _ _ cls _
    exact getD_replicate _ _ _

/-- Claim C3: the comb-vector (row-displacement) encoding built by
add_vect is sound: for every state order number and every insn
equivalence class, the lookup comb[base[state] + class], guarded by
check[base[state] + class] == state with the undefined value returned
on guard failure, equals the uncompressed full matrix entry for
(state, class).  The rows are the per-state vectors in the insertion
order of the output loop, with distinct row numbers below the state
count and row lengths at most the class count. -/
theorem C3_comb_vector_sound (classesNum statesNum undef : Nat)
    (rows : List (Nat × List Nat)) (tab : AinsnTable)
    (hadd : addVects (createTable classesNum statesNum undef) rows = some tab)
    (hnodup : List.Nodup (rows.map Prod.fst))
    (hrows : ∀ p ∈ rows, p.1 < statesNum ∧ p.2.length ≤ classesNum) :
    ∀ state cls, state < statesNum → cls < classesNum →
      combLookup tab state cls = fullLookup tab state cls := by
  obtain ⟨hinv, hc, hn, hu⟩ := addVects_inv rows (createTable classesNum statesNum undef) tab []
    (createTable_inv classesNum statesNum undef) hadd
    (by
      intro p hp
      obtain ⟨h1, h2⟩ := hrows p hp
      exact ⟨by simp, h1, h2⟩)
    hnodup
  rw [List.nil_append] at hinv
  obtain ⟨hl1, hl2, hl3, hchk, hrows2, hfull0⟩ := hinv
  intro state cls hs hcls
  have hn2 : tab.noStateValue = statesNum := hn
  have hc2 : tab.classesNum = classesNum := hc
  unfold combLookup fullLookup
  by_cases hmem : state ∈ rows.map Prod.fst
  · rw [List.mem_map] at hmem
    obtain ⟨p, hp, hps⟩ := hmem
    obtain ⟨plen, pvn, pa, pb, pc⟩ := hrows2 p.1 p.2 (by simpa using hp)
    rw [hps] at pa pb pc
    by_cases hg : tab.check.getD (tab.base.getD state 0 + cls) tab.noStateValue = state
    · rw [if_pos hg]
      obtain ⟨hlt, hdef⟩ := (pa cls (by omega)).mp hg
      rw [pb cls hlt hdef, pc cls (by omega), if_pos hlt]
    · rw [if_neg hg]
      have hx := pc cls (by omega)
      by_cases hlt : cls < p.2.length
      · have hno : ¬(cls < p.2.length ∧ p.2.getD cls tab.undef ≠ tab.undef) :=
          fun hcon => hg ((pa cls (by omega)).mpr hcon)
        have hdefu : p.2.getD cls tab.undef = tab.undef := by
          by_contra hne
          exact hno ⟨hlt, hne⟩
        rw [hx, if_pos hlt, hdefu]
      · rw [hx, if_neg hlt]
  · by_cases hg : tab.check.getD (tab.base.getD state 0 + cls) tab.noStateValue = state
    · exfalso
      have hne : tab.check.getD (tab.base.getD state 0 + cls) tab.noStateValue
          ≠ tab.noStateValue := by
        rw [hg]
        omega
      obtain ⟨hm, _⟩ := hchk _ hne
      rw [hg] at hm
      exact hmem hm
    · rw [if_neg hg]
      exact (hfull0 state hmem (by omega) cls (by omega)).symm

/-- Claim C3 (witness): three concrete rows inserted into a 2-class,
3-state table; the comb lookup agrees with the full matrix at every
(state, class). -/
theorem C3_comb_vector_sound_witness :
    addVects (createTable 2 3 3) rowsC3 = some tabC3
    ∧ List.Nodup (rowsC3.map Prod.fst)
    ∧ (∀ p ∈ rowsC3, p.1 < 3 ∧ p.2.length ≤ 2)
    ∧ ∀ state cls, state < 3 → cls < 2 →
        combLookup tabC3 state cls = fullLookup tabC3 state cls :=
  ⟨rfl, by decide, by decide,
    C3_comb_vector_sound 2 3 3 rowsC3 tabC3 rfl (by decide) (by decide)⟩

/-- Claim C6 (counterexample): on the single-unit machine with the
reservation u | u,u, the composed arc left by subset construction has
state_alts 1 (the number of removed arcs), not 2, and the
deterministic construction's arc has state_alts 2 (the recount of
non-conflicting alternatives), not 1: the claim's two values are
swapped. -/
theorem C6_counterexample :
    ((insnArcsOf dfaPoolC6 0 0).map fun a => a.stateAlts) = [1]
    ∧ ((insnArcsOf detPoolC6 0 0).map fun a => a.stateAlts) = [2] :=
  ⟨rfl, rfl⟩

/-- Claim C6 (amended): with the ndfa option the NDFA start state has
two arcs on the insn; subset construction replaces them by the single
arc to the composed state of both targets, with state_alts equal to
the number of removed arcs, here 1; without the ndfa option a single
arc to the union with the FIRST alternative is kept and its
state_alts is recounted to the number of non-conflicting alternatives,
here 2. -/
theorem C6_single_unit_machine :
    (insnArcsOf ndfaPoolC6 0 0).length = 2
    ∧ insnArcsOf dfaPoolC6 0 0 = [⟨3, 0, 1⟩]
    ∧ componentsOf dfaPoolC6 3 = [1, 2]
    ∧ insnArcsOf detPoolC6 0 0 = [⟨1, 0, 2⟩]
    ∧ reservsOf detPoolC6 1 =
        statesUnionReservs dC6 (rsOfFun dC6 fun _ _ => false) (altsC6.getD 0 []) maskC6 :=
  ⟨rfl, rfl, rfl, rfl, rfl⟩

/-! ## Minimization: list utilities -/

theorem mem_insertSorted (x y : Nat) : ∀ (l : List Nat), x ∈ insertSorted y l ↔ x = y ∨ x ∈ l
  | [] => by simp [insertSorted]
  | z :: t => by
    simp only [insertSorted]
    split
    · simp
    · split
      · rename_i hlt heq
        subst heq
        simp only [List.mem_cons]
        constructor
        · intro h
          exact Or.inr h
        · rintro (rfl | h)
          · simp
          · exact h
      · simp only [List.mem_cons, mem_insertSorted x y t]
        tauto

theorem sorted_insertSorted (y : Nat) :
    ∀ (l : List Nat), l.Pairwise (· < ·) → (insertSorted y l).Pairwise (· < ·)
  | [], _ => by simp [insertSorted]
  | z :: t, h => by
    simp only [insertSorted]
    obtain ⟨hz, ht⟩ := List.pairwise_cons.mp h
    split
    · rename_i hlt
      refine List.pairwise_cons.mpr ⟨?_, h⟩
      intro b hb
      rcases List.mem_cons.mp hb with rfl | hb2
      · exact hlt
      · exact Nat.lt_trans hlt (hz b hb2)
    · split
      · exact h
      · rename_i hnlt hne
        refine List.pairwise_cons.mpr ⟨?_, sorted_insertSorted y t ht⟩
        intro b hb
        rcases (mem_insertSorted b y t).mp hb with rfl | hb2
        · omega
        · exact hz b hb2

theorem mem_uniqSortIds_aux (x : Nat) :
    ∀ (l acc : List Nat), x ∈ l.foldl (fun a y => insertSorted y a) acc ↔ x ∈ acc ∨ x ∈ l
  | [], acc => by simp
  | y :: t, acc => by
    simp only [List.foldl_cons, mem_uniqSortIds_aux x t, mem_insertSorted, List.mem_cons]
    tauto

theorem mem_uniqSortIds (x : Nat) (l : List Nat) : x ∈ uniqSortIds l ↔ x ∈ l := by
  rw [uniqSortIds, mem_uniqSortIds_aux]
  simp

theorem sorted_uniqSortIds_aux :
    ∀ (l acc : List Nat), acc.Pairwise (· < ·) →
      (l.foldl (fun a y => insertSorted y a) acc).Pairwise (· < ·)
  | [], acc, h => h
  | y :: t, acc, h => by
    simp only [List.foldl_cons]
    exact sorted_uniqSortIds_aux t (insertSorted y acc) (sorted_insertSorted y acc h)

theorem sorted_uniqSortIds (l : List Nat) : (uniqSortIds l).Pairwise (· < ·) :=
  sorted_uniqSortIds_aux l [] (by simp)

theorem head_le_of_pairwise_lt (h : Nat) (t : List Nat)
    (hs : (h :: t).Pairwise (· < ·)) : ∀ x ∈ h :: t, h ≤ x := by
  intro x hx
  rcases List.mem_cons.mp hx with rfl | hx2
  · omega
  · exact Nat.le_of_lt ((List.pairwise_cons.mp hs).1 x hx2)

theorem find_contains_spec (x : Nat) :
    ∀ (classes : List (List Nat)), (∃ cl ∈ classes, x ∈ cl) →
      ∃ cl, classes.find? (fun c2 => c2.contains x) = some cl ∧ x ∈ cl ∧ cl ∈ classes
  | [], h => by
    obtain ⟨cl, hcl, _⟩ := h
    cases hcl
  | cl0 :: cls, h => by
    by_cases hx : x ∈ cl0
    · refine ⟨cl0, ?_, hx, by simp⟩
      rw [List.find?_cons_of_pos]
      simpa using hx
    · have h2 : ∃ cl ∈ cls, x ∈ cl := by
        obtain ⟨cl, hcl, hxcl⟩ := h
        rcases List.mem_cons.mp hcl with rfl | hcl2
        · exact absurd hxcl hx
        · exact ⟨cl, hcl2, hxcl⟩
      obtain ⟨cl, hfind, hxcl, hmem⟩ := find_contains_spec x cls h2
      refine ⟨cl, ?_, hxcl, by simp [hmem]⟩
      rw [List.find?_cons_of_neg]
      · exact hfind
      · simpa using hx

theorem find_contains_mem (x : Nat) (classes : List (List Nat)) (cl : List Nat)
    (h : classes.find? (fun c2 => c2.contains x) = some cl) : x ∈ cl ∧ cl ∈ classes := by
  have h1 := List.find?_some h
  have h2 := List.mem_of_find?_eq_some h
  exact ⟨by simpa using h1, h2⟩

/-! ## Minimization: the partition pass -/

theorem partitionClass_spec (A : MinAuto) (cRead : Nat → Nat) :
    ∀ (fuel : Nat) (chain : List Nat) (cW : Nat → Nat) (counter : Nat)
      (pruned : List Nat) (newCls : List (List Nat)) (cW2 : Nat → Nat)
      (counter2 : Nat) (sp : Bool),
      partitionClass A cRead fuel chain cW counter
        = some (pruned, newCls, cW2, counter2, sp) →
      chain.Nodup →
      List.Perm (pruned ++ newCls.flatten) chain
      ∧ (chain ≠ [] → pruned ≠ [] ∧ pruned.headD 0 = chain.headD 0)
      ∧ (∀ s ∈ pruned, cW2 s = cW s)
      ∧ (∀ s, s ∉ chain → cW2 s = cW s)
      ∧ counter ≤ counter2
      ∧ (∀ k, (hk : k < newCls.length) → newCls[k] ≠ []
          ∧ (∀ s ∈ newCls[k], ∀ t ∈ newCls[k], cW2 s = cW2 t)
          ∧ (∀ s ∈ newCls[k], counter < cW2 s ∧ cW2 s ≤ counter2))
      ∧ (∀ k1 k2, (h1 : k1 < newCls.length) → (h2 : k2 < newCls.length) → k1 < k2 →
          ∀ s ∈ newCls[k1], ∀ t ∈ newCls[k2], cW2 s < cW2 t)
      ∧ (sp = false → pruned = chain ∧ newCls = [] ∧ cW2 = cW ∧ counter2 = counter
          ∧ ∀ s ∈ chain.tail, stateIsDiffered A cRead (chain.headD 0) s = false)
  | 0, _, _, _, _, _, _, _, _, hp, _ => by cases hp
  | fuel + 1, [], cW, counter, pruned, newCls, cW2, counter2, sp, hp, hnd => by
    simp only [partitionClass] at hp
    cases hp
    refine ⟨by simp, fun hne => absurd rfl hne, fun s _ => rfl, fun s _ => rfl,
      Nat.le_refl _, ?_, ?_, ?_⟩
    · intro k hk
      simp at hk
    · intro k1 k2 h1 h2
      simp at h1
    · intro _
      refine ⟨rfl, rfl, rfl, rfl, ?_⟩
      intro s hs
      cases hs
  | fuel + 1, h :: rest, cW, counter, pruned, newCls, cW2, counter2, sp, hp, hnd => by
    simp only [partitionClass] at hp
    split at hp
    · rename_i hrest
      cases hp
      have hrest2 : rest = [] := by simpa [List.isEmpty_iff] using hrest
      subst hrest2
      refine ⟨by simp, fun _ => ⟨by simp, rfl⟩, fun s _ => rfl, fun s _ => rfl,
        Nat.le_refl _, ?_, ?_, ?_⟩
      · intro k hk
        simp at hk
      · intro k1 k2 h1 h2
        simp at h1
      · intro _
        refine ⟨rfl, rfl, rfl, rfl, ?_⟩
        intro s hs
        cases hs
    · split at hp
      · rename_i hrest hmv
        cases hp
        have hmv2 : ∀ s ∈ rest, stateIsDiffered A cRead h s = false := by
          simpa using hmv
        refine ⟨by simp, fun _ => ⟨by simp, rfl⟩, fun s _ => rfl, fun s _ => rfl,
          Nat.le_refl _, ?_, ?_, ?_⟩
        · intro k hk
          simp at hk
        · intro k1 k2 h1 h2
          simp at h1
        · intro _
          exact ⟨rfl, rfl, rfl, rfl, hmv2⟩
      · split at hp
        · cases hp
        · rename_i hrest hmv prunedM more cW2 counter2 spR heq
          cases hp
          have hrestnd : rest.Nodup := (List.nodup_cons.mp hnd).2
          have hhnin : h ∉ rest := (List.nodup_cons.mp hnd).1
          have hmvsub : ∀ s, s ∈ (rest.filter fun s => stateIsDiffered A cRead h s).reverse →
              s ∈ rest := by
            intro s hs
            rw [List.mem_reverse] at hs
            exact (List.mem_filter.mp hs).1
          have hmvnd : (rest.filter fun s => stateIsDiffered A cRead h s).reverse.Nodup := by
            simpa using hrestnd.filter _
          obtain ⟨r1, r2, r3, r4, r5, r6, r7, r8⟩ :=
            partitionClass_spec A cRead fuel
              (rest.filter fun s => stateIsDiffered A cRead h s).reverse
              (fun s => if ((rest.filter fun s => stateIsDiffered A cRead h s).reverse).contains s
                then counter + 1 else cW s)
              (counter + 1) prunedM more cW2 counter2 spR heq hmvnd
          have hmvne : (rest.filter fun s => stateIsDiffered A cRead h s).reverse ≠ [] := by
            intro he
            rw [he] at hrest
            simp at hrest
          have hinmoved : ∀ s ∈ prunedM ++ more.flatten,
              s ∈ (rest.filter fun s => stateIsDiffered A cRead h s).reverse := by
            intro s hs
            exact r1.mem_iff.mp hs
          have hnotmoved : ∀ s, s ∉ (rest.filter fun s => stateIsDiffered A cRead h s).reverse →
              cW2 s = cW s := by
            intro s hs
            rw [r4 s hs]
            have hc : ¬((rest.filter fun s =>
                stateIsDiffered A cRead h s).reverse.contains s = true) := by
              simpa using hs
            rw [if_neg hc]
          refine ⟨?_, fun _ => ⟨by simp, rfl⟩, ?_, ?_, by omega, ?_, ?_, ?_⟩
          · show List.Perm ((h :: rest.filter fun s => !stateIsDiffered A cRead h s)
              ++ (prunedM :: more).flatten) (h :: rest)
            have p1 : List.Perm (prunedM ++ more.flatten)
                (rest.filter fun s => stateIsDiffered A cRead h s) := by
              refine r1.trans ?_
              exact List.reverse_perm _
            have p2 : List.Perm ((rest.filter fun s => !stateIsDiffered A cRead h s)
                ++ (rest.filter fun s => stateIsDiffered A cRead h s)) rest := by
              have := List.filter_append_perm (fun s => !stateIsDiffered A cRead h s) rest
              refine List.Perm.trans ?_ this
              refine List.Perm.append_left _ ?_
              have he : rest.filter (fun s => stateIsDiffered A cRead h s)
                  = rest.filter fun x => !!stateIsDiffered A cRead h x := by
                refine List.filter_congr ?_
                intro x _
                simp
              rw [← he]
            show List.Perm (h :: ((rest.filter fun s => !stateIsDiffered A cRead h s)
              ++ (prunedM ++ more.flatten))) (h :: rest)
            refine List.Perm.cons h ?_
            refine List.Perm.trans (List.Perm.append_left _ p1) p2
          · intro s hs
            rcases List.mem_cons.mp hs with rfl | hs2
            · exact hnotmoved s (fun hin => hhnin (hmvsub s hin))
            · refine hnotmoved s ?_
              intro hin
              have hd := (List.mem_filter.mp (List.mem_reverse.mp hin)).2
              have hnd2 := (List.mem_filter.mp hs2).2
              rw [hd] at hnd2
              cases hnd2
          · intro s hs
            refine hnotmoved s ?_
            intro hin
            exact hs (List.mem_cons_of_mem h (hmvsub s hin))
          · intro k hk
            cases k with
            | zero =>
              simp only [List.getElem_cons_zero]
              refine ⟨(r2 hmvne).1, ?_, ?_⟩
              · intro s hs t ht
                have hv : ∀ x ∈ prunedM, cW2 x = counter + 1 := by
                  intro x hx
                  rw [r3 x hx]
                  have hc : (rest.filter fun s =>
                      stateIsDiffered A cRead h s).reverse.contains x = true := by
                    simpa using hinmoved x (List.mem_append.mpr (Or.inl hx))
                  rw [if_pos hc]
                rw [hv s hs, hv t ht]
              · intro s hs
                have : cW2 s = counter + 1 := by
                  rw [r3 s hs]
                  have hc : (rest.filter fun s =>
                      stateIsDiffered A cRead h s).reverse.contains s = true := by
                    simpa using hinmoved s (List.mem_append.mpr (Or.inl hs))
                  rw [if_pos hc]
                omega
            | succ k2 =>
              simp only [List.getElem_cons_succ]
              have hk2 : k2 < more.length := by simpa using hk
              obtain ⟨a1, a2, a3⟩ := r6 k2 hk2
              refine ⟨a1, a2, ?_⟩
              intro s hs
              have := a3 s hs
              omega
          · intro k1 k2 h1 h2 hlt s hs t ht
            cases k1 with
            | zero =>
              cases k2 with
              | zero => omega
              | succ k3 =>
                simp only [List.getElem_cons_zero] at hs
                simp only [List.getElem_cons_succ] at ht
                have hv : cW2 s = counter + 1 := by
                  rw [r3 s hs]
                  have hc : (rest.filter fun s =>
                      stateIsDiffered A cRead h s).reverse.contains s = true := by
                    simpa using hinmoved s (List.mem_append.mpr (Or.inl hs))
                  rw [if_pos hc]
                have hk3 : k3 < more.length := by simpa using h2
                obtain ⟨_, _, a3⟩ := r6 k3 hk3
                have := (a3 t ht).1
                omega
            | succ k3 =>
              cases k2 with
              | zero => omega
              | succ k4 =>
                simp only [List.getElem_cons_succ] at hs ht
                exact r7 k3 k4 (by simpa using h1) (by simpa using h2) (by omega) s hs t ht
          · intro hfalse
            simp at hfalse

theorem passClasses_spec (A : MinAuto) (cRead : Nat → Nat) (fuel : Nat) :
    ∀ (classes : List (List Nat)) (cW : Nat → Nat) (counter : Nat)
      (prunedL newL : List (List Nat)) (cW2 : Nat → Nat) (counter2 : Nat) (sp : Bool),
      passClasses A cRead fuel classes cW counter
        = some (prunedL, newL, cW2, counter2, sp) →
      classes.flatten.Nodup →
      (∀ cl ∈ classes, cl ≠ []) →
      prunedL.length = classes.length
      ∧ (∀ k, k < classes.length →
          prunedL.getD k [] ≠ []
          ∧ (prunedL.getD k []).headD 0 = (classes.getD k []).headD 0
          ∧ ∀ s ∈ prunedL.getD k [], s ∈ classes.getD k [] ∧ cW2 s = cW s)
      ∧ List.Perm (prunedL.flatten ++ newL.flatten) classes.flatten
      ∧ (∀ s, s ∉ classes.flatten → cW2 s = cW s)
      ∧ counter ≤ counter2
      ∧ (∀ k, k < newL.length →
          newL.getD k [] ≠ []
          ∧ (∀ s ∈ newL.getD k [], ∀ t ∈ newL.getD k [], cW2 s = cW2 t)
          ∧ (∀ s ∈ newL.getD k [], counter < cW2 s ∧ cW2 s ≤ counter2))
      ∧ (∀ k1 k2, k1 < newL.length → k2 < newL.length → k1 < k2 →
          ∀ s ∈ newL.getD k1 [], ∀ t ∈ newL.getD k2 [], cW2 s < cW2 t)
      ∧ (sp = false → prunedL = classes ∧ newL = [] ∧ cW2 = cW ∧ counter2 = counter
          ∧ ∀ cl ∈ classes, ∀ s ∈ cl.tail,
              stateIsDiffered A cRead (cl.headD 0) s = false)
  | [], cW, counter, prunedL, newL, cW2, counter2, sp, hp, hnd, hne => by
    simp only [passClasses] at hp
    cases hp
    refine ⟨rfl, ?_, by simp, fun s _ => rfl, Nat.le_refl _, ?_, ?_, ?_⟩
    · intro k hk
      simp at hk
    · intro k hk
      simp at hk
    · intro k1 k2 h1
      simp at h1
    · intro _
      refine ⟨rfl, rfl, rfl, rfl, ?_⟩
      intro cl hcl
      exact absurd hcl (List.not_mem_nil cl)
  | cl :: cls, cW, counter, prunedL, newL, cW2, counter2, sp, hp, hnd, hne => by
    simp only [passClasses] at hp
    split at hp
    · cases hp
    · rename_i pruned newCls cW1 counter1 split1 heq1
      split at hp
      · cases hp
      · rename_i prunedRest newRest cW2b counter2b split2 heq2
        cases hp
        have hndcl : (cl ++ cls.flatten).Nodup := hnd
        obtain ⟨hnd1, hnd2, hdisj⟩ := List.nodup_append.mp hndcl
        have hclne : cl ≠ [] := hne cl (List.mem_cons_self cl cls)
        obtain ⟨p1, p2, p3, p4, p5, p6, p7, p8⟩ :=
          partitionClass_spec A cRead fuel cl cW counter
            pruned newCls cW1 counter1 split1 heq1 hnd1
        obtain ⟨q1, q2, q3, q4, q5, q6, q7, q8⟩ :=
          passClasses_spec A cRead fuel cls cW1 counter1
            prunedRest newRest cW2 counter2 split2 heq2 hnd2
            (fun c hc => hne c (List.mem_cons_of_mem cl hc))
        have hsubcl : ∀ s ∈ pruned, s ∈ cl := fun s hs =>
          p1.mem_iff.mp (List.mem_append.mpr (Or.inl hs))
        have hsubnew : ∀ s ∈ newCls.flatten, s ∈ cl := fun s hs =>
          p1.mem_iff.mp (List.mem_append.mpr (Or.inr hs))
        have hincl : ∀ s ∈ cl, cW2 s = cW1 s := fun s hs =>
          q4 s (fun hin => hdisj hs hin)
        refine ⟨by simp [q1], ?_, ?_, ?_, by omega, ?_, ?_, ?_⟩
        · intro k hk
          cases k with
          | zero =>
            simp only [List.getD_cons_zero]
            refine ⟨(p2 hclne).1, (p2 hclne).2, ?_⟩
            intro s hs
            refine ⟨hsubcl s hs, ?_⟩
            rw [hincl s (hsubcl s hs), p3 s hs]
          | succ k2 =>
            simp only [List.getD_cons_succ]
            have hk2 : k2 < cls.length := by
              simp only [List.length_cons] at hk
              omega
            obtain ⟨a1, a2, a3⟩ := q2 k2 hk2
            refine ⟨a1, a2, ?_⟩
            intro s hs
            obtain ⟨b1, b2⟩ := a3 s hs
            refine ⟨b1, ?_⟩
            rw [b2]
            refine p4 s ?_
            intro hin
            refine hdisj hin ?_
            rw [List.getD_eq_getElem _ _ hk2] at b1
            exact List.mem_flatten.mpr ⟨cls[k2], List.getElem_mem hk2, b1⟩
        · show List.Perm ((pruned ++ prunedRest.flatten) ++ (newCls ++ newRest).flatten)
            (cl ++ cls.flatten)
          rw [List.flatten_append]
          have key : List.Perm
              ((pruned ++ prunedRest.flatten) ++ (newCls.flatten ++ newRest.flatten))
              ((pruned ++ newCls.flatten) ++ (prunedRest.flatten ++ newRest.flatten)) := by
            have h1 : (pruned ++ prunedRest.flatten) ++ (newCls.flatten ++ newRest.flatten)
                = pruned ++ (prunedRest.flatten ++ (newCls.flatten ++ newRest.flatten)) := by
              simp [List.append_assoc]
            have h2 : (pruned ++ newCls.flatten) ++ (prunedRest.flatten ++ newRest.flatten)
                = pruned ++ (newCls.flatten ++ (prunedRest.flatten ++ newRest.flatten)) := by
              simp [List.append_assoc]
            rw [h1, h2]
            refine List.Perm.append_left pruned ?_
            have h3 : prunedRest.flatten ++ (newCls.flatten ++ newRest.flatten)
                = (prunedRest.flatten ++ newCls.flatten) ++ newRest.flatten := by
              simp [List.append_assoc]
            have h4 : newCls.flatten ++ (prunedRest.flatten ++ newRest.flatten)
                = (newCls.flatten ++ prunedRest.flatten) ++ newRest.flatten := by
              simp [List.append_assoc]
            rw [h3, h4]
            exact List.Perm.append_right newRest.flatten List.perm_append_comm
          exact key.trans (p1.append q3)
        · intro s hs
          have hs1 : s ∉ cl := fun hin => hs (List.mem_append.mpr (Or.inl hin))
          have hs2 : s ∉ cls.flatten := fun hin => hs (List.mem_append.mpr (Or.inr hin))
          rw [q4 s hs2, p4 s hs1]
        · intro k hk
          rcases Nat.lt_or_ge k newCls.length with hlt | hge
          · have e : (newCls ++ newRest).getD k [] = newCls[k] := by
              rw [List.getD_eq_getElem _ _ hk]
              exact List.getElem_append_left hlt
            rw [e]
            obtain ⟨a1, a2, a3⟩ := p6 k hlt
            have htr : ∀ s ∈ newCls[k], cW2 s = cW1 s := by
              intro s hs
              refine hincl s (hsubnew s ?_)
              exact List.mem_flatten.mpr ⟨newCls[k], List.getElem_mem hlt, hs⟩
            refine ⟨a1, ?_, ?_⟩
            · intro s hs t ht
              rw [htr s hs, htr t ht]
              exact a2 s hs t ht
            · intro s hs
              rw [htr s hs]
              have := a3 s hs
              omega
          · have hk2 : k - newCls.length < newRest.length := by
              simp only [List.length_append] at hk
              omega
            have e : (newCls ++ newRest).getD k [] = newRest.getD (k - newCls.length) [] := by
              rw [List.getD_eq_getElem _ _ hk, List.getD_eq_getElem _ _ hk2]
              exact List.getElem_append_right hge
            rw [e]
            obtain ⟨a1, a2, a3⟩ := q6 (k - newCls.length) hk2
            refine ⟨a1, a2, ?_⟩
            intro s hs
            have := a3 s hs
            omega
        · intro k1 k2 h1 h2 hlt s hs t ht
          rcases Nat.lt_or_ge k2 newCls.length with hlt2 | hge2
          · have hk1n : k1 < newCls.length := by omega
            have e1 : (newCls ++ newRest).getD k1 [] = newCls[k1] := by
              rw [List.getD_eq_getElem _ _ h1]
              exact List.getElem_append_left hk1n
            have e2 : (newCls ++ newRest).getD k2 [] = newCls[k2] := by
              rw [List.getD_eq_getElem _ _ h2]
              exact List.getElem_append_left hlt2
            rw [e1] at hs
            rw [e2] at ht
            have htr : ∀ x, x ∈ newCls[k1] ∨ x ∈ newCls[k2] → cW2 x = cW1 x := by
              intro x hx
              refine hincl x (hsubnew x ?_)
              rcases hx with hx | hx
              · exact List.mem_flatten.mpr ⟨newCls[k1], List.getElem_mem hk1n, hx⟩
              · exact List.mem_flatten.mpr ⟨newCls[k2], List.getElem_mem hlt2, hx⟩
            rw [htr s (Or.inl hs), htr t (Or.inr ht)]
            exact p7 k1 k2 hk1n hlt2 hlt s hs t ht
          · rcases Nat.lt_or_ge k1 newCls.length with hlt1 | hge1
            · have e1 : (newCls ++ newRest).getD k1 [] = newCls[k1] := by
                rw [List.getD_eq_getElem _ _ h1]
                exact List.getElem_append_left hlt1
              have e2 : (newCls ++ newRest).getD k2 []
                  = newRest.getD (k2 - newCls.length) [] := by
                have hk2b : k2 - newCls.length < newRest.length := by
                  simp only [List.length_append] at h2
                  omega
                rw [List.getD_eq_getElem _ _ h2, List.getD_eq_getElem _ _ hk2b]
                exact List.getElem_append_right hge2
              rw [e1] at hs
              rw [e2] at ht
              have hsv : cW2 s = cW1 s := by
                refine hincl s (hsubnew s ?_)
                exact List.mem_flatten.mpr ⟨newCls[k1], List.getElem_mem hlt1, hs⟩
              obtain ⟨_, _, a3⟩ := p6 k1 hlt1
              have h5 := (a3 s hs).2
              have hk2b : k2 - newCls.length < newRest.length := by
                simp only [List.length_append] at h2
                omega
              obtain ⟨_, _, b3⟩ := q6 (k2 - newCls.length) hk2b
              have h6 := (b3 t ht).1
              omega
            · have hk1b : k1 - newCls.length < newRest.length := by
                simp only [List.length_append] at h1
                omega
              have hk2b : k2 - newCls.length < newRest.length := by
                simp only [List.length_append] at h2
                omega
              have e1 : (newCls ++ newRest).getD k1 []
                  = newRest.getD (k1 - newCls.length) [] := by
                rw [List.getD_eq_getElem _ _ h1, List.getD_eq_getElem _ _ hk1b]
                exact List.getElem_append_right hge1
              have e2 : (newCls ++ newRest).getD k2 []
                  = newRest.getD (k2 - newCls.length) [] := by
                rw [List.getD_eq_getElem _ _ h2, List.getD_eq_getElem _ _ hk2b]
                exact List.getElem_append_right hge2
              rw [e1] at hs
              rw [e2] at ht
              exact q7 (k1 - newCls.length) (k2 - newCls.length) hk1b hk2b
                (by omega) s hs t ht
        · intro hsp
          obtain ⟨hsp1, hsp2⟩ := Bool.or_eq_false_iff.mp hsp
          obtain ⟨e1, e2, e3, e4, e5⟩ := p8 hsp1
          obtain ⟨f1, f2, f3, f4, f5⟩ := q8 hsp2
          subst e2
          refine ⟨by rw [e1, f1], by simp [f2], by rw [f3, e3], by rw [f4, e4], ?_⟩
          intro c hc
          rcases List.mem_cons.mp hc with rfl | hc2
          · exact e5
          · exact f5 c hc2

theorem pass_preserves_separated (A : MinAuto) (fuel : Nat)
    (classes : List (List Nat)) (cW : Nat → Nat) (counter : Nat)
    (prunedL newL : List (List Nat)) (cW2 : Nat → Nat) (counter2 : Nat) (sp : Bool)
    (hp : passClasses A cW fuel classes cW counter
      = some (prunedL, newL, cW2, counter2, sp))
    (hnd : classes.flatten.Nodup) (hne : ∀ cl ∈ classes, cl ≠ [])
    (hsep : Separated classes cW) (hb : ∀ s ∈ classes.flatten, cW s ≤ counter) :
    Separated (prunedL ++ newL) cW2
    ∧ (∀ s ∈ (prunedL ++ newL).flatten, cW2 s ≤ counter2)
    ∧ (prunedL ++ newL).flatten.Nodup
    ∧ (∀ cl ∈ prunedL ++ newL, cl ≠ [])
    ∧ List.Perm (prunedL ++ newL).flatten classes.flatten := by
  obtain ⟨P1, P2, P3, P4, P5, P6, P7, P8⟩ :=
    passClasses_spec A cW fuel classes cW counter
      prunedL newL cW2 counter2 sp hp hnd hne
  have hperm : List.Perm (prunedL ++ newL).flatten classes.flatten := by
    rw [List.flatten_append]
    exact P3
  have hMemFlat : ∀ i, (hic : i < classes.length) → ∀ s ∈ classes[i],
      s ∈ classes.flatten := by
    intro i hic s hs
    exact List.mem_flatten.mpr ⟨classes[i], List.getElem_mem hic, hs⟩
  have hPr : ∀ i, (hi : i < (prunedL ++ newL).length) → (hilt : i < prunedL.length) →
      ∀ s ∈ (prunedL ++ newL)[i],
        (∃ hic : i < classes.length, s ∈ classes[i]) ∧ cW2 s = cW s := by
    intro i hi hilt s hs
    rw [List.getElem_append_left hilt] at hs
    have hic : i < classes.length := by omega
    obtain ⟨a1, a2, a3⟩ := P2 i hic
    have hsd : s ∈ prunedL.getD i [] := by
      rw [List.getD_eq_getElem _ _ hilt]
      exact hs
    obtain ⟨b1, b2⟩ := a3 s hsd
    rw [List.getD_eq_getElem _ _ hic] at b1
    exact ⟨⟨hic, b1⟩, b2⟩
  have hNw : ∀ i, (hi : i < (prunedL ++ newL).length) → (hige : prunedL.length ≤ i) →
      ∀ s ∈ (prunedL ++ newL)[i],
        s ∈ newL.getD (i - prunedL.length) [] ∧ counter < cW2 s ∧ cW2 s ≤ counter2 := by
    intro i hi hige s hs
    have hi2 : i - prunedL.length < newL.length := by
      simp only [List.length_append] at hi
      omega
    rw [List.getElem_append_right hige] at hs
    have hsd : s ∈ newL.getD (i - prunedL.length) [] := by
      rw [List.getD_eq_getElem _ _ hi2]
      exact hs
    obtain ⟨_, _, a3⟩ := P6 (i - prunedL.length) hi2
    exact ⟨hsd, a3 s hsd⟩
  refine ⟨?_, ?_, hperm.nodup_iff.mpr hnd, ?_, hperm⟩
  · intro i j hi hj s hs t ht
    rcases Nat.lt_or_ge i prunedL.length with hilt | hige
    · rcases Nat.lt_or_ge j prunedL.length with hjlt | hjge
      · obtain ⟨⟨hic, hs1⟩, hs2⟩ := hPr i hi hilt s hs
        obtain ⟨⟨hjc, ht1⟩, ht2⟩ := hPr j hj hjlt t ht
        rw [hs2, ht2]
        exact hsep i j hic hjc s hs1 t ht1
      · obtain ⟨⟨hic, hs1⟩, hs2⟩ := hPr i hi hilt s hs
        obtain ⟨_, ht2, _⟩ := hNw j hj hjge t ht
        have hbs : cW s ≤ counter := hb s (hMemFlat i hic s hs1)
        refine iff_of_false (by omega) (by omega)
    · rcases Nat.lt_or_ge j prunedL.length with hjlt | hjge
      · obtain ⟨⟨hjc, ht1⟩, ht2⟩ := hPr j hj hjlt t ht
        obtain ⟨_, hs2, _⟩ := hNw i hi hige s hs
        have hbt : cW t ≤ counter := hb t (hMemFlat j hjc t ht1)
        refine iff_of_false (by omega) (by omega)
      · have hi2 : i - prunedL.length < newL.length := by
          simp only [List.length_append] at hi
          omega
        have hj2 : j - prunedL.length < newL.length := by
          simp only [List.length_append] at hj
          omega
        obtain ⟨hs1, _, _⟩ := hNw i hi hige s hs
        obtain ⟨ht1, _, _⟩ := hNw j hj hjge t ht
        rcases Nat.lt_trichotomy (i - prunedL.length) (j - prunedL.length)
          with hltij | heqij | hgtij
        · have := P7 (i - prunedL.length) (j - prunedL.length) hi2 hj2 hltij s hs1 t ht1
          refine iff_of_false (by omega) (by omega)
        · have hij : i = j := by omega
          rw [heqij] at hs1
          obtain ⟨_, a2, _⟩ := P6 (j - prunedL.length) hj2
          exact iff_of_true (a2 s hs1 t ht1) hij
        · have := P7 (j - prunedL.length) (i - prunedL.length) hj2 hi2 hgtij t ht1 s hs1
          refine iff_of_false (by omega) (by omega)
  · intro s hs
    rw [List.flatten_append] at hs
    rcases List.mem_append.mp hs with hs | hs
    · obtain ⟨cl, hcl, hscl⟩ := List.mem_flatten.mp hs
      obtain ⟨k, hk, hpk⟩ := List.mem_iff_getElem.mp hcl
      have hkc : k < classes.length := by omega
      obtain ⟨_, _, a3⟩ := P2 k hkc
      have hsd : s ∈ prunedL.getD k [] := by
        rw [List.getD_eq_getElem _ _ hk, hpk]
        exact hscl
      obtain ⟨b1, b2⟩ := a3 s hsd
      rw [List.getD_eq_getElem _ _ hkc] at b1
      have := hb s (hMemFlat k hkc s b1)
      omega
    · obtain ⟨cl, hcl, hscl⟩ := List.mem_flatten.mp hs
      obtain ⟨k, hk, hpk⟩ := List.mem_iff_getElem.mp hcl
      obtain ⟨_, _, a3⟩ := P6 k hk
      have hsd : s ∈ newL.getD k [] := by
        rw [List.getD_eq_getElem _ _ hk, hpk]
        exact hscl
      exact (a3 s hsd).2
  · intro cl hcl
    rcases List.mem_append.mp hcl with hcl | hcl
    · obtain ⟨k, hk, hpk⟩ := List.mem_iff_getElem.mp hcl
      have hkc : k < classes.length := by omega
      obtain ⟨a1, _, _⟩ := P2 k hkc
      rw [List.getD_eq_getElem _ _ hk, hpk] at a1
      exact a1
    · obtain ⟨k, hk, hpk⟩ := List.mem_iff_getElem.mp hcl
      obtain ⟨a1, _, _⟩ := P6 k hk
      rw [List.getD_eq_getElem _ _ hk, hpk] at a1
      exact a1

theorem refineLoop_spec (A : MinAuto) :
    ∀ (fuel : Nat) (classes : List (List Nat)) (c : Nat → Nat) (counter : Nat)
      (final : List (List Nat)) (cF : Nat → Nat),
      refineLoop A fuel classes c counter = some (final, cF) →
      classes.flatten.Nodup → (∀ cl ∈ classes, cl ≠ []) →
      Separated classes c → (∀ s ∈ classes.flatten, c s ≤ counter) →
      (∀ cl ∈ final, cl ≠ [])
      ∧ List.Perm final.flatten classes.flatten
      ∧ Separated final cF
      ∧ ∀ cl ∈ final, ∀ s ∈ cl.tail, stateIsDiffered A cF (cl.headD 0) s = false
  | 0, _, _, _, _, _, hp, _, _, _, _ => by cases hp
  | fuel + 1, classes, c, counter, final, cF, hp, hnd, hne, hsep, hb => by
    simp only [refineLoop] at hp
    split at hp
    · cases hp
    · rename_i pruned newCls c2 counter2 split heq
      obtain ⟨S1, S2, S3, S4, S5⟩ :=
        pass_preserves_separated A fuel classes c counter
          pruned newCls c2 counter2 split heq hnd hne hsep hb
      split at hp
      · obtain ⟨r1, r2, r3, r4⟩ :=
          refineLoop_spec A fuel (pruned ++ newCls) c2 counter2 final cF hp S3 S4 S1 S2
        exact ⟨r1, r2.trans S5, r3, r4⟩
      · rename_i hsplit
        cases hp
        obtain ⟨_, _, _, _, _, _, _, P8⟩ :=
          passClasses_spec A c fuel classes c counter
            pruned newCls cF counter2 split heq hnd hne
        have hsplitf : split = false := by simpa using hsplit
        obtain ⟨e1, e2, e3, e4, e5⟩ := P8 hsplitf
        refine ⟨S4, S5, S1, ?_⟩
        intro cl hcl s hs
        rw [e2] at hcl
        rw [e1] at hcl
        rw [List.append_nil] at hcl
        rw [e3]
        exact e5 cl hcl s hs

/-! ## Minimization: state merging and the simulation -/

theorem headD_mem (l : List Nat) (h : l ≠ []) : l.headD 0 ∈ l := by
  cases l with
  | nil => exact absurd rfl h
  | cons a t => exact List.mem_cons_self a t

theorem mem_contributions_aux (A : MinAuto) :
    ∀ (cl acc : List Nat) (x : Nat),
      x ∈ cl.foldl
          (fun acc m => (if (A.comps m).isEmpty then [m] else A.comps m) ++ acc) acc
        ↔ x ∈ acc ∨ ∃ m ∈ cl, x ∈ (if (A.comps m).isEmpty then [m] else A.comps m)
  | [], acc, x => by simp
  | m0 :: rest, acc, x => by
    rw [List.foldl_cons, mem_contributions_aux A rest _ x]
    constructor
    · rintro (h | h)
      · rcases List.mem_append.mp h with h | h
        · exact Or.inr ⟨m0, List.mem_cons_self m0 rest, h⟩
        · exact Or.inl h
      · obtain ⟨m, hm, hxm⟩ := h
        exact Or.inr ⟨m, List.mem_cons_of_mem m0 hm, hxm⟩
    · rintro (h | h)
      · exact Or.inl (List.mem_append.mpr (Or.inr h))
      · obtain ⟨m, hm, hxm⟩ := h
        rcases List.mem_cons.mp hm with rfl | hm2
        · exact Or.inl (List.mem_append.mpr (Or.inl hxm))
        · exact Or.inr ⟨m, hm2, hxm⟩

theorem mem_contributions (A : MinAuto) (cl : List Nat) (x : Nat) :
    x ∈ contributions A cl
      ↔ ∃ m ∈ cl, x ∈ (if (A.comps m).isEmpty then [m] else A.comps m) := by
  rw [contributions, mem_contributions_aux]
  simp

theorem sep_find (classes : List (List Nat)) (c : Nat → Nat) (hsep : Separated classes c)
    (cl : List Nat) (x : Nat) (hcl : cl ∈ classes) (hx : x ∈ cl) :
    classes.find? (fun c2 => c2.contains x) = some cl := by
  obtain ⟨cl2, hfind, hx2, hcl2⟩ := find_contains_spec x classes ⟨cl, hcl, hx⟩
  obtain ⟨i, hi, hei⟩ := List.mem_iff_getElem.mp hcl
  obtain ⟨j, hj, hej⟩ := List.mem_iff_getElem.mp hcl2
  have hij : i = j :=
    (hsep i j hi hj x (by rw [hei]; exact hx) x (by rw [hej]; exact hx2)).mp rfl
  subst hij
  have hcc : cl2 = cl := hej.symm.trans hei
  rw [hfind, hcc]

theorem reprOf_eq_head (classes : List (List Nat)) (c : Nat → Nat)
    (hsep : Separated classes c) (cl : List Nat) (x : Nat)
    (hcl : cl ∈ classes) (hx : x ∈ cl) :
    reprOf classes x = cl.headD 0 := by
  unfold reprOf
  rw [sep_find classes c hsep cl x hcl hx]

theorem reprOf_consistent (classes : List (List Nat)) (c : Nat → Nat)
    (hsep : Separated classes c) (x y : Nat)
    (hx : x ∈ classes.flatten) (hy : y ∈ classes.flatten) (hc : c x = c y) :
    ∃ cl, cl ∈ classes ∧ x ∈ cl ∧ y ∈ cl := by
  obtain ⟨clx, hclx, hxm⟩ := List.mem_flatten.mp hx
  obtain ⟨cly, hcly, hym⟩ := List.mem_flatten.mp hy
  obtain ⟨i, hi, hei⟩ := List.mem_iff_getElem.mp hclx
  obtain ⟨j, hj, hej⟩ := List.mem_iff_getElem.mp hcly
  have hij : i = j :=
    (hsep i j hi hj x (by rw [hei]; exact hxm) y (by rw [hej]; exact hym)).mp hc
  subst hij
  refine ⟨clx, hclx, hxm, ?_⟩
  rw [← hei, hej]
  exact hym

theorem find_insn_self (l : List ArcRec) (hnd : (l.map ArcRec.insn).Nodup) :
    ∀ a ∈ l, l.find? (fun b => b.insn == a.insn) = some a := by
  induction l with
  | nil =>
    intro a ha
    cases ha
  | cons x t ih =>
    intro a ha
    rw [List.map_cons, List.nodup_cons] at hnd
    rcases List.mem_cons.mp ha with rfl | hat
    · rw [List.find?_cons_of_pos _ (by simp)]
    · have hxf : (x.insn == a.insn) = false := by
        simp only [beq_eq_false_iff_ne, ne_eq]
        intro he
        apply hnd.1
        rw [he]
        exact List.mem_map.mpr ⟨a, hat, rfl⟩
      rw [List.find?_cons, hxf]
      exact ih hnd.2 a hat

theorem stateIsDiffered_false_parts (A : MinAuto) (c : Nat → Nat) (h s : Nat)
    (hd : stateIsDiffered A c h s = false) :
    (∀ a ∈ A.arcs s, ∃ b, (A.arcs h).find? (fun b2 => b2.insn == a.insn) = some b
        ∧ c a.dst = c b.dst)
    ∧ (A.arcs s).length = (A.arcs h).length
    ∧ stateObs A s = stateObs A h := by
  unfold stateIsDiffered at hd
  obtain ⟨h12, h3⟩ := Bool.or_eq_false_iff.mp hd
  obtain ⟨h1, h2⟩ := Bool.or_eq_false_iff.mp h12
  refine ⟨?_, by simpa using h2, by simpa using h3⟩
  intro a ha
  have hpa := List.any_eq_false.mp h1 a ha
  cases hfind : (A.arcs h).find? (fun b2 => b2.insn == a.insn) with
  | none =>
    rw [hfind] at hpa
    simp at hpa
  | some b =>
    rw [hfind] at hpa
    simp at hpa
    exact ⟨b, rfl, hpa.1⟩

theorem class_member_parts (A : MinAuto) (classes : List (List Nat)) (c : Nat → Nat)
    (hstab : ∀ cl ∈ classes, ∀ s ∈ cl.tail, stateIsDiffered A c (cl.headD 0) s = false)
    (hinsn : ∀ s ∈ classes.flatten, ((A.arcs s).map ArcRec.insn).Nodup)
    (cl : List Nat) (hcl : cl ∈ classes) (s : Nat) (hs : s ∈ cl) :
    (∀ a ∈ A.arcs s, ∃ b,
        (A.arcs (cl.headD 0)).find? (fun b2 => b2.insn == a.insn) = some b
        ∧ c a.dst = c b.dst)
    ∧ (A.arcs s).length = (A.arcs (cl.headD 0)).length
    ∧ stateObs A s = stateObs A (cl.headD 0) := by
  cases cl with
  | nil => cases hs
  | cons h0 tl =>
    rcases List.mem_cons.mp hs with rfl | hstl
    · refine ⟨?_, rfl, rfl⟩
      intro a ha
      refine ⟨a, ?_, rfl⟩
      exact find_insn_self _
        (hinsn s (List.mem_flatten.mpr ⟨s :: tl, hcl, List.mem_cons_self s tl⟩)) a ha
    · exact stateIsDiffered_false_parts A c ((h0 :: tl).headD 0) s
        (hstab (h0 :: tl) hcl s hstl)

theorem stateObs_congr (A B : MinAuto) (x : Nat)
    (hcomps : B.comps x = A.comps x) (hbase : B.baseObs = A.baseObs) :
    stateObs B x = stateObs A x := by
  unfold stateObs
  rw [hcomps, hbase]

theorem stateObs_of_comps_cons (B : MinAuto) (x c0 : Nat) (L2 : List Nat)
    (h : B.comps x = c0 :: L2) : stateObs B x = B.baseObs c0 := by
  unfold stateObs
  rw [h]

theorem merged_stateObs (A : MinAuto) (classes : List (List Nat)) (c : Nat → Nat)
    (hsep : Separated classes c)
    (hne : ∀ cl ∈ classes, cl ≠ [])
    (hstab : ∀ cl ∈ classes, ∀ s ∈ cl.tail, stateIsDiffered A c (cl.headD 0) s = false)
    (hinsn : ∀ s ∈ classes.flatten, ((A.arcs s).map ArcRec.insn).Nodup)
    (hsorted : ∀ m ∈ classes.flatten, List.Pairwise (· < ·) (A.comps m))
    (cl : List Nat) (hcl : cl ∈ classes) (s : Nat) (hs : s ∈ cl) :
    stateObs (mergedAuto A classes) (reprOf classes s) = stateObs A s := by
  have hclne : cl ≠ [] := hne cl hcl
  have hrepr : reprOf classes s = cl.headD 0 := reprOf_eq_head classes c hsep cl s hcl hs
  have hhm : cl.headD 0 ∈ cl := headD_mem cl hclne
  have hfind : classes.find? (fun c2 => c2.contains (cl.headD 0)) = some cl :=
    sep_find classes c hsep cl (cl.headD 0) hcl hhm
  have hcomps : (mergedAuto A classes).comps (cl.headD 0)
      = if cl.length ≤ 1 then A.comps (cl.headD 0)
        else uniqSortIds (contributions A cl) := by
    show mergedComps A classes (cl.headD 0) = _
    unfold mergedComps
    rw [hfind]
  obtain ⟨_, _, hobsu⟩ := class_member_parts A classes c hstab hinsn cl hcl s hs
  rw [hrepr, hobsu]
  rcases le_or_lt cl.length 1 with hlen | hlen
  · rw [if_pos hlen] at hcomps
    exact stateObs_congr A (mergedAuto A classes) (cl.headD 0) hcomps rfl
  · rw [if_neg (by omega)] at hcomps
    have hLget : ∀ x, x ∈ uniqSortIds (contributions A cl) ↔ x ∈ contributions A cl :=
      fun x => mem_uniqSortIds x _
    have hLs : List.Pairwise (· < ·) (uniqSortIds (contributions A cl)) :=
      sorted_uniqSortIds _
    have hmemflat : ∀ m ∈ cl, m ∈ classes.flatten := fun m hm =>
      List.mem_flatten.mpr ⟨cl, hcl, hm⟩
    have hex : ∃ x, x ∈ uniqSortIds (contributions A cl) := by
      by_cases hse : (A.comps s).isEmpty
      · exact ⟨s, (hLget s).mpr ((mem_contributions A cl s).mpr
          ⟨s, hs, by rw [if_pos hse]; exact List.mem_cons_self s []⟩)⟩
      · cases hcs : A.comps s with
        | nil =>
          rw [hcs] at hse
          simp at hse
        | cons d rest =>
          refine ⟨d, (hLget d).mpr ((mem_contributions A cl d).mpr
            ⟨s, hs, ?_⟩)⟩
          rw [if_neg hse, hcs]
          exact List.mem_cons_self d rest
    cases hL : uniqSortIds (contributions A cl) with
    | nil =>
      obtain ⟨x, hx⟩ := hex
      rw [hL] at hx
      cases hx
    | cons c0 L2 =>
      rw [hL] at hLs
      have hc0min : ∀ x ∈ c0 :: L2, c0 ≤ x := head_le_of_pairwise_lt c0 L2 hLs
      have hc0mem : c0 ∈ contributions A cl := by
        rw [← hLget c0, hL]
        exact List.mem_cons_self c0 L2
      obtain ⟨m0, hm0cl, hc0f⟩ := (mem_contributions A cl c0).mp hc0mem
      have hobs0 : stateObs A m0 = A.baseObs c0 := by
        by_cases hm0e : (A.comps m0).isEmpty
        · rw [if_pos hm0e] at hc0f
          have : c0 = m0 := by simpa using hc0f
          cases hcm : A.comps m0 with
          | nil => simp [stateObs, hcm, this]
          | cons d rest =>
            rw [hcm] at hm0e
            simp at hm0e
        · rw [if_neg hm0e] at hc0f
          cases hcm : A.comps m0 with
          | nil =>
            rw [hcm] at hm0e
            simp at hm0e
          | cons d rest =>
            rw [hcm] at hc0f
            have hdc : d ∈ contributions A cl := by
              refine (mem_contributions A cl d).mpr ⟨m0, hm0cl, ?_⟩
              rw [if_neg hm0e, hcm]
              exact List.mem_cons_self d rest
            have hdL : d ∈ c0 :: L2 := by
              rw [← hL]
              exact (hLget d).mpr hdc
            have h1 : c0 ≤ d := hc0min d hdL
            have h2 : d ≤ c0 := by
              have := hsorted m0 (hmemflat m0 hm0cl)
              rw [hcm] at this
              exact head_le_of_pairwise_lt d rest this c0 hc0f
            have hdc0 : d = c0 := by omega
            simp [stateObs, hcm, hdc0]
      have hM : stateObs (mergedAuto A classes) (cl.headD 0)
          = (mergedAuto A classes).baseObs c0 :=
        stateObs_of_comps_cons (mergedAuto A classes) (cl.headD 0) c0 L2 (hcomps.trans hL)
      have hM2 : stateObs (mergedAuto A classes) (cl.headD 0) = A.baseObs c0 := hM
      rw [hM2, ← hobs0]
      obtain ⟨_, _, ho⟩ := class_member_parts A classes c hstab hinsn cl hcl m0 hm0cl
      rw [ho]

theorem merged_find_eq (A : MinAuto) (classes : List (List Nat)) (h i : Nat) :
    ((mergedAuto A classes).arcs h).find? (fun x => x.insn == i)
      = ((A.arcs h).find? (fun x => x.insn == i)).map
          (fun a => { a with dst := reprOf classes a.dst }) := by
  show ((A.arcs h).map fun a => { a with dst := reprOf classes a.dst }).find?
      (fun x => x.insn == i) = _
  rw [List.find?_map]
  have hpred : ((fun x : ArcRec => x.insn == i)
      ∘ fun a : ArcRec => { a with dst := reprOf classes a.dst })
      = (fun x : ArcRec => x.insn == i) := by
    funext a
    rfl
  rw [hpred]

theorem runAuto_cons_none (A : MinAuto) (s i : Nat) (w : List Nat)
    (hf : (A.arcs s).find? (fun a => a.insn == i) = none) :
    runAuto A s (i :: w) = none := by
  simp [runAuto, hf]

theorem runAuto_cons_some (A : MinAuto) (s i : Nat) (w : List Nat) (a : ArcRec)
    (hf : (A.arcs s).find? (fun a => a.insn == i) = some a) :
    runAuto A s (i :: w) = runAuto A a.dst w := by
  simp [runAuto, hf]

theorem minimization_simulation (A : MinAuto) (classes : List (List Nat)) (c : Nat → Nat)
    (hsep : Separated classes c)
    (hne : ∀ cl ∈ classes, cl ≠ [])
    (hstab : ∀ cl ∈ classes, ∀ s ∈ cl.tail, stateIsDiffered A c (cl.headD 0) s = false)
    (hclosure : ∀ s ∈ classes.flatten, ∀ a ∈ A.arcs s, a.dst ∈ classes.flatten)
    (hinsn : ∀ s ∈ classes.flatten, ((A.arcs s).map ArcRec.insn).Nodup)
    (hsorted : ∀ m ∈ classes.flatten, List.Pairwise (· < ·) (A.comps m)) :
    ∀ (w : List Nat) (s : Nat), s ∈ classes.flatten →
      (runAuto A s w).map (stateObs A)
        = (runAuto (mergedAuto A classes) (reprOf classes s) w).map
            (stateObs (mergedAuto A classes)) := by
  intro w
  induction w with
  | nil =>
    intro s hs
    obtain ⟨cl, hcl, hscl⟩ := List.mem_flatten.mp hs
    show some (stateObs A s) = some (stateObs (mergedAuto A classes) (reprOf classes s))
    rw [merged_stateObs A classes c hsep hne hstab hinsn hsorted cl hcl s hscl]
  | cons i w ih =>
    intro s hs
    obtain ⟨cl, hcl, hscl⟩ := List.mem_flatten.mp hs
    have hclne : cl ≠ [] := hne cl hcl
    have hdm : cl.headD 0 ∈ cl := headD_mem cl hclne
    have hdflat : cl.headD 0 ∈ classes.flatten := List.mem_flatten.mpr ⟨cl, hcl, hdm⟩
    have hrepr : reprOf classes s = cl.headD 0 := reprOf_eq_head classes c hsep cl s hcl hscl
    obtain ⟨parts1, parts2, _⟩ := class_member_parts A classes c hstab hinsn cl hcl s hscl
    have hsub : ∀ x ∈ (A.arcs s).map ArcRec.insn,
        x ∈ (A.arcs (cl.headD 0)).map ArcRec.insn := by
      intro x hx
      obtain ⟨a, ha, hax⟩ := List.mem_map.mp hx
      obtain ⟨b, hbf, _⟩ := parts1 a ha
      have hbm : b ∈ A.arcs (cl.headD 0) := List.mem_of_find?_eq_some hbf
      have hbeq : b.insn = a.insn := by
        have := List.find?_some hbf
        simpa using this
      exact List.mem_map.mpr ⟨b, hbm, by rw [hbeq, hax]⟩
    have hinsperm : List.Perm ((A.arcs s).map ArcRec.insn)
        ((A.arcs (cl.headD 0)).map ArcRec.insn) := by
      refine (List.subperm_of_subset (hinsn s hs) hsub).perm_of_length_le ?_
      simp [parts2]
    cases hfs : (A.arcs s).find? (fun a => a.insn == i) with
    | none =>
      have hnotin : i ∉ (A.arcs s).map ArcRec.insn := by
        intro hin
        obtain ⟨a, ha, hax⟩ := List.mem_map.mp hin
        have := List.find?_eq_none.mp hfs a ha
        simp [hax] at this
      have hnotin2 : i ∉ (A.arcs (cl.headD 0)).map ArcRec.insn := by
        intro hin
        exact hnotin (hinsperm.mem_iff.mpr hin)
      have hfh : (A.arcs (cl.headD 0)).find? (fun a => a.insn == i) = none := by
        rw [List.find?_eq_none]
        intro b hb
        simp only [beq_iff_eq]
        intro he
        exact hnotin2 (List.mem_map.mpr ⟨b, hb, he⟩)
      have hfm : ((mergedAuto A classes).arcs (cl.headD 0)).find?
          (fun x => x.insn == i) = none := by
        rw [merged_find_eq, hfh]
        rfl
      rw [runAuto_cons_none A s i w hfs, hrepr,
        runAuto_cons_none (mergedAuto A classes) (cl.headD 0) i w hfm]
      rfl
    | some a =>
      have ha : a ∈ A.arcs s := List.mem_of_find?_eq_some hfs
      have hai : a.insn = i := by
        have := List.find?_some hfs
        simpa using this
      obtain ⟨b, hbf, hbc⟩ := parts1 a ha
      have hbfind2 : (A.arcs (cl.headD 0)).find? (fun b2 => b2.insn == i) = some b := by
        rw [← hai]
        exact hbf
      have hbm : b ∈ A.arcs (cl.headD 0) := List.mem_of_find?_eq_some hbf
      have hadst : a.dst ∈ classes.flatten := hclosure s hs a ha
      have hbdst : b.dst ∈ classes.flatten := hclosure (cl.headD 0) hdflat b hbm
      obtain ⟨cl2, hcl2, hacl2, hbcl2⟩ :=
        reprOf_consistent classes c hsep a.dst b.dst hadst hbdst hbc
      have hre : reprOf classes a.dst = reprOf classes b.dst := by
        rw [reprOf_eq_head classes c hsep cl2 a.dst hcl2 hacl2,
          reprOf_eq_head classes c hsep cl2 b.dst hcl2 hbcl2]
      have hfm : ((mergedAuto A classes).arcs (cl.headD 0)).find?
          (fun x => x.insn == i) = some { b with dst := reprOf classes b.dst } := by
        rw [merged_find_eq, hbfind2]
        rfl
      rw [runAuto_cons_some A s i w a hfs, hrepr,
        runAuto_cons_some (mergedAuto A classes) (cl.headD 0) i w _ hfm]
      have := ih a.dst hadst
      rw [hre] at this
      exact this

/-- C4: minimization preserves the language. For an automaton whose
state list is closed under arcs, has at most one arc per insn and
sorted component lists, the partition computed by
evaluate_equiv_classes followed by the merge of merge_states yields an
automaton that accepts exactly the same instruction sequences as the
original, with the same first-cycle reservation observation of the
final state: every run of the original automaton and the corresponding
run of the merged automaton from the representative of the start state
either both fail or both succeed with equal observations. -/
theorem C4_minimization_preserves_language
    (A : MinAuto) (states : List Nat) (fuel : Nat)
    (out : List (List Nat) × (Nat → Nat))
    (hmin : evaluateEquivClasses A states fuel = some out)
    (hnd : states.Nodup)
    (hclosure : ∀ s ∈ states, ∀ a ∈ A.arcs s, a.dst ∈ states)
    (hinsn : ∀ s ∈ states, ((A.arcs s).map ArcRec.insn).Nodup)
    (hsorted : ∀ m ∈ states, (A.comps m).Pairwise (· < ·))
    (start : Nat) (hstart : start ∈ states) (w : List Nat) :
    (runAuto A start w).map (stateObs A)
      = (runAuto (mergedAuto A out.1) (reprOf out.1 start) w).map
          (stateObs (mergedAuto A out.1)) := by
  obtain ⟨classes, cF⟩ := out
  have hmin2 : refineLoop A fuel [states.reverse] (fun _ => 1) 1 = some (classes, cF) :=
    hmin
  have h0nd : ([states.reverse] : List (List Nat)).flatten.Nodup := by
    simp [hnd]
  have h0ne : ∀ cl ∈ ([states.reverse] : List (List Nat)), cl ≠ [] := by
    intro cl hcl
    have : cl = states.reverse := by simpa using hcl
    subst this
    intro he
    rw [List.reverse_eq_nil_iff] at he
    rw [he] at hstart
    cases hstart
  have h0sep : Separated [states.reverse] (fun _ => 1) := by
    intro i j hi hj s hs t ht
    simp only [List.length_singleton] at hi hj
    exact iff_of_true rfl (by omega)
  have h0b : ∀ s ∈ ([states.reverse] : List (List Nat)).flatten,
      (fun _ : Nat => 1) s ≤ 1 := fun s _ => Nat.le_refl 1
  obtain ⟨R1, R2, R3, R4⟩ :=
    refineLoop_spec A fuel [states.reverse] (fun _ => 1) 1 classes cF
      hmin2 h0nd h0ne h0sep h0b
  have hpermS : List.Perm classes.flatten states := by
    refine R2.trans ?_
    have he : ([states.reverse] : List (List Nat)).flatten = states.reverse := by simp
    rw [he]
    exact List.reverse_perm states
  have hclosure2 : ∀ s ∈ classes.flatten, ∀ a ∈ A.arcs s, a.dst ∈ classes.flatten := by
    intro s hs a ha
    exact hpermS.mem_iff.mpr (hclosure s (hpermS.mem_iff.mp hs) a ha)
  have hinsn2 : ∀ s ∈ classes.flatten, ((A.arcs s).map ArcRec.insn).Nodup :=
    fun s hs => hinsn s (hpermS.mem_iff.mp hs)
  have hsorted2 : ∀ m ∈ classes.flatten, List.Pairwise (· < ·) (A.comps m) :=
    fun m hm => hsorted m (hpermS.mem_iff.mp hm)
  exact minimization_simulation A classes cF R3 R1 R4 hclosure2 hinsn2 hsorted2
    w start (hpermS.mem_iff.mpr hstart)

/-- Witness for C4: on the five-state example the refinement loop
returns, and the original and merged automata agree on the word
consisting of the single insn 0 from start state 0. -/
theorem C4_minimization_preserves_language_witness :
    evaluateEquivClasses AC4 statesC4 20 = some outC4 ∧
      (runAuto AC4 0 [0]).map (stateObs AC4)
        = (runAuto (mergedAuto AC4 outC4.1) (reprOf outC4.1 0) [0]).map
            (stateObs (mergedAuto AC4 outC4.1)) :=
  ⟨rfl, C4_minimization_preserves_language AC4 statesC4 20 outC4 rfl (by decide)
    (by decide) (by decide) (by decide) 0 (by decide) [0]⟩





end Genautomata
